import Mathlib

/-!
# RLP encoder (`rlp/encode.go`): shallow embedding and verification

Bytes are natural numbers reduced modulo 256 wherever the Go code converts to
`byte`; Go `int` values (`offset`, `size`, `lhsize`) are integers, and the
conversion `uint64(x)` of an `int` is reduction modulo `2^64`.  A Go slice is a
list; an index or slice expression that would panic makes the embedded
function return `none`.
-/

namespace Rlp

/-! ## Machine-level helpers -/

/-- Go conversion `byte(x)` of an unsigned integer. -/
def byte (x : Nat) : Nat := x % 256

/-- Go conversion `uint64(x)` of an `int`. -/
def uint64 (x : Int) : Nat := (x % 2 ^ 64).toNat

/-- Assignment `b[i] = v`; `none` is the index-out-of-range panic. -/
def store (b : List Nat) (i v : Nat) : Option (List Nat) :=
  if i < b.length then some (b.set i v) else none

/-- Slice expression `s[lo:hi]`; `none` is the slice-bounds panic.  The
capacity of a slice is taken to be its length. -/
def slice (s : List Nat) (lo hi : Int) : Option (List Nat) :=
  if 0 ≤ lo ∧ lo ≤ hi ∧ hi ≤ (s.length : Int) then
    some ((s.take hi.toNat).drop lo.toNat)
  else none

/-- Go builtin `copy(dst, src)`: the new contents of `dst` and the number of
bytes copied. -/
def copy (dst src : List Nat) : List Nat × Nat :=
  (src.take (min dst.length src.length) ++ dst.drop (min dst.length src.length),
    min dst.length src.length)

/-! ## Integer framing primitives -/

/-- Loop of `intsize`: `size` counts the iterations, `i` is shifted right by
eight bits in each of them. -/
def intsizeLoop (i size : Nat) : Nat :=
  if h : i >>> 8 = 0 then size else intsizeLoop (i >>> 8) (size + 1)
termination_by i
decreasing_by
  simp only [Nat.shiftRight_eq_div_pow] at h ⊢
  omega

/-- Source function `intsize`: minimum number of bytes required to store `i`. -/
def intsize (i : Nat) : Nat := intsizeLoop i 1

/-- Source function `putint`: writes `i` to the beginning of `b` in big endian
byte order; returns the updated slice and the number of bytes written. -/
def putint (b : List Nat) (i : Nat) : Option (List Nat × Nat) :=
  if i < 1 <<< 8 then do
    let b ← store b 0 (byte i)
    pure (b, 1)
  else if i < 1 <<< 16 then do
    let b ← store b 0 (byte (i >>> 8))
    let b ← store b 1 (byte i)
    pure (b, 2)
  else if i < 1 <<< 24 then do
    let b ← store b 0 (byte (i >>> 16))
    let b ← store b 1 (byte (i >>> 8))
    let b ← store b 2 (byte i)
    pure (b, 3)
  else if i < 1 <<< 32 then do
    let b ← store b 0 (byte (i >>> 24))
    let b ← store b 1 (byte (i >>> 16))
    let b ← store b 2 (byte (i >>> 8))
    let b ← store b 3 (byte i)
    pure (b, 4)
  else if i < 1 <<< 40 then do
    let b ← store b 0 (byte (i >>> 32))
    let b ← store b 1 (byte (i >>> 24))
    let b ← store b 2 (byte (i >>> 16))
    let b ← store b 3 (byte (i >>> 8))
    let b ← store b 4 (byte i)
    pure (b, 5)
  else if i < 1 <<< 48 then do
    let b ← store b 0 (byte (i >>> 40))
    let b ← store b 1 (byte (i >>> 32))
    let b ← store b 2 (byte (i >>> 24))
    let b ← store b 3 (byte (i >>> 16))
    let b ← store b 4 (byte (i >>> 8))
    let b ← store b 5 (byte i)
    pure (b, 6)
  else if i < 1 <<< 56 then do
    let b ← store b 0 (byte (i >>> 48))
    let b ← store b 1 (byte (i >>> 40))
    let b ← store b 2 (byte (i >>> 32))
    let b ← store b 3 (byte (i >>> 24))
    let b ← store b 4 (byte (i >>> 16))
    let b ← store b 5 (byte (i >>> 8))
    let b ← store b 6 (byte i)
    pure (b, 7)
  else do
    let b ← store b 0 (byte (i >>> 56))
    let b ← store b 1 (byte (i >>> 48))
    let b ← store b 2 (byte (i >>> 40))
    let b ← store b 3 (byte (i >>> 32))
    let b ← store b 4 (byte (i >>> 24))
    let b ← store b 5 (byte (i >>> 16))
    let b ← store b 6 (byte (i >>> 8))
    let b ← store b 7 (byte i)
    pure (b, 8)

/-- Source function `headsize`: size of a list or string header for a value
of the given size. -/
def headsize (size : Nat) : Nat :=
  if size < 56 then 1 else 1 + intsize size

/-- Source function `puthead`: writes a list or string header to `buf`;
returns the updated buffer and the header length.  `putint` writes through
the sub-slice `buf[1:]`, which shares the storage of `buf`. -/
def puthead (buf : List Nat) (smalltag largetag size : Nat) : Option (List Nat × Nat) :=
  if size < 56 then do
    let buf ← store buf 0 (byte (smalltag + byte size))
    pure (buf, 1)
  else do
    let tl ← slice buf 1 buf.length
    let (tl, sizesize) ← putint tl size
    let buf := buf.take 1 ++ tl
    let buf ← store buf 0 (byte (largetag + byte sizesize))
    pure (buf, sizesize + 1)

/-! ## Encode buffer -/

/-- Source type `listhead`. -/
structure listhead where
  /-- index of this header in string data -/
  offset : Int
  /-- total size of encoded data (including list headers) -/
  size : Int
deriving DecidableEq, Repr

/-- Source type `encbuf`.  `lheads` holds the records the Go slice of pointers
points to; a `*listhead` is the index of its record in `lheads`. -/
structure encbuf where
  /-- string data, contains everything except list headers -/
  str : List Nat
  /-- all list headers -/
  lheads : List listhead
  /-- sum of sizes of all encoded list headers -/
  lhsize : Int
  /-- 9-byte auxiliary buffer for uint encoding -/
  sizebuf : List Nat
deriving DecidableEq, Repr

/-- Source method `listhead.encode`: writes the head to `buf`; returns the
updated buffer and the encoded bytes `buf[:n]`. -/
def listhead.encode (head : listhead) (buf : List Nat) : Option (List Nat × List Nat) := do
  let (buf, n) ← puthead buf 0xC0 0xF7 (uint64 head.size)
  pure (buf, buf.take n)

/-- The buffer `encbufPool.New` allocates. -/
def encbuf.new : encbuf :=
  { str := [], lheads := [], lhsize := 0, sizebuf := List.replicate 9 0 }

/-- Source method `encbuf.reset`. -/
def encbuf.reset (w : encbuf) : encbuf :=
  { w with lhsize := 0, str := w.str.take 0, lheads := w.lheads.take 0 }

/-- Source method `encbuf.Write`; `writeRawValue` performs the same append. -/
def encbuf.Write (w : encbuf) (b : List Nat) : encbuf :=
  { w with str := w.str ++ b }

/-- Source method `encbuf.encodeStringHeader`. -/
def encbuf.encodeStringHeader (w : encbuf) (size : Int) : Option encbuf :=
  if size < 56 then
    some { w with str := w.str ++ [byte (0x80 + byte (uint64 size))] }
  else do
    let tl ← slice w.sizebuf 1 w.sizebuf.length
    let (tl, sizesize) ← putint tl (uint64 size)
    let sizebuf := w.sizebuf.take 1 ++ tl
    let sizebuf ← store sizebuf 0 (byte (0xB7 + byte sizesize))
    let hd ← slice sizebuf 0 (sizesize + 1)
    pure { w with sizebuf := sizebuf, str := w.str ++ hd }

/-- Source method `encbuf.encodeString`. -/
def encbuf.encodeString (w : encbuf) (b : List Nat) : Option encbuf :=
  if b.length = 1 ∧ b.headD 0 ≤ 0x7F then
    some { w with str := w.str ++ [b.headD 0] }
  else do
    let w ← w.encodeStringHeader b.length
    pure { w with str := w.str ++ b }

/-- Source method `encbuf.list`: registers a new record and returns the
reference to it. -/
def encbuf.list (w : encbuf) : encbuf × Nat :=
  ({ w with lheads := w.lheads ++ [{ offset := w.str.length, size := w.lhsize }] },
    w.lheads.length)

/-- Source method `encbuf.size`. -/
def encbuf.size (w : encbuf) : Int := w.str.length + w.lhsize

/-- Source method `encbuf.listEnd`; `none` when `lh` refers to no record of
this buffer. -/
def encbuf.listEnd (w : encbuf) (lh : Nat) : Option encbuf :=
  match w.lheads[lh]? with
  | none => none
  | some r =>
    let sz := w.size - r.offset - r.size
    let w1 := { w with lheads := w.lheads.set lh { r with size := sz } }
    if sz < 56 then
      some { w1 with lhsize := w1.lhsize + 1 }
    else
      some { w1 with lhsize := w1.lhsize + (1 + intsize (uint64 sz)) }

/-- Loop of `encbuf.toBytes` over the list heads: the state is the output
buffer `out` and the cursors `strpos` and `pos`. -/
def toBytesLoop (str : List Nat) :
    List listhead → List Nat → Nat → Nat → Option (List Nat × Nat × Nat)
  | [], out, strpos, pos => some (out, strpos, pos)
  | head :: rest, out, strpos, pos => do
    let dst ← slice out pos out.length
    let src ← slice str strpos head.offset
    let (dst, n) := copy dst src
    let out := out.take pos ++ dst
    let pos := pos + n
    let strpos := strpos + n
    let buf ← slice out pos out.length
    let (buf, enc) ← head.encode buf
    let out := out.take pos ++ buf
    toBytesLoop str rest out strpos (pos + enc.length)

/-- Body of `encbuf.toBytes`, returning besides the output the cursor `pos`
after the last header and the number of bytes the final `copy` moved. -/
def encbuf.toBytesAux (w : encbuf) : Option (List Nat × Nat × Nat) :=
  if w.size < 0 then none
  else do
    let out := List.replicate w.size.toNat 0
    let (out, strpos, pos) ← toBytesLoop w.str w.lheads out 0 0
    let dst ← slice out pos out.length
    let src ← slice w.str strpos w.str.length
    let (dst, n) := copy dst src
    pure (out.take pos ++ dst, pos, n)

/-- Source method `encbuf.toBytes`. -/
def encbuf.toBytes (w : encbuf) : Option (List Nat) :=
  (w.toBytesAux).map (fun r => r.1)

/-! ## Emitters -/

/-- Source function `writeUint`, applied to the value `i = val.Uint()`. -/
def writeUint (i : Nat) (w : encbuf) : Option encbuf :=
  if i = 0 then
    some { w with str := w.str ++ [0x80] }
  else if i < 128 then
    some { w with str := w.str ++ [byte i] }
  else do
    let tl ← slice w.sizebuf 1 w.sizebuf.length
    let (tl, s) ← putint tl i
    let sizebuf := w.sizebuf.take 1 ++ tl
    let sizebuf ← store sizebuf 0 (byte (0x80 + byte s))
    let hd ← slice sizebuf 0 (s + 1)
    pure { w with sizebuf := sizebuf, str := w.str ++ hd }

/-- Source function `writeBool`. -/
def writeBool (v : Bool) (w : encbuf) : encbuf :=
  if v then { w with str := w.str ++ [0x01] } else { w with str := w.str ++ [0x80] }

/-- Source function `writeBytes`, applied to `val.Bytes()`. -/
def writeBytes (b : List Nat) (w : encbuf) : Option encbuf :=
  w.encodeString b

/-- Minimal big-endian bytes of a natural number: no leading zero byte, and
no byte at all for zero. -/
def beBytes (n : Nat) : List Nat := (Nat.digits 256 n).reverse

/-- Go standard library method `big.Int.Cmp`, with `big.Int` taken as the
integers. -/
def bigCmp (x y : Int) : Int := if x < y then -1 else if x = y then 0 else 1

/-- Go standard library method `big.Int.Bytes`: the absolute value as a
big-endian byte slice. -/
def bigBytes (x : Int) : List Nat := beBytes x.natAbs

/-- Source function `writeBigInt`: the buffer after the call and the returned
error (`none` for `nil`). -/
def writeBigInt (i : Int) (w : encbuf) : Option (encbuf × Option String) :=
  if bigCmp i 0 = -1 then
    some (w, some "rlp: cannot encode negative *big.Int")
  else if bigCmp i 0 = 0 then
    some ({ w with str := w.str ++ [0x80] }, none)
  else do
    let w ← w.encodeString (bigBytes i)
    pure (w, none)

/-- An RLP item: a byte string or a list of items. -/
inductive Item where
  | str (b : List Nat)
  | list (xs : List Item)

mutual
/-- Emission of an item: `writeBytes` for a string, and for a list the writer
built by `makeStructWriter` (`list()`, the children in order, `listEnd`). -/
def emit : Item → encbuf → Option encbuf
  | .str b, w => writeBytes b w
  | .list xs, w => do
    let w1 ← emitAll xs (w.list).1
    w1.listEnd (w.list).2
/-- The loop of the struct writer over the children. -/
def emitAll : List Item → encbuf → Option encbuf
  | [], w => some w
  | x :: xs, w => do
    let w1 ← emit x w
    emitAll xs w1
end

/-- Source function `EncodeToBytes` on an item, with the buffer `eb` the pool
hands out. -/
def encodeToBytes (eb : encbuf) (v : Item) : Option (List Nat) := do
  let w ← emit v eb.reset
  w.toBytes

/-! ## Call sequences on an encode buffer -/

/-- A call on an encode buffer.  `listEnd lh` passes the reference `lh` that an
earlier `list` returned. -/
inductive Op where
  | Write (b : List Nat)
  | encodeString (b : List Nat)
  | writeUint (i : Nat)
  | writeBool (v : Bool)
  | list
  | listEnd (lh : Nat)

/-- An encode buffer together with the references of the lists that were
opened and not yet closed, the most recent first. -/
structure Session where
  w : encbuf
  opened : List Nat

/-- The session a top-level operation starts with: the pooled buffer after
`reset`. -/
def Session.start (eb : encbuf) : Session := { w := eb.reset, opened := [] }

/-- One call.  `listEnd` is accepted only for a reference that is still open,
so that every record is closed at most once. -/
def Session.step (s : Session) : Op → Option Session
  | .Write b => some { s with w := s.w.Write b }
  | .encodeString b => (s.w.encodeString b).map (fun w => { s with w := w })
  | .writeUint i => (writeUint i s.w).map (fun w => { s with w := w })
  | .writeBool v => some { s with w := writeBool v s.w }
  | .list => some { w := (s.w.list).1, opened := (s.w.list).2 :: s.opened }
  | .listEnd lh =>
    if lh ∈ s.opened then
      (s.w.listEnd lh).map (fun w => { w := w, opened := s.opened.erase lh })
    else none

/-- A sequence of calls. -/
def Session.run (s : Session) : List Op → Option Session
  | [] => some s
  | op :: ops => (s.step op).bind (fun t => t.run ops)

/-- The call closes the innermost open list when it is a `listEnd`. -/
def Session.innermost (s : Session) : Op → Bool
  | .listEnd lh => s.opened.head? == some lh
  | _ => true

/-- A sequence of calls in which every `listEnd` closes the innermost open
list. -/
def Session.runWB (s : Session) : List Op → Option Session
  | [] => some s
  | op :: ops =>
    if s.innermost op then (s.step op).bind (fun t => t.runWB ops) else none

/-- Spec notion `width(n)`: 1 if `n < 56`, else `1 + minimal_bytes(n)`, with
`intsize` for `minimal_bytes` and the `int` argument converted to `uint64` as
at the call of `intsize`. -/
def width (n : Int) : Int := if n < 56 then 1 else 1 + intsize (uint64 n)

/-- Sum of `width(record.size)` over the closed records, that is the records
whose reference is not in `opened`; the records are numbered from `k`. -/
def closedWidths : List listhead → Nat → List Nat → Int
  | [], _, _ => 0
  | r :: rs, k, opened =>
    (if k ∈ opened then 0 else width r.size) + closedWidths rs (k + 1) opened

/-- Sum of `width` over all records. -/
def widths (heads : List listhead) : Int := (heads.map (fun r => width r.size)).sum

/-- The offsets of the records are in order and lie between `lo` and `hi`. -/
def OffsetsOk : Int → Int → List listhead → Prop
  | lo, hi, [] => lo ≤ hi
  | lo, hi, r :: rs => lo ≤ r.offset ∧ OffsetsOk r.offset hi rs

/-- Number of bytes the headers of the records take in the output of
`toBytes`. -/
def headBytes (heads : List listhead) : Nat :=
  (heads.map (fun r => headsize (uint64 r.size))).sum

/-- Invariant of the sessions reachable from `Session.start`. -/
structure Session.Inv (s : Session) : Prop where
  nodup : s.opened.Nodup
  bound : ∀ k ∈ s.opened, k < s.w.lheads.length
  lhsize_eq : s.w.lhsize = closedWidths s.w.lheads 0 s.opened
  offsets : OffsetsOk 0 s.w.str.length s.w.lheads
  size_nonneg : ∀ r ∈ s.w.lheads, 0 ≤ r.size
  open_le : ∀ k r, s.w.lheads[k]? = some r → k ∈ s.opened → r.size ≤ s.w.lhsize
  closed_le : ∀ k r, s.w.lheads[k]? = some r → k ∉ s.opened → r.size ≤ s.w.size

/-- Additional invariant of the sessions reached by well-bracketed call
sequences: the open references form a stack, and the record of an open list
still holds the `lhsize` of the moment it was opened. -/
structure Session.InvWB (s : Session) : Prop where
  sorted : s.opened.Pairwise (fun a b => b < a)
  snapshot : ∀ k r, s.w.lheads[k]? = some r → k ∈ s.opened →
    r.size = closedWidths (s.w.lheads.take k) 0 s.opened

/-! ## Wire format of the specification -/

/-- Spec function `minimal_bytes`: the number of bytes needed to represent a
64-bit `n` in big-endian with no leading zero byte, and 1 for zero. -/
def minimal_bytes (n : Nat) : Nat :=
  if n < 256 ^ 1 then 1
  else if n < 256 ^ 2 then 2
  else if n < 256 ^ 3 then 3
  else if n < 256 ^ 4 then 4
  else if n < 256 ^ 5 then 5
  else if n < 256 ^ 6 then 6
  else if n < 256 ^ 7 then 7
  else 8

/-- Spec notion `be(n, k)`: the `k`-byte big-endian representation of `n`. -/
def be (n : Nat) : Nat → List Nat
  | 0 => []
  | k + 1 => be (n / 256) k ++ [n % 256]

/-- Value of a byte sequence read as a base-256 big-endian number. -/
def beValue (bs : List Nat) : Nat := bs.foldl (fun acc x => acc * 256 + x) 0

/-- Wire format: head of a string of length `n` that is not a single low
byte. -/
def string_header (n : Nat) : List Nat :=
  if n < 56 then [0x80 + n] else (0xB7 + minimal_bytes n) :: be n (minimal_bytes n)

/-- Wire format of a byte string. -/
def string_enc (b : List Nat) : List Nat :=
  if b.length = 1 ∧ b.headD 0 ≤ 0x7F then [b.headD 0] else string_header b.length ++ b

/-- Wire format: head of a list with total inner-encoded size `s`. -/
def list_header (s : Nat) : List Nat :=
  if s < 56 then [0xC0 + s] else (0xF7 + minimal_bytes s) :: be s (minimal_bytes s)

mutual
/-- Reference wire encoding of an item. -/
def enc : Item → List Nat
  | .str b => string_enc b
  | .list xs => list_header (encAll xs).length ++ encAll xs
/-- Concatenation of the encodings of the children. -/
def encAll : List Item → List Nat
  | [] => []
  | x :: xs => enc x ++ encAll xs
end

/-- The output `toBytes` is to produce, as a function: the payload from
`strpos` on with the header of every record inserted at its offset. -/
def spliceFrom (str : List Nat) : List listhead → Nat → List Nat
  | [], strpos => str.drop strpos
  | r :: rs, strpos =>
    (str.take r.offset.toNat).drop strpos ++ list_header (uint64 r.size) ++
      spliceFrom str rs r.offset.toNat

mutual
/-- Modelled from the spec: the decoder is not part of the sources; this is
a decoder for the wire format table (section 6), reading one item from the
front of the input and returning it with the bytes that follow it. -/
def decodeItem : Nat → List Nat → Option (Item × List Nat)
  | 0, _ => none
  | _ + 1, [] => none
  | fuel + 1, t :: rest =>
    if t ≤ 0x7F then some (.str [t], rest)
    else if t ≤ 0xB7 then
      if rest.length < t - 0x80 then none
      else some (.str (rest.take (t - 0x80)), rest.drop (t - 0x80))
    else if t ≤ 0xBF then
      if rest.length < t - 0xB7 then none
      else if (rest.drop (t - 0xB7)).length < beValue (rest.take (t - 0xB7)) then none
      else
        some (.str ((rest.drop (t - 0xB7)).take (beValue (rest.take (t - 0xB7)))),
          (rest.drop (t - 0xB7)).drop (beValue (rest.take (t - 0xB7))))
    else if t ≤ 0xF7 then
      if rest.length < t - 0xC0 then none
      else
        match decodeItems fuel (rest.take (t - 0xC0)) with
        | none => none
        | some xs => some (.list xs, rest.drop (t - 0xC0))
    else if t ≤ 0xFF then
      if rest.length < t - 0xF7 then none
      else if (rest.drop (t - 0xF7)).length < beValue (rest.take (t - 0xF7)) then none
      else
        match decodeItems fuel ((rest.drop (t - 0xF7)).take (beValue (rest.take (t - 0xF7)))) with
        | none => none
        | some xs =>
          some (.list xs, (rest.drop (t - 0xF7)).drop (beValue (rest.take (t - 0xF7))))
    else none
/-- Modelled from the spec: the items of a list payload, read until the
payload is used up. -/
def decodeItems : Nat → List Nat → Option (List Item)
  | 0, _ => none
  | _ + 1, [] => some []
  | fuel + 1, t :: rest =>
    match decodeItem fuel (t :: rest) with
    | none => none
    | some (x, rest1) =>
      match decodeItems fuel rest1 with
      | none => none
      | some xs => some (x :: xs)
end

/-- Modelled from the spec: decoding of a whole input; the fuel is enough
for every input of this length. -/
def decode (bs : List Nat) : Option (Item × List Nat) := decodeItem (2 * bs.length) bs

/-! ## Streaming emit: `toWriter` -/

/-- An `io.Writer` the encoder streams to: `log` holds the slices passed to
`Write` so far, in order, and `reply` is the behaviour of the sink, giving for
the slices received before and the slice written now the count and the error
that `Write` returns. -/
structure Sink where
  log : List (List Nat)
  reply : List (List Nat) → List Nat → Int × Option String

/-- Interface method `io.Writer.Write` on a sink. -/
def Sink.Write (out : Sink) (p : List Nat) : Sink × Int × Option String :=
  ({ out with log := out.log ++ [p] }, out.reply out.log p)

/-- Contract of `io.Writer`: a `Write` that returns no error has written all
of `p`. -/
def Sink.Conforming (out : Sink) : Prop :=
  ∀ (log : List (List Nat)) (p : List Nat), (out.reply log p).2 = none →
    (out.reply log p).1 = p.length

/-- Part of the contract of `io.Writer`: a `Write` that returns no error
reports a count `n` with `0 <= n <= len(p)`. -/
def Sink.InRange (out : Sink) : Prop :=
  ∀ (log : List (List Nat)) (p : List Nat), (out.reply log p).2 = none →
    0 ≤ (out.reply log p).1 ∧ (out.reply log p).1 ≤ p.length

/-- The sink accepts every write in full without error. -/
def Sink.Accepting (out : Sink) : Prop :=
  ∀ (log : List (List Nat)) (p : List Nat), out.reply log p = ((p.length : Int), none)

/-- Loop of `encbuf.toWriter` over the list heads.  The state is the sink, the
cursor `strpos` and the scratch region `w.sizebuf`; the last component is the
error the loop returns with, if any. -/
def toWriterLoop (str : List Nat) :
    List listhead → Sink → Int → List Nat → Option (Sink × Int × List Nat × Option String)
  | [], out, strpos, sizebuf => some (out, strpos, sizebuf, none)
  | head :: rest, out, strpos, sizebuf =>
    if head.offset - strpos > 0 then
      match slice str strpos head.offset with
      | none => none
      | some p =>
        match (out.Write p).2.2 with
        | some err => some ((out.Write p).1, strpos + (out.Write p).2.1, sizebuf, some err)
        | none =>
          match head.encode sizebuf with
          | none => none
          | some (sizebuf1, enc) =>
            match (((out.Write p).1).Write enc).2.2 with
            | some err =>
              some ((((out.Write p).1).Write enc).1, strpos + (out.Write p).2.1, sizebuf1,
                some err)
            | none =>
              toWriterLoop str rest (((out.Write p).1).Write enc).1
                (strpos + (out.Write p).2.1) sizebuf1
    else
      match head.encode sizebuf with
      | none => none
      | some (sizebuf1, enc) =>
        match (out.Write enc).2.2 with
        | some err => some ((out.Write enc).1, strpos, sizebuf1, some err)
        | none => toWriterLoop str rest (out.Write enc).1 strpos sizebuf1

/-- Source method `encbuf.toWriter`: the buffer (its scratch region is
written), the sink and the returned error. -/
def encbuf.toWriter (w : encbuf) (out : Sink) : Option (encbuf × Sink × Option String) :=
  match toWriterLoop w.str w.lheads out 0 w.sizebuf with
  | none => none
  | some (out1, _, sizebuf, some err) => some ({ w with sizebuf := sizebuf }, out1, some err)
  | some (out1, strpos, sizebuf, none) =>
    if strpos < (w.str.length : Int) then
      match slice w.str strpos w.str.length with
      | none => none
      | some p => some ({ w with sizebuf := sizebuf }, (out1.Write p).1, (out1.Write p).2.2)
    else some ({ w with sizebuf := sizebuf }, out1, none)

/-- The writes `pieces` made to a sink whose log was `log` went as `toWriter`
reports them: every write but the last returned no error, and `err` is what
the last one returned (no error when nothing was written). -/
def writesStopAtError (reply : List (List Nat) → List Nat → Int × Option String) :
    List (List Nat) → List (List Nat) → Option String → Prop
  | _, [], err => err = none
  | log, [p], err => err = (reply log p).2
  | log, p :: q :: ps, err =>
    (reply log p).2 = none ∧ writesStopAtError reply (log ++ [p]) (q :: ps) err

/-! ## Scratch pool and pull reader -/

/-- The pool `encbufPool` as explicit state: the buffers it holds and, as
bookkeeping, how often `Get` and `Put` were called. -/
structure Pool where
  free : List encbuf
  gets : Nat
  puts : Nat

/-- Library method `sync.Pool.Get` on `encbufPool`: a buffer the pool holds,
or a new one from `New`. -/
def Pool.Get (pool : Pool) : encbuf × Pool :=
  match pool.free with
  | [] => (encbuf.new, { pool with gets := pool.gets + 1 })
  | eb :: rest => (eb, { pool with free := rest, gets := pool.gets + 1 })

/-- Library method `sync.Pool.Put` on `encbufPool`. -/
def Pool.Put (pool : Pool) (eb : encbuf) : Pool :=
  { pool with free := eb :: pool.free, puts := pool.puts + 1 }

/-- Source type `encReader`.  `buf` and `piece` are `none` when the Go fields
are `nil`; a piece is a copy of the bytes the Go slice views. -/
structure encReader where
  /-- the buffer we're reading from. this is nil when we're at EOF. -/
  buf : Option encbuf
  /-- index of list header that we're reading -/
  lhpos : Nat
  /-- current position in string buffer -/
  strpos : Int
  /-- next piece to be read -/
  piece : Option (List Nat)

/-- The reader `EncodeToReader` returns: `&encReader{buf: eb}`. -/
def encReader.new (eb : encbuf) : encReader :=
  { buf := some eb, lhpos := 0, strpos := 0, piece := none }

/-- Source method `encReader.next`: the reader after the call and the piece
returned (`none` for `nil`). -/
def encReader.next (r : encReader) : Option (encReader × Option (List Nat)) :=
  match r.buf with
  | none => some (r, none)
  | some buf =>
    match r.piece with
    | some p => some (r, some p)
    | none =>
      if r.lhpos < buf.lheads.length then
        match buf.lheads[r.lhpos]? with
        | none => none
        | some head =>
          if head.offset - r.strpos > 0 then
            match slice buf.str r.strpos head.offset with
            | none => none
            | some p => some ({ r with strpos := r.strpos + (head.offset - r.strpos) }, some p)
          else
            match head.encode buf.sizebuf with
            | none => none
            | some (sizebuf, enc) =>
              some ({ r with lhpos := r.lhpos + 1, buf := some { buf with sizebuf := sizebuf } },
                some enc)
      else if r.strpos < (buf.str.length : Int) then
        match slice buf.str r.strpos buf.str.length with
        | none => none
        | some p => some ({ r with strpos := buf.str.length }, some p)
      else some (r, none)

/-- Loop of `encReader.Read`, one iteration per unit of fuel.  The result is
the pool, the reader, the caller's buffer, the count `n` and whether the error
is `io.EOF`. -/
def readLoop : Nat → Pool → encReader → List Nat → Nat →
    Option (Pool × encReader × List Nat × Nat × Bool)
  | 0, _, _, _, _ => none
  | fuel + 1, pool, r, b, n =>
    match r.next with
    | none => none
    | some (r1, none) =>
      match r1.buf with
      | some eb => some (pool.Put eb, { r1 with piece := none, buf := none }, b, n, true)
      | none => some (pool, { r1 with piece := none }, b, n, true)
    | some (r1, some p) =>
      match slice b n b.length with
      | none => none
      | some dst =>
        if (copy dst p).2 < p.length then
          some (pool, { r1 with piece := some (p.drop (copy dst p).2) },
            b.take n ++ (copy dst p).1, n + (copy dst p).2, false)
        else
          readLoop fuel pool { r1 with piece := none } (b.take n ++ (copy dst p).1)
            (n + (copy dst p).2)

/-- Number of iterations that is enough for one `Read`: every iteration but the
last uses up a non-empty piece, and the pieces are the current piece, disjoint
parts of the payload and one header of at most 9 bytes for each record. -/
def encReader.fuel (r : encReader) : Nat :=
  match r.buf with
  | none => 1
  | some buf => (r.piece.getD []).length + buf.str.length + 9 * buf.lheads.length + 2

/-- Source method `encReader.Read`. -/
def encReader.Read (pool : Pool) (r : encReader) (b : List Nat) :
    Option (Pool × encReader × List Nat × Nat × Bool) :=
  readLoop r.fuel pool r b 0

/-- Successive `Read` calls with the caller buffers `bufs`: for each call the
bytes returned (`b[:n]`) and whether it reported `io.EOF`. -/
def readSeq : Pool → encReader → List (List Nat) →
    Option (Pool × encReader × List (List Nat × Bool))
  | pool, r, [] => some (pool, r, [])
  | pool, r, b :: bs =>
    match encReader.Read pool r b with
    | none => none
    | some (pool1, r1, b1, n, eof) =>
      match readSeq pool1 r1 bs with
      | none => none
      | some (pool2, r2, results) => some (pool2, r2, (b1.take n, eof) :: results)

/-- The bytes a reader has still to deliver. -/
def encReader.rest (r : encReader) : List Nat :=
  match r.buf with
  | none => []
  | some buf =>
    r.piece.getD [] ++ spliceFrom buf.str (buf.lheads.drop r.lhpos) r.strpos.toNat

/-- Invariant of a reader over a buffer with ordered offsets. -/
def encReader.Ok (r : encReader) : Prop :=
  match r.buf with
  | none => r.piece = none
  | some buf =>
    buf.sizebuf.length = 9 ∧ 0 ≤ r.strpos ∧
      OffsetsOk r.strpos buf.str.length (buf.lheads.drop r.lhpos) ∧ r.piece ≠ some []

/-! ## Types, values and writers -/

/-- Go standard library type `reflect.Kind`. -/
inductive Kind where
  | Invalid | Bool | Int | Int8 | Int16 | Int32 | Int64
  | Uint | Uint8 | Uint16 | Uint32 | Uint64 | Uintptr
  | Float32 | Float64 | Complex64 | Complex128
  | Array | Chan | Func | Interface | Map | Ptr | Slice | String | Struct | UnsafePointer
deriving DecidableEq, Repr

/-- The kinds of the types whose element type or fields the encoder never asks
for. -/
inductive PlainKind where
  | Bool | Int | Int8 | Int16 | Int32 | Int64
  | Uint | Uint8 | Uint16 | Uint32 | Uint64 | Uintptr
  | Float32 | Float64 | Complex64 | Complex128
  | Chan | Func | Map | String | UnsafePointer
deriving DecidableEq, Repr

/-- The `reflect.Kind` of a plain kind. -/
def PlainKind.toKind : PlainKind → Kind
  | .Bool => .Bool | .Int => .Int | .Int8 => .Int8 | .Int16 => .Int16 | .Int32 => .Int32
  | .Int64 => .Int64 | .Uint => .Uint | .Uint8 => .Uint8 | .Uint16 => .Uint16
  | .Uint32 => .Uint32 | .Uint64 => .Uint64 | .Uintptr => .Uintptr | .Float32 => .Float32
  | .Float64 => .Float64 | .Complex64 => .Complex64 | .Complex128 => .Complex128
  | .Chan => .Chan | .Func => .Func | .Map => .Map | .String => .String
  | .UnsafePointer => .UnsafePointer

/-- Whether a type has the method `EncodeRLP` of the interface `Encoder`, and
with which receiver. -/
inductive Receiver where
  | absent | value | pointer
deriving DecidableEq, Repr

/-- A Go type as the encoder observes it through package reflect.  A struct
type lists its serializable fields: index, `tail` tag and type. -/
inductive Typ where
  /-- the type `RawValue` (`rawValueType`) -/
  | rawValue
  /-- the type `big.Int` (`bigInt`) -/
  | bigInt
  | plain (name : String) (kind : PlainKind) (recv : Receiver)
  | iface (name : String) (enc : Bool)
  | array (len : Nat) (elem : Typ) (recv : Receiver)
  | slice (elem : Typ) (recv : Receiver)
  | struct (name : String) (recv : Receiver) (fields : List (Nat × Bool × Typ))
  | ptr (elem : Typ)

/-- Go standard library method `reflect.Type.Kind`. -/
def Typ.Kind : Typ → Kind
  | .rawValue => .Slice
  | .bigInt => .Struct
  | .plain _ k _ => k.toKind
  | .iface _ _ => .Interface
  | .array _ _ _ => .Array
  | .slice _ _ => .Slice
  | .struct _ _ _ => .Struct
  | .ptr _ => .Ptr

/-- Go standard library method `reflect.Type.Elem`, for the kinds Array, Slice
and Ptr; `none` is the panic for a type without element type. -/
def Typ.Elem : Typ → Option Typ
  | .rawValue => some (.plain "uint8" .Uint8 .absent)
  | .array _ e _ => some e
  | .slice e _ => some e
  | .ptr e => some e
  | _ => none

/-- The receiver of the method `EncodeRLP` of a type. -/
def Typ.recv : Typ → Receiver
  | .plain _ _ r => r
  | .array _ _ r => r
  | .slice _ r => r
  | .struct _ r _ => r
  | _ => .absent

/-- Go standard library call `typ.Implements(encoderInterface)`: the method set
of a pointer type holds the methods of its element type with either receiver. -/
def Typ.Implements : Typ → Bool
  | .iface _ enc => enc
  | .ptr e => e.recv != .absent
  | t => t.recv == .value

/-- The comparison `typ == rawValueType`. -/
def Typ.isRawValue : Typ → Bool
  | .rawValue => true
  | _ => false

/-- Go standard library call `typ.AssignableTo(reflect.PtrTo(bigInt))`. -/
def Typ.assignableToBigIntPtr : Typ → Bool
  | .ptr .bigInt => true
  | _ => false

/-- Go standard library call `typ.AssignableTo(bigInt)`. -/
def Typ.assignableToBigInt : Typ → Bool
  | .bigInt => true
  | _ => false

/-- Go standard library method `reflect.Type.String`, which `%v` prints. -/
def Typ.String : Typ → String
  | .rawValue => "rlp.RawValue"
  | .bigInt => "big.Int"
  | .plain name _ _ => name
  | .iface name _ => name
  | .array len e _ => "[" ++ toString len ++ "]" ++ e.String
  | .slice e _ => "[]" ++ e.String
  | .struct name _ _ => name
  | .ptr e => "*" ++ e.String

/-- A Go value as the writers observe it through package reflect: what
`Bytes`, `Uint`, `Bool`, `String`, `Interface().(big.Int)` return, the elements
of a slice or array and the fields of a struct (`Len`, `Index`, `Field`), a
pointer (`IsNil`, `Elem`), an interface value with its dynamic type, and a
value with the method `EncodeRLP`, which is handed the buffer. -/
inductive Value where
  | bytes (b : List Nat)
  | uint (i : Nat)
  | bool (b : Bool)
  | string (s : List Nat)
  | bigInt (i : Int)
  | list (vs : List Value)
  | ptr (p : Option Value)
  | iface (e : Option (Typ × Value))
  | encoder (typ : Typ) (canAddr : Bool) (EncodeRLP : encbuf → Option (encbuf × Option String))

/-- Source type `writer`: the buffer after the call and the returned error;
`none` is a panic. -/
abbrev writer := Value → encbuf → Option (encbuf × Option String)

/-- Modelled from the spec: the struct `tags` is declared outside the source
file; of the field tags the encoder reads `tail`, which "suppresses the list
framing of a sequence field". -/
structure tags where
  tail : Bool := false

/-- Modelled from the spec: the struct `typeinfo` is declared outside the
source file; the encoder uses its field `writer`, the "cached emitter". -/
structure typeinfo where
  writer : writer

/-- Modelled from the spec: the struct `field` is declared outside the source
file; the struct writer uses the index of the field and its `typeinfo`. -/
structure field where
  index : Nat
  info : typeinfo

/-- The functions the source file calls and does not define: the lookups
`cachedTypeInfo`, `cachedTypeInfo1` and `structFields` of the type cache, and
the library function `reflect.Zero`.  `none` stands for a call that does not
return. -/
structure Env where
  cachedTypeInfo : Typ → tags → Option (Except String typeinfo)
  cachedTypeInfo1 : Typ → tags → Option (Except String typeinfo)
  structFields : Typ → Option (Except String (List field))
  Zero : Typ → Value

/-- Modelled from the spec: `isUint` is defined outside the source file; the
"unsigned fixed-width integer" kinds. -/
def isUint (k : Kind) : Bool :=
  k = .Uint ∨ k = .Uint8 ∨ k = .Uint16 ∨ k = .Uint32 ∨ k = .Uint64 ∨ k = .Uintptr

/-- Source function `isByte`. -/
def isByte (typ : Typ) : Bool :=
  typ.Kind = .Uint8 && !typ.Implements

/-- The test `isByte(typ.Elem())`, which the source evaluates for types of
kind Slice or Array only. -/
def elemIsByte (typ : Typ) : Bool :=
  match typ.Elem with
  | some e => isByte e
  | none => false

/-- Source function `writeRawValue`. -/
def writeRawValue : writer
  | .bytes b, w => some ({ w with str := w.str ++ b }, none)
  | _, _ => none

/-- Source function `writeUint` on a `reflect.Value`. -/
def writeUintVal : writer
  | .uint i, w => (writeUint i w).map (fun w1 => (w1, none))
  | _, _ => none

/-- Source function `writeBool` on a `reflect.Value`. -/
def writeBoolVal : writer
  | .bool v, w => some (writeBool v w, none)
  | _, _ => none

/-- Source function `writeBigIntPtr`. -/
def writeBigIntPtr : writer
  | .ptr none, w => some ({ w with str := w.str ++ [0x80] }, none)
  | .ptr (some (.bigInt i)), w => writeBigInt i w
  | _, _ => none

/-- Source function `writeBigIntNoPtr`. -/
def writeBigIntNoPtr : writer
  | .bigInt i, w => writeBigInt i w
  | _, _ => none

/-- Source function `writeBytes` on a `reflect.Value`. -/
def writeBytesVal : writer
  | .bytes b, w => (writeBytes b w).map (fun w1 => (w1, none))
  | _, _ => none

/-- Source function `writeByteArray`: the copy that makes the value
addressable has the same bytes. -/
def writeByteArray : writer
  | .bytes b, w => (w.encodeString b).map (fun w1 => (w1, none))
  | _, _ => none

/-- Source function `writeString`. -/
def writeString : writer
  | .string s, w =>
    if s.length = 1 ∧ s.headD 0 ≤ 0x7f then
      some ({ w with str := w.str ++ [s.headD 0] }, none)
    else
      (w.encodeStringHeader s.length).map (fun w1 => ({ w1 with str := w1.str ++ s }, none))
  | _, _ => none

/-- Source function `writeEncoder`. -/
def writeEncoder : writer
  | .encoder _ _ f, w => f w
  | _, _ => none

/-- Source function `writeEncoderNoPtr`. -/
def writeEncoderNoPtr : writer
  | .encoder typ canAddr f, w =>
    if !canAddr then
      some (w, some ("rlp: game over: unadressable value of type " ++ typ.String ++
        ", EncodeRLP is pointer method"))
    else f w
  | _, _ => none

/-- Source function `writeInterface`. -/
def writeInterface (env : Env) : writer
  | .iface none, w => some ({ w with str := w.str ++ [0xC0] }, none)
  | .iface (some (typ, eval)), w =>
    match env.cachedTypeInfo typ {} with
    | none => none
    | some (.error err) => some (w, some err)
    | some (.ok ti) => ti.writer eval w
  | _, _ => none

/-- The loop of the slice writer over the elements. -/
def sliceLoop (ew : writer) : List Value → encbuf → Option (encbuf × Option String)
  | [], w => some (w, none)
  | v :: vs, w =>
    match ew v w with
    | none => none
    | some (w1, some err) => some (w1, some err)
    | some (w1, none) => sliceLoop ew vs w1

/-- Source function `makeSliceWriter`.  The deferred `listEnd` runs when the
writer returns, also when it returns an error. -/
def makeSliceWriter (env : Env) (typ : Typ) (ts : tags) : Option (Except String writer) :=
  match typ.Elem with
  | none => none
  | some e =>
    match env.cachedTypeInfo1 e {} with
    | none => none
    | some (.error err) => some (.error err)
    | some (.ok etypeinfo) =>
      some (.ok (fun val w =>
        match val with
        | .list vs =>
          if !ts.tail then
            match sliceLoop etypeinfo.writer vs (w.list).1 with
            | none => none
            | some (w1, err) => (w1.listEnd (w.list).2).map (fun w2 => (w2, err))
          else sliceLoop etypeinfo.writer vs w
        | _ => none))

/-- The loop of the struct writer over the fields. -/
def structLoop (vs : List Value) : List field → encbuf → Option (encbuf × Option String)
  | [], w => some (w, none)
  | f :: fs, w =>
    match vs[f.index]? with
    | none => none
    | some v =>
      match f.info.writer v w with
      | none => none
      | some (w1, some err) => some (w1, some err)
      | some (w1, none) => structLoop vs fs w1

/-- Source function `makeStructWriter`. -/
def makeStructWriter (env : Env) (typ : Typ) : Option (Except String writer) :=
  match env.structFields typ with
  | none => none
  | some (.error err) => some (.error err)
  | some (.ok fields) =>
    some (.ok (fun val w =>
      match val with
      | .list vs =>
        match structLoop vs fields (w.list).1 with
        | none => none
        | some (w1, some err) => some (w1, some err)
        | some (w1, none) => (w1.listEnd (w.list).2).map (fun w2 => (w2, none))
      | _ => none))

/-- The nil pointer handler `nilfunc` that `makePtrWriter` determines. -/
def nilfunc (env : Env) (elem : Typ) (etypeinfo : typeinfo) :
    encbuf → Option (encbuf × Option String) :=
  if elem.Kind = .Array ∧ elemIsByte elem = true then
    fun w => some ({ w with str := w.str ++ [0x80] }, none)
  else if elem.Kind = .Struct ∨ elem.Kind = .Array then
    fun w => ((w.list).1.listEnd (w.list).2).map (fun w1 => (w1, none))
  else
    fun w => etypeinfo.writer (env.Zero elem) w

/-- Source function `makePtrWriter`. -/
def makePtrWriter (env : Env) (typ : Typ) : Option (Except String writer) :=
  match typ.Elem with
  | none => none
  | some e =>
    match env.cachedTypeInfo1 e {} with
    | none => none
    | some (.error err) => some (.error err)
    | some (.ok etypeinfo) =>
      some (.ok (fun val w =>
        match val with
        | .ptr none => nilfunc env e etypeinfo w
        | .ptr (some v) => etypeinfo.writer v w
        | _ => none))

/-- Source function `makeWriter`. -/
def makeWriter (env : Env) (typ : Typ) (ts : tags) : Option (Except String writer) :=
  if typ.isRawValue then some (.ok writeRawValue)
  else if typ.Implements then some (.ok writeEncoder)
  else if typ.Kind ≠ .Ptr ∧ (Typ.ptr typ).Implements = true then some (.ok writeEncoderNoPtr)
  else if typ.Kind = .Interface then some (.ok (writeInterface env))
  else if typ.assignableToBigIntPtr then some (.ok writeBigIntPtr)
  else if typ.assignableToBigInt then some (.ok writeBigIntNoPtr)
  else if isUint typ.Kind then some (.ok writeUintVal)
  else if typ.Kind = .Bool then some (.ok writeBoolVal)
  else if typ.Kind = .String then some (.ok writeString)
  else if typ.Kind = .Slice ∧ elemIsByte typ = true then some (.ok writeBytesVal)
  else if typ.Kind = .Array ∧ elemIsByte typ = true then some (.ok writeByteArray)
  else if typ.Kind = .Slice ∨ typ.Kind = .Array then makeSliceWriter env typ ts
  else if typ.Kind = .Struct then makeStructWriter env typ
  else if typ.Kind = .Ptr then makePtrWriter env typ
  else some (.error ("rlp: type " ++ typ.String ++ " is not RLP-serializable"))

/-! ## Top-level operations -/

/-- Source method `encbuf.encode`.  The argument is the `interface{}` value:
`none` for `nil`, else the dynamic type and the value. -/
def encbuf.encode (env : Env) (w : encbuf) (val : Option (Typ × Value)) :
    Option (encbuf × Option String) :=
  match val with
  | none => none
  | some (typ, rval) =>
    match env.cachedTypeInfo typ {} with
    | none => none
    | some (.error err) => some (w, some err)
    | some (.ok ti) => ti.writer rval w

/-- Source function `Encode`.  The `io.Writer` is the buffer of an enclosing
encode (`Sum.inl`) or any other sink (`Sum.inr`); the deferred `Put` runs on
every return. -/
def Encode (env : Env) (pool : Pool) (w : encbuf ⊕ Sink) (val : Option (Typ × Value)) :
    Option (Pool × (encbuf ⊕ Sink) × Option String) :=
  match w with
  | .inl outer => (outer.encode env val).map (fun r => (pool, .inl r.1, r.2))
  | .inr out =>
    match (pool.Get).1.reset.encode env val with
    | none => none
    | some (eb, some err) => some ((pool.Get).2.Put eb, .inr out, some err)
    | some (eb, none) =>
      match eb.toWriter out with
      | none => none
      | some (eb1, out1, err) => some ((pool.Get).2.Put eb1, .inr out1, err)

/-- Source function `EncodeToBytes`; the deferred `Put` runs on every
return. -/
def EncodeToBytes (env : Env) (pool : Pool) (val : Option (Typ × Value)) :
    Option (Pool × Option (List Nat) × Option String) :=
  match (pool.Get).1.reset.encode env val with
  | none => none
  | some (eb, some err) => some ((pool.Get).2.Put eb, none, some err)
  | some (eb, none) => (eb.toBytes).map (fun b => ((pool.Get).2.Put eb, some b, none))

/-- Source function `EncodeToReader`: the pool, the size, the reader (`none`
for `nil`) and the error. -/
def EncodeToReader (env : Env) (pool : Pool) (val : Option (Typ × Value)) :
    Option (Pool × Int × Option encReader × Option String) :=
  match (pool.Get).1.reset.encode env val with
  | none => none
  | some (_, some err) => some ((pool.Get).2, 0, none, some err)
  | some (eb, none) => some ((pool.Get).2, eb.size, some (encReader.new eb), none)

/-- The field list of a struct type: the `typeinfo` of every serializable field
under its tags, or the first error. -/
def fieldInfos (env : Env) : List (Nat × Bool × Typ) → Option (Except String (List field))
  | [] => some (.ok [])
  | (index, tail, typ) :: rest =>
    match env.cachedTypeInfo1 typ { tail := tail } with
    | none => none
    | some (.error err) => some (.error err)
    | some (.ok info) =>
      match fieldInfos env rest with
      | none => none
      | some (.error err) => some (.error err)
      | some (.ok fields) => some (.ok ({ index := index, info := info } :: fields))

/-- Modelled from the spec: the type cache (`cachedTypeInfo`, `cachedTypeInfo1`,
`structFields`) is defined outside the source file.  "Results of dispatch are
memoized by (shape identity, tags)": a lookup gives what `makeWriter` gives for
the type and the tags, and the field list of a record holds the cached emitter
of each serializable field in declaration order.  The number bounds the depth
of the resolution; `zero` is `reflect.Zero`. -/
def typeCache (zero : Typ → Value) : Nat → Env
  | 0 =>
    { cachedTypeInfo := fun _ _ => none
      cachedTypeInfo1 := fun _ _ => none
      structFields := fun _ => none
      Zero := zero }
  | n + 1 =>
    { cachedTypeInfo := fun typ ts =>
        (makeWriter (typeCache zero n) typ ts).map (fun r => r.map typeinfo.mk)
      cachedTypeInfo1 := fun typ ts =>
        (makeWriter (typeCache zero n) typ ts).map (fun r => r.map typeinfo.mk)
      structFields := fun typ =>
        match typ with
        | .struct _ _ fields => fieldInfos (typeCache zero n) fields
        | _ => none
      Zero := zero }

/-! ## Kinds in the wording of the specification -/

/-- The unsupported shapes: "signed integers, floating-point, associative
containers, channels, functions". -/
def unsupportedKind (k : Kind) : Bool :=
  k = .Int ∨ k = .Int8 ∨ k = .Int16 ∨ k = .Int32 ∨ k = .Int64 ∨ k = .Float32 ∨ k = .Float64 ∨
    k = .Map ∨ k = .Chan ∨ k = .Func

/-- The kinds the dispatch order of `makeWriter` names: interface, unsigned
integer, boolean, string, slice, array, struct and pointer. -/
def listedKind (k : Kind) : Bool :=
  k = .Interface ∨ isUint k = true ∨ k = .Bool ∨ k = .String ∨ k = .Slice ∨ k = .Array ∨
    k = .Struct ∨ k = .Ptr

/-- One of the cases of `makeWriter` before the slice, struct and pointer
constructors applies to the type, so that `makeWriter` makes no lookup for
it. -/
def Typ.direct (typ : Typ) : Bool :=
  typ.isRawValue || typ.Implements ||
    (decide (typ.Kind ≠ .Ptr) && (Typ.ptr typ).Implements) ||
    decide (typ.Kind = .Interface) || typ.assignableToBigIntPtr || typ.assignableToBigInt ||
    isUint typ.Kind || decide (typ.Kind = .Bool) || decide (typ.Kind = .String) ||
    (decide (typ.Kind = .Slice) && elemIsByte typ) ||
    (decide (typ.Kind = .Array) && elemIsByte typ)
/-! ## Integer framing primitives: lemmas -/

theorem intsizeLoop_eq_log (i : Nat) : ∀ s, intsizeLoop i s = s + Nat.log 256 i := by
  induction i using Nat.strong_induction_on with
  | _ i ih =>
    intro s
    rw [intsizeLoop]
    by_cases h : i >>> 8 = 0
    · simp only [h, ↓reduceDIte]
      rw [Nat.shiftRight_eq_div_pow] at h
      have : i < 256 := by omega
      rw [Nat.log_of_lt this]; rfl
    · simp only [h, ↓reduceDIte]
      rw [Nat.shiftRight_eq_div_pow] at h ⊢
      have h256 : 256 ≤ i := by omega
      rw [ih (i / 2 ^ 8) (by omega) (s + 1), Nat.log_of_one_lt_of_le (by norm_num) h256]
      norm_num
      omega

theorem intsize_eq_log (i : Nat) : intsize i = 1 + Nat.log 256 i := intsizeLoop_eq_log i 1

theorem intsize_eq_of_bounds (i k : Nat) (hlo : k = 0 ∨ 256 ^ k ≤ i) (hhi : i < 256 ^ (k + 1)) :
    intsize i = k + 1 := by
  rw [intsize_eq_log]
  rcases hlo with rfl | hlo
  · rw [Nat.log_of_lt (by simpa using hhi)]
  · have : Nat.log 256 i = k := by
      by_cases hk : k = 0
      · subst hk; exact Nat.log_of_lt (by simpa using hhi)
      · exact (Nat.log_eq_iff (Or.inl hk)).2 ⟨hlo, hhi⟩
    omega

theorem minimal_bytes_cases (n : Nat) (hn : n < 2 ^ 64) :
    (n < 256 ∧ minimal_bytes n = 1) ∨ (256 ≤ n ∧ n < 256 ^ 2 ∧ minimal_bytes n = 2) ∨
    (256 ^ 2 ≤ n ∧ n < 256 ^ 3 ∧ minimal_bytes n = 3) ∨
    (256 ^ 3 ≤ n ∧ n < 256 ^ 4 ∧ minimal_bytes n = 4) ∨
    (256 ^ 4 ≤ n ∧ n < 256 ^ 5 ∧ minimal_bytes n = 5) ∨
    (256 ^ 5 ≤ n ∧ n < 256 ^ 6 ∧ minimal_bytes n = 6) ∨
    (256 ^ 6 ≤ n ∧ n < 256 ^ 7 ∧ minimal_bytes n = 7) ∨
    (256 ^ 7 ≤ n ∧ n < 256 ^ 8 ∧ minimal_bytes n = 8) := by
  unfold minimal_bytes
  norm_num at hn ⊢
  split_ifs <;> omega

theorem minimal_bytes_bounds (n : Nat) (hn : n < 2 ^ 64) :
    1 ≤ minimal_bytes n ∧ minimal_bytes n ≤ 8 ∧ n < 256 ^ minimal_bytes n ∧
      (256 ≤ n → 256 ^ (minimal_bytes n - 1) ≤ n) := by
  rcases minimal_bytes_cases n hn with h | h | h | h | h | h | h | h <;>
    (obtain ⟨_, _⟩ := h; simp only [*]; norm_num at *; try omega)

theorem intsize_eq_minimal_bytes (i : Nat) (hi : i < 2 ^ 64) : intsize i = minimal_bytes i := by
  rcases minimal_bytes_cases i hi with h | h | h | h | h | h | h | h
  · rw [h.2]; exact intsize_eq_of_bounds i 0 (Or.inl rfl) (by simpa using h.1)
  · rw [h.2.2]; exact intsize_eq_of_bounds i 1 (Or.inr (by simpa using h.1)) h.2.1
  · rw [h.2.2]; exact intsize_eq_of_bounds i 2 (Or.inr h.1) h.2.1
  · rw [h.2.2]; exact intsize_eq_of_bounds i 3 (Or.inr h.1) h.2.1
  · rw [h.2.2]; exact intsize_eq_of_bounds i 4 (Or.inr h.1) h.2.1
  · rw [h.2.2]; exact intsize_eq_of_bounds i 5 (Or.inr h.1) h.2.1
  · rw [h.2.2]; exact intsize_eq_of_bounds i 6 (Or.inr h.1) h.2.1
  · rw [h.2.2]; exact intsize_eq_of_bounds i 7 (Or.inr h.1) h.2.1

@[simp] theorem store_zero (x v : Nat) (xs : List Nat) :
    store (x :: xs) 0 v = some (v :: xs) := by
  simp [store]

@[simp] theorem store_succ (x v k : Nat) (xs : List Nat) :
    store (x :: xs) (k + 1) v = (store xs k v).map (fun t => x :: t) := by
  unfold store
  by_cases h : k < xs.length <;> simp [h]

theorem putint_spec (b : List Nat) (n : Nat) (hn : n < 2 ^ 64)
    (hb : minimal_bytes n ≤ b.length) :
    putint b n = some (be n (minimal_bytes n) ++ b.drop (minimal_bytes n), minimal_bytes n) := by
  unfold putint
  simp only [Nat.shiftLeft_eq, one_mul, Nat.reducePow]
  rcases minimal_bytes_cases n hn with h | h | h | h | h | h | h | h
  · obtain ⟨h1, hm⟩ := h
    rw [hm] at hb ⊢
    match b, hb with
    | x0 :: b, _ =>
      rw [if_pos (by omega)]
      simp [be, byte, Nat.shiftRight_eq_div_pow, Nat.div_div_eq_div_mul]
  · obtain ⟨h0, h1, hm⟩ := h
    rw [hm] at hb ⊢
    match b, hb with
    | x0 :: x1 :: b, _ =>
      rw [if_neg (by omega), if_pos (by omega)]
      simp [be, byte, Nat.shiftRight_eq_div_pow, Nat.div_div_eq_div_mul]
  · obtain ⟨h0, h1, hm⟩ := h
    rw [hm] at hb ⊢
    match b, hb with
    | x0 :: x1 :: x2 :: b, _ =>
      rw [if_neg (by omega), if_neg (by omega), if_pos (by omega)]
      simp [be, byte, Nat.shiftRight_eq_div_pow, Nat.div_div_eq_div_mul]
  · obtain ⟨h0, h1, hm⟩ := h
    rw [hm] at hb ⊢
    match b, hb with
    | x0 :: x1 :: x2 :: x3 :: b, _ =>
      rw [if_neg (by omega), if_neg (by omega), if_neg (by omega), if_pos (by omega)]
      simp [be, byte, Nat.shiftRight_eq_div_pow, Nat.div_div_eq_div_mul]
  · obtain ⟨h0, h1, hm⟩ := h
    rw [hm] at hb ⊢
    match b, hb with
    | x0 :: x1 :: x2 :: x3 :: x4 :: b, _ =>
      rw [if_neg (by omega), if_neg (by omega), if_neg (by omega), if_neg (by omega), if_pos (by omega)]
      simp [be, byte, Nat.shiftRight_eq_div_pow, Nat.div_div_eq_div_mul]
  · obtain ⟨h0, h1, hm⟩ := h
    rw [hm] at hb ⊢
    match b, hb with
    | x0 :: x1 :: x2 :: x3 :: x4 :: x5 :: b, _ =>
      rw [if_neg (by omega), if_neg (by omega), if_neg (by omega), if_neg (by omega), if_neg (by omega), if_pos (by omega)]
      simp [be, byte, Nat.shiftRight_eq_div_pow, Nat.div_div_eq_div_mul]
  · obtain ⟨h0, h1, hm⟩ := h
    rw [hm] at hb ⊢
    match b, hb with
    | x0 :: x1 :: x2 :: x3 :: x4 :: x5 :: x6 :: b, _ =>
      rw [if_neg (by omega), if_neg (by omega), if_neg (by omega), if_neg (by omega), if_neg (by omega), if_neg (by omega), if_pos (by omega)]
      simp [be, byte, Nat.shiftRight_eq_div_pow, Nat.div_div_eq_div_mul]
  · obtain ⟨h0, h1, hm⟩ := h
    rw [hm] at hb ⊢
    match b, hb with
    | x0 :: x1 :: x2 :: x3 :: x4 :: x5 :: x6 :: x7 :: b, _ =>
      rw [if_neg (by omega), if_neg (by omega), if_neg (by omega), if_neg (by omega), if_neg (by omega), if_neg (by omega), if_neg (by omega)]
      simp [be, byte, Nat.shiftRight_eq_div_pow, Nat.div_div_eq_div_mul]

@[simp] theorem be_length (k : Nat) : ∀ n, (be n k).length = k := by
  induction k with
  | zero => intro n; rfl
  | succ k ih => intro n; simp [be, ih]

theorem be_lt (k : Nat) : ∀ n x, x ∈ be n k → x < 256 := by
  induction k with
  | zero => intro n x hx; simp [be] at hx
  | succ k ih =>
    intro n x hx
    simp only [be, List.mem_append, List.mem_singleton] at hx
    rcases hx with hx | rfl
    · exact ih _ _ hx
    · omega

theorem beValue_append_singleton (l : List Nat) (x : Nat) :
    beValue (l ++ [x]) = beValue l * 256 + x := by
  simp [beValue, List.foldl_append]

theorem beValue_be (k : Nat) : ∀ n, n < 256 ^ k → beValue (be n k) = n := by
  induction k with
  | zero => intro n hn; simp at hn; subst hn; rfl
  | succ k ih =>
    intro n hn
    rw [be, beValue_append_singleton, ih (n / 256)]
    · omega
    · rw [pow_succ] at hn
      exact Nat.div_lt_of_lt_mul (by rwa [Nat.mul_comm] at hn)

theorem be_eq_beBytes (k : Nat) : ∀ n, 256 ^ k ≤ n → n < 256 ^ (k + 1) →
    be n (k + 1) = beBytes n := by
  induction k with
  | zero =>
    intro n hlo hhi
    have h0 : 0 < n := by simpa using hlo
    have h1 : n < 256 := by simpa using hhi
    unfold beBytes
    rw [Nat.digits_def' (by norm_num) h0, Nat.div_eq_of_lt h1]
    simp [be]
  | succ k ih =>
    intro n hlo hhi
    have h0 : 0 < n := lt_of_lt_of_le (by positivity) hlo
    have h := ih (n / 256)
      (by rw [pow_succ] at hlo; exact (Nat.le_div_iff_mul_le (by norm_num)).2 hlo)
      (by rw [pow_succ] at hhi; exact Nat.div_lt_of_lt_mul (by rwa [Nat.mul_comm] at hhi))
    unfold beBytes at h ⊢
    rw [Nat.digits_def' (by norm_num) h0, List.reverse_cons, ← h]
    rfl

theorem be_minimal_eq_beBytes (n : Nat) (h0 : 0 < n) (hn : n < 2 ^ 64) :
    be n (minimal_bytes n) = beBytes n := by
  rcases minimal_bytes_cases n hn with h | h | h | h | h | h | h | h
  · rw [h.2]; exact be_eq_beBytes 0 n (by simpa using h0) (by simpa using h.1)
  · rw [h.2.2]; exact be_eq_beBytes 1 n (by simpa using h.1) h.2.1
  · rw [h.2.2]; exact be_eq_beBytes 2 n h.1 h.2.1
  · rw [h.2.2]; exact be_eq_beBytes 3 n h.1 h.2.1
  · rw [h.2.2]; exact be_eq_beBytes 4 n h.1 h.2.1
  · rw [h.2.2]; exact be_eq_beBytes 5 n h.1 h.2.1
  · rw [h.2.2]; exact be_eq_beBytes 6 n h.1 h.2.1
  · rw [h.2.2]; exact be_eq_beBytes 7 n h.1 h.2.1

theorem beBytes_length (n : Nat) (h0 : 0 < n) (hn : n < 2 ^ 64) :
    (beBytes n).length = minimal_bytes n := by
  rw [← be_minimal_eq_beBytes n h0 hn, be_length]

theorem beBytes_head_ne_zero (n : Nat) : (beBytes n).head? ≠ some 0 := by
  unfold beBytes
  intro hc
  by_cases hnil : Nat.digits 256 n = []
  · rw [hnil] at hc; simp at hc
  · have h := Nat.getLast_digit_ne_zero 256 (m := n) (by
      intro h0; apply hnil; rw [h0]; simp)
    rw [List.head?_reverse] at hc
    rw [List.getLast?_eq_getLast _ hnil] at hc
    simp only [Option.some.injEq] at hc
    exact h hc

/-! ## Encode buffer: string, integer and big integer emitters -/


theorem slice_nat (s : List Nat) (lo hi : Nat) (h1 : lo ≤ hi) (h2 : hi ≤ s.length) :
    slice s (lo : Int) (hi : Int) = some ((s.take hi).drop lo) := by
  unfold slice
  rw [if_pos ⟨by omega, by omega, by omega⟩]
  simp

theorem slice_from (s : List Nat) (lo : Nat) (h1 : lo ≤ s.length) :
    slice s (lo : Int) (s.length : Int) = some (s.drop lo) := by
  rw [slice_nat s lo s.length h1 le_rfl, List.take_length]

/-- Effect of composing a head in a scratch buffer: `putint` through `buf[1:]`
followed by the store of the tag in `buf[0]`. -/
theorem puthead_spec (buf : List Nat) (smalltag largetag size : Nat) (hsize : size < 2 ^ 64)
    (hs : smalltag + 55 < 256) (hl : largetag + 8 < 256)
    (hb : headsize size ≤ buf.length) :
    puthead buf smalltag largetag size =
      some ((if size < 56 then [smalltag + size]
              else (largetag + minimal_bytes size) :: be size (minimal_bytes size)) ++
            buf.drop (headsize size), headsize size) := by
  unfold puthead
  by_cases h : size < 56
  · have hb1 : 0 < buf.length := by unfold headsize at hb; simp only [h, if_true] at hb; omega
    obtain ⟨x, xs, rfl⟩ := List.exists_cons_of_length_pos hb1
    simp only [h, if_true, headsize]
    simp [byte]
    omega
  · have hh : headsize size = 1 + minimal_bytes size := by
      unfold headsize; rw [if_neg h, intsize_eq_minimal_bytes size hsize]
    rw [hh] at hb ⊢
    have hm := minimal_bytes_bounds size hsize
    obtain ⟨x, xs, rfl⟩ := List.exists_cons_of_length_pos (by omega : 0 < buf.length)
    have e : slice (x :: xs) 1 ((x :: xs).length : Nat) = some xs := by
      have := slice_from (x :: xs) 1 (by simp)
      simpa using this
    simp only [Nat.cast_ofNat] at e
    simp only [h, if_false]
    rw [e]
    simp only [List.length_cons] at hb
    simp [putint_spec xs size hsize (by omega), byte]
    refine ⟨⟨by omega, ?_⟩, by omega⟩
    rw [Nat.add_comm 1, List.drop_succ_cons]


theorem headsize_le (size : Nat) (hsize : size < 2 ^ 64) : 1 ≤ headsize size ∧ headsize size ≤ 9 := by
  unfold headsize
  split_ifs
  · omega
  · rw [intsize_eq_minimal_bytes size hsize]
    have := minimal_bytes_bounds size hsize
    omega

theorem string_header_length (n : Nat) (hn : n < 2 ^ 64) :
    (string_header n).length = headsize n := by
  unfold string_header headsize
  split_ifs
  · rfl
  · rw [intsize_eq_minimal_bytes n hn]; simp; omega

theorem list_header_length (n : Nat) (hn : n < 2 ^ 64) :
    (list_header n).length = headsize n := by
  unfold list_header headsize
  split_ifs
  · rfl
  · rw [intsize_eq_minimal_bytes n hn]; simp; omega

theorem uint64_of_nat (n : Nat) (hn : n < 2 ^ 64) : uint64 (n : Int) = n := by
  unfold uint64
  omega

theorem uint64_of_bounds (x : Int) (h0 : 0 ≤ x) (h1 : x < 2 ^ 64) : (uint64 x : Int) = x := by
  unfold uint64
  omega

theorem uint64_lt (x : Int) : uint64 x < 2 ^ 64 := by
  unfold uint64
  omega

/-- Effect of `encodeStringHeader` on a buffer with the pooled 9-byte scratch
region, for any `int` argument. -/
theorem encodeStringHeader_gen (w : encbuf) (size : Int) (hsb : w.sizebuf.length = 9) :
    ∃ sb : List Nat, sb.length = 9 ∧
      w.encodeStringHeader size =
        some { w with
          str := w.str ++
            (if size < 56 then [byte (0x80 + byte (uint64 size))]
             else (0xB7 + minimal_bytes (uint64 size)) ::
                    be (uint64 size) (minimal_bytes (uint64 size))),
          sizebuf := sb } := by
  unfold encbuf.encodeStringHeader
  have hn := uint64_lt size
  generalize uint64 size = n at hn ⊢
  by_cases h : size < 56
  · refine ⟨w.sizebuf, hsb, ?_⟩
    simp only [h, if_true]
  · simp only [h, if_false]
    have hm := minimal_bytes_bounds n hn
    obtain ⟨x, xs, hx⟩ := List.exists_cons_of_length_pos (by omega : 0 < w.sizebuf.length)
    have hxs : xs.length = 8 := by rw [hx] at hsb; simpa using hsb
    have e : slice w.sizebuf 1 (w.sizebuf.length : Nat) = some xs := by
      have := slice_from w.sizebuf 1 (by omega)
      rw [hx] at this ⊢
      simpa using this
    simp only [Nat.cast_ofNat] at e
    rw [e]
    refine ⟨(183 + minimal_bytes n) :: (be n (minimal_bytes n) ++ xs.drop (minimal_bytes n)), ?_, ?_⟩
    · simp; omega
    · have e2 : slice ((183 + minimal_bytes n) :: (be n (minimal_bytes n) ++ xs.drop (minimal_bytes n)))
          (0 : Nat) ((minimal_bytes n + 1 : Nat) : Int)
          = some ((183 + minimal_bytes n) :: be n (minimal_bytes n)) := by
        rw [slice_nat _ _ _ (by omega) (by simp)]
        simp
      simp only [Nat.cast_zero, Nat.cast_add, Nat.cast_one] at e2
      simp [putint_spec xs n hn (by omega), byte, hx]
      have e3 : (183 + minimal_bytes n) % 256 = 183 + minimal_bytes n := by omega
      rw [e3, e2]
      simp

theorem encodeStringHeader_spec (w : encbuf) (n : Nat) (hn : n < 2 ^ 64)
    (hsb : w.sizebuf.length = 9) :
    ∃ sb : List Nat, sb.length = 9 ∧
      w.encodeStringHeader (n : Int) =
        some { w with str := w.str ++ string_header n, sizebuf := sb } := by
  obtain ⟨sb, h1, h2⟩ := encodeStringHeader_gen w n hsb
  refine ⟨sb, h1, ?_⟩
  rw [h2, uint64_of_nat n hn]
  unfold string_header
  by_cases h : n < 56
  · have h' : (n : Int) < 56 := by omega
    simp only [h, h', if_true, byte]
    have e : (128 + n % 256) % 256 = 128 + n := by omega
    rw [e]
  · have h' : ¬ (n : Int) < 56 := by omega
    simp only [h, h', if_false]

/-- On a pooled buffer `encodeString` never panics and touches only the
payload and the scratch region. -/
theorem encodeString_some (w : encbuf) (b : List Nat) (hsb : w.sizebuf.length = 9) :
    ∃ w1 : encbuf, w.encodeString b = some w1 ∧ w1.sizebuf.length = 9 ∧
      w1.lheads = w.lheads ∧ w1.lhsize = w.lhsize ∧ ∃ t, w1.str = w.str ++ t := by
  unfold encbuf.encodeString
  by_cases h : b.length = 1 ∧ b.headD 0 ≤ 0x7F
  · exact ⟨{ w with str := w.str ++ [b.headD 0] }, by simp only [h, and_self, if_true],
      hsb, rfl, rfl, _, rfl⟩
  · obtain ⟨sb, hsb1, he⟩ := encodeStringHeader_gen w b.length hsb
    simp only [h, if_false, he]
    exact ⟨_, rfl, hsb1, rfl, rfl, _, by simp only [Option.bind, List.append_assoc]; rfl⟩

/-- Effect of `encodeString` on a buffer with the pooled scratch region. -/
theorem encodeString_spec (w : encbuf) (b : List Nat) (hb : b.length < 2 ^ 64)
    (hsb : w.sizebuf.length = 9) :
    ∃ sb : List Nat, sb.length = 9 ∧
      w.encodeString b = some { w with str := w.str ++ string_enc b, sizebuf := sb } := by
  unfold encbuf.encodeString string_enc
  by_cases h : b.length = 1 ∧ b.headD 0 ≤ 0x7F
  · exact ⟨w.sizebuf, hsb, by simp only [h, and_self, if_true]⟩
  · obtain ⟨sb, hsb1, he⟩ := encodeStringHeader_spec w b.length hb hsb
    refine ⟨sb, hsb1, ?_⟩
    simp only [h, if_false, he]
    simp

/-- C2: for every byte string `b` (of a length a Go slice can have) and every
pooled buffer, `encodeString` succeeds and appends to the payload exactly the
single byte `b[0]` when `len(b) = 1` and `b[0] <= 0x7F`, otherwise `0x80 + L`
followed by `b` when `L = len(b) < 56`, otherwise `0xB7 + K`, the `K`
big-endian bytes of `L` and then `b`; the old payload stays as the leading
part, and the list heads and `lhsize` are untouched. -/
theorem encodeString_appends (w : encbuf) (b : List Nat) (hb : b.length < 2 ^ 63)
    (hsb : w.sizebuf.length = 9) :
    ∃ w1 : encbuf, w.encodeString b = some w1 ∧
      w1.str = w.str ++
        (if b.length = 1 ∧ b.headD 0 ≤ 0x7F then [b.headD 0]
         else if b.length < 56 then (0x80 + b.length) :: b
         else (0xB7 + minimal_bytes b.length) ::
                (be b.length (minimal_bytes b.length) ++ b)) ∧
      w1.lheads = w.lheads ∧ w1.lhsize = w.lhsize ∧ w1.sizebuf.length = 9 := by
  obtain ⟨sb, hsb1, he⟩ := encodeString_spec w b (by omega) hsb
  refine ⟨_, he, ?_, rfl, rfl, hsb1⟩
  simp only [string_enc, string_header]
  split_ifs <;> simp

theorem encodeString_appends_witness :
    (List.replicate 56 0x61).length < 2 ^ 63 ∧ encbuf.new.sizebuf.length = 9 ∧
    ∃ w1 : encbuf, encbuf.new.encodeString (List.replicate 56 0x61) = some w1 ∧
      w1.str = encbuf.new.str ++
        (if (List.replicate 56 0x61).length = 1 ∧ (List.replicate 56 0x61).headD 0 ≤ 0x7F then
          [(List.replicate 56 0x61).headD 0]
         else if (List.replicate 56 0x61).length < 56 then
          (0x80 + (List.replicate 56 0x61).length) :: List.replicate 56 0x61
         else (0xB7 + minimal_bytes (List.replicate 56 0x61).length) ::
                (be (List.replicate 56 0x61).length (minimal_bytes (List.replicate 56 0x61).length)
                  ++ List.replicate 56 0x61)) ∧
      w1.lheads = encbuf.new.lheads ∧ w1.lhsize = encbuf.new.lhsize ∧ w1.sizebuf.length = 9 :=
  ⟨by simp, by decide,
    encodeString_appends encbuf.new (List.replicate 56 0x61) (by simp) (by decide)⟩

/-- C9: for every unsigned 64-bit `n` and every buffer of at least 8 bytes,
`putint` returns `intsize n`, leaves the buffer length and every byte from
index `intsize n` on unchanged, and the first `intsize n` bytes are the
big-endian digits of `n`: each is below 256 and read as a base-256 number
they give `n`. -/
theorem putint_correct (b : List Nat) (n : Nat) (hn : n < 2 ^ 64) (hb : 8 ≤ b.length) :
    ∃ b1 : List Nat, putint b n = some (b1, intsize n) ∧
      b1.length = b.length ∧
      b1.drop (intsize n) = b.drop (intsize n) ∧
      b1.take (intsize n) = be n (intsize n) ∧
      (∀ x ∈ b1.take (intsize n), x < 256) ∧
      beValue (b1.take (intsize n)) = n := by
  have hm := minimal_bytes_bounds n hn
  rw [intsize_eq_minimal_bytes n hn]
  refine ⟨_, putint_spec b n hn (by omega), ?_, ?_, ?_, ?_, ?_⟩
  · simp; omega
  · rw [List.drop_append_of_le_length (by simp)]
    simp
  · rw [List.take_append_of_le_length (by simp)]
    simp
  · rw [List.take_append_of_le_length (by simp)]
    intro x hx
    exact be_lt _ _ _ (List.mem_of_mem_take hx)
  · rw [List.take_append_of_le_length (by simp)]
    simp only [List.take_of_length_le (le_of_eq (be_length _ _))]
    exact beValue_be _ _ hm.2.2.1

theorem putint_correct_witness :
    (1024 : Nat) < 2 ^ 64 ∧ 8 ≤ (List.replicate 8 7).length ∧
    ∃ b1 : List Nat, putint (List.replicate 8 7) 1024 = some (b1, intsize 1024) ∧
      b1.length = (List.replicate 8 7).length ∧
      b1.drop (intsize 1024) = (List.replicate 8 7).drop (intsize 1024) ∧
      b1.take (intsize 1024) = be 1024 (intsize 1024) ∧
      (∀ x ∈ b1.take (intsize 1024), x < 256) ∧
      beValue (b1.take (intsize 1024)) = 1024 :=
  ⟨by norm_num, by simp, putint_correct (List.replicate 8 7) 1024 (by norm_num) (by simp)⟩

/-- C10: `intsize` is a total function, and for every unsigned 64-bit `n` it
returns the least `k` in `1..8` with `n < 256^k`; for `n > 0` the leading
byte of the `k`-byte representation is not zero (`256^(k-1) <= n`), and for
`n = 0` it returns 1. -/
theorem intsize_least (n : Nat) (hn : n < 2 ^ 64) :
    1 ≤ intsize n ∧ intsize n ≤ 8 ∧ n < 256 ^ intsize n ∧
      (∀ k, 1 ≤ k → n < 256 ^ k → intsize n ≤ k) ∧
      (0 < n → 256 ^ (intsize n - 1) ≤ n) ∧
      (n = 0 → intsize n = 1) := by
  have hlog := intsize_eq_log n
  have hm := minimal_bytes_bounds n hn
  rw [← intsize_eq_minimal_bytes n hn] at hm
  refine ⟨hm.1, hm.2.1, hm.2.2.1, ?_, ?_, ?_⟩
  · intro k hk hlt
    by_cases h0 : n = 0
    · subst h0; rw [hlog]; simp; omega
    · have : Nat.log 256 n < k := Nat.log_lt_of_lt_pow h0 hlt
      omega
  · intro h0
    have := Nat.pow_log_le_self 256 (x := n) (by omega)
    rw [hlog]
    simpa using this
  · rintro rfl
    rw [hlog]; simp

theorem intsize_least_witness :
    (65536 : Nat) < 2 ^ 64 ∧
    (1 ≤ intsize 65536 ∧ intsize 65536 ≤ 8 ∧ 65536 < 256 ^ intsize 65536 ∧
      (∀ k, 1 ≤ k → 65536 < 256 ^ k → intsize 65536 ≤ k) ∧
      (0 < 65536 → 256 ^ (intsize 65536 - 1) ≤ 65536) ∧
      (65536 = 0 → intsize 65536 = 1)) :=
  ⟨by norm_num, intsize_least 65536 (by norm_num)⟩


/-- Effect of `writeUint` on a buffer with the pooled scratch region. -/
theorem writeUint_spec (w : encbuf) (i : Nat) (hi : i < 2 ^ 64) (hsb : w.sizebuf.length = 9) :
    ∃ sb : List Nat, sb.length = 9 ∧
      writeUint i w = some { w with
        str := w.str ++
          (if i = 0 then [0x80] else if i < 128 then [i]
           else (0x80 + minimal_bytes i) :: be i (minimal_bytes i)),
        sizebuf := sb } := by
  unfold writeUint
  by_cases h0 : i = 0
  · exact ⟨w.sizebuf, hsb, by simp only [h0, if_true]⟩
  by_cases h1 : i < 128
  · refine ⟨w.sizebuf, hsb, ?_⟩
    simp only [h0, h1, if_true, if_false, byte]
    rw [Nat.mod_eq_of_lt (by omega)]
  · simp only [h0, h1, if_false]
    have hm := minimal_bytes_bounds i hi
    obtain ⟨x, xs, hx⟩ := List.exists_cons_of_length_pos (by omega : 0 < w.sizebuf.length)
    have hxs : xs.length = 8 := by rw [hx] at hsb; simpa using hsb
    have e : slice w.sizebuf 1 (w.sizebuf.length : Nat) = some xs := by
      have := slice_from w.sizebuf 1 (by omega)
      rw [hx] at this ⊢
      simpa using this
    simp only [Nat.cast_ofNat] at e
    rw [e]
    refine ⟨(128 + minimal_bytes i) :: (be i (minimal_bytes i) ++ xs.drop (minimal_bytes i)), ?_, ?_⟩
    · simp; omega
    · have e2 : slice ((128 + minimal_bytes i) :: (be i (minimal_bytes i) ++ xs.drop (minimal_bytes i)))
          (0 : Nat) ((minimal_bytes i + 1 : Nat) : Int)
          = some ((128 + minimal_bytes i) :: be i (minimal_bytes i)) := by
        rw [slice_nat _ _ _ (by omega) (by simp)]
        simp
      simp only [Nat.cast_zero, Nat.cast_add, Nat.cast_one] at e2
      simp [putint_spec xs i hi (by omega), byte, hx]
      have e3 : (128 + minimal_bytes i) % 256 = 128 + minimal_bytes i := by omega
      rw [e3, e2]
      simp

theorem beValue_beBytes (n : Nat) : beValue (beBytes n) = n := by
  unfold beValue beBytes
  rw [List.foldl_reverse]
  have h : ∀ l : List Nat, List.foldr (fun x acc => acc * 256 + x) 0 l = Nat.ofDigits 256 l := by
    intro l
    induction l with
    | nil => rfl
    | cons x xs ih => simp [Nat.ofDigits_cons, ih]; ring
  rw [h, Nat.ofDigits_digits]

/-- C3: for every unsigned 64-bit `i` and pooled buffer, `writeUint` succeeds,
touching only the payload and the scratch region; it appends `0x80` when
`i = 0`, and for `i > 0` the payload it leaves is the payload `encodeString`
leaves for the minimal big-endian bytes of `i`: the single byte `i` when
`i < 128`, else `0x80 + k` followed by the `k = intsize i` bytes, which start
with a non-zero byte and have the value `i`. -/
theorem writeUint_correct (w : encbuf) (i : Nat) (hi : i < 2 ^ 64)
    (hsb : w.sizebuf.length = 9) :
    ∃ w1 : encbuf, writeUint i w = some w1 ∧
      w1.lheads = w.lheads ∧ w1.lhsize = w.lhsize ∧ w1.sizebuf.length = 9 ∧
      (i = 0 → w1.str = w.str ++ [0x80]) ∧
      (0 < i →
        (∃ w2 : encbuf, w.encodeString (beBytes i) = some w2 ∧ w1.str = w2.str) ∧
        w1.str = w.str ++ (if i < 128 then [i] else (0x80 + intsize i) :: beBytes i) ∧
        (beBytes i).length = intsize i ∧ (beBytes i).head? ≠ some 0 ∧
        beValue (beBytes i) = i) := by
  obtain ⟨sb, hsb1, he⟩ := writeUint_spec w i hi hsb
  refine ⟨_, he, rfl, rfl, hsb1, ?_, ?_⟩
  · intro h0; simp only [h0, if_true]
  · intro h0
    have hne : i ≠ 0 := by omega
    have hm := minimal_bytes_bounds i hi
    have hbe := be_minimal_eq_beBytes i h0 hi
    have hlen := beBytes_length i h0 hi
    have hstr : (if i < 128 then [i] else (0x80 + minimal_bytes i) :: be i (minimal_bytes i))
        = string_enc (beBytes i) := by
      unfold string_enc string_header
      rw [hlen, hbe]
      by_cases h1 : i < 128
      · have hk : minimal_bytes i = 1 := by
          unfold minimal_bytes; rw [if_pos (by omega)]
        have hb1 : beBytes i = [i] := by
          rw [← hbe, hk]; simp [be]; omega
        rw [hk, hb1]
        simp only [h1, if_true, List.headD_cons]
        rw [if_pos ⟨trivial, by omega⟩]
      · have hcond : ¬ (minimal_bytes i = 1 ∧ (beBytes i).headD 0 ≤ 0x7F) := by
          rintro ⟨hk, hh⟩
          have hb1 : beBytes i = [i] := by
            rw [← hbe, hk]; simp only [be, List.nil_append]
            have : i < 256 := by simpa [hk] using hm.2.2.1
            rw [Nat.mod_eq_of_lt this]
          rw [hb1] at hh
          simp at hh
          omega
        simp only [h1, hcond, if_false]
        rw [if_pos (by omega)]
        rfl
    obtain ⟨sb2, _, he2⟩ := encodeString_spec w (beBytes i) (by rw [hlen]; omega) hsb
    refine ⟨⟨_, he2, ?_⟩, ?_, ?_, beBytes_head_ne_zero i, beValue_beBytes i⟩
    · simp only [hne, if_false]
      rw [hstr]
    · simp only [hne, if_false]
      rw [← hbe, intsize_eq_minimal_bytes i hi]
    · rw [hlen, intsize_eq_minimal_bytes i hi]

theorem writeUint_correct_witness :
    (1024 : Nat) < 2 ^ 64 ∧ encbuf.new.sizebuf.length = 9 ∧
    ∃ w1 : encbuf, writeUint 1024 encbuf.new = some w1 ∧
      w1.lheads = encbuf.new.lheads ∧ w1.lhsize = encbuf.new.lhsize ∧ w1.sizebuf.length = 9 ∧
      (1024 = 0 → w1.str = encbuf.new.str ++ [0x80]) ∧
      (0 < 1024 →
        (∃ w2 : encbuf, encbuf.new.encodeString (beBytes 1024) = some w2 ∧ w1.str = w2.str) ∧
        w1.str = encbuf.new.str ++
          (if 1024 < 128 then [1024] else (0x80 + intsize 1024) :: beBytes 1024) ∧
        (beBytes 1024).length = intsize 1024 ∧ (beBytes 1024).head? ≠ some 0 ∧
        beValue (beBytes 1024) = 1024) :=
  ⟨by norm_num, by decide, writeUint_correct encbuf.new 1024 (by norm_num) (by decide)⟩

/-- C4: on a pooled buffer `writeBigInt` returns an error exactly when the
integer is negative, and then the buffer is unchanged; for zero it appends
exactly `0x80`; for a positive integer the buffer it leaves is the one
`encodeString` leaves for the integer's minimal big-endian bytes, whose
payload is the wire format of that byte string when its length fits a Go
`int`. -/
theorem writeBigInt_correct (w : encbuf) (i : Int) (hsb : w.sizebuf.length = 9) :
    ∃ (w1 : encbuf) (e : Option String), writeBigInt i w = some (w1, e) ∧
      (e ≠ none ↔ i < 0) ∧
      (i < 0 → w1 = w) ∧
      (i = 0 → w1 = { w with str := w.str ++ [0x80] }) ∧
      (0 < i → w.encodeString (beBytes i.toNat) = some w1 ∧
        ((beBytes i.toNat).length < 2 ^ 63 →
          w1.str = w.str ++ string_enc (beBytes i.toNat))) := by
  unfold writeBigInt bigCmp
  rcases lt_trichotomy i 0 with h | h | h
  · refine ⟨w, some "rlp: cannot encode negative *big.Int", by simp only [h, if_true],
      by simp [h], fun _ => rfl, ?_, ?_⟩ <;>
      intro h2 <;> omega
  · subst h
    refine ⟨_, none, by simp, by simp, by simp, fun _ => rfl, by simp⟩
  · have e1 : ¬ i < 0 := by omega
    have e2 : ¬ i = 0 := by omega
    have e3 : bigBytes i = beBytes i.toNat := by
      unfold bigBytes
      congr 1
      omega
    obtain ⟨w1, hw1, -⟩ := encodeString_some w (beBytes i.toNat) hsb
    refine ⟨w1, none, ?_, by simp [e1], fun h2 => absurd h2 e1, fun h2 => absurd h2 e2,
      fun _ => ⟨hw1, ?_⟩⟩
    · simp [e1, e2, e3, hw1]
    · intro hlen
      obtain ⟨sb, _, he⟩ := encodeString_spec w (beBytes i.toNat) (by omega) hsb
      rw [he] at hw1
      cases hw1
      rfl

theorem writeBigInt_correct_witness :
    encbuf.new.sizebuf.length = 9 ∧
    ∃ (w1 : encbuf) (e : Option String), writeBigInt (-5) encbuf.new = some (w1, e) ∧
      (e ≠ none ↔ (-5 : Int) < 0) ∧
      ((-5 : Int) < 0 → w1 = encbuf.new) ∧
      ((-5 : Int) = 0 → w1 = { encbuf.new with str := encbuf.new.str ++ [0x80] }) ∧
      ((0 : Int) < -5 → encbuf.new.encodeString (beBytes (-5 : Int).toNat) = some w1 ∧
        ((beBytes (-5 : Int).toNat).length < 2 ^ 63 →
          w1.str = encbuf.new.str ++ string_enc (beBytes (-5 : Int).toNat))) :=
  ⟨by decide, writeBigInt_correct encbuf.new (-5) (by decide)⟩

/-! ## Materialization: `toBytes` -/


theorem OffsetsOk_le (hi : Int) : ∀ (heads : List listhead) (lo : Int),
    OffsetsOk lo hi heads → lo ≤ hi := by
  intro heads
  induction heads with
  | nil => intro lo h; exact h
  | cons r rs ih => intro lo h; exact le_trans h.1 (ih _ h.2)

theorem copy_zeros (z : Nat) (src : List Nat) (h : src.length ≤ z) :
    copy (List.replicate z 0) src = (src ++ List.replicate (z - src.length) 0, src.length) := by
  unfold copy
  simp only [List.length_replicate, Nat.min_eq_right h, List.take_length, List.drop_replicate]

theorem slice_int (s : List Nat) (lo : Nat) (hi : Int) (h1 : (lo : Int) ≤ hi)
    (h2 : hi ≤ (s.length : Int)) :
    slice s (lo : Int) hi = some ((s.take hi.toNat).drop lo) := by
  unfold slice
  rw [if_pos ⟨by omega, h1, h2⟩]
  simp

theorem listhead_encode_spec (r : listhead) (buf : List Nat)
    (hb : headsize (uint64 r.size) ≤ buf.length) :
    r.encode buf =
      some (list_header (uint64 r.size) ++ buf.drop (headsize (uint64 r.size)),
        list_header (uint64 r.size)) := by
  unfold listhead.encode
  rw [puthead_spec buf 0xC0 0xF7 (uint64 r.size) (uint64_lt _) (by norm_num) (by norm_num) hb]
  have hl := list_header_length (uint64 r.size) (uint64_lt _)
  simp only [Option.bind_eq_bind, Option.some_bind, Option.pure_def]
  change some (list_header (uint64 r.size) ++ _, List.take _ (list_header (uint64 r.size) ++ _)) = _
  rw [← hl, List.take_left]

/-- Loop invariant of `toBytes`: the part of `out` before `pos` is written, the
rest is still zero, and there is room for what remains to be written. -/
theorem toBytesLoop_spec (str : List Nat) : ∀ (heads : List listhead) (written : List Nat)
    (z sp : Nat), OffsetsOk sp str.length heads →
    (str.length - sp) + headBytes heads ≤ z →
    ∃ (R : List Nat) (sp1 : Nat),
      toBytesLoop str heads (written ++ List.replicate z 0) sp written.length =
        some (written ++ R ++ List.replicate (z - R.length) 0, sp1, written.length + R.length) ∧
      spliceFrom str heads sp = R ++ str.drop sp1 ∧
      sp ≤ sp1 ∧ sp1 ≤ str.length ∧
      R.length = (sp1 - sp) + headBytes heads := by
  intro heads
  induction heads with
  | nil =>
    intro written z sp hok hz
    refine ⟨[], sp, ?_, ?_, le_rfl, ?_, ?_⟩
    · simp [toBytesLoop]
    · simp [spliceFrom]
    · have := hok; simp only [OffsetsOk] at this; omega
    · simp [headBytes]
  | cons r rs ih =>
    intro written z sp hok hz
    obtain ⟨h1, h2⟩ := hok
    have h3 := OffsetsOk_le _ _ _ h2
    have hhb : headBytes (r :: rs) = headsize (uint64 r.size) + headBytes rs := by
      simp [headBytes]
    rw [hhb] at hz
    -- the payload segment before the header
    have hseg : ((str.take r.offset.toNat).drop sp).length = r.offset.toNat - sp := by
      simp; omega
    have hpos : written.length ≤ (written ++ List.replicate z 0).length := by simp
    obtain ⟨R, sp1, hloop, hspl, hle1, hle2, hlen⟩ :=
      ih (written ++ (str.take r.offset.toNat).drop sp ++ list_header (uint64 r.size))
        (z - (r.offset.toNat - sp) - headsize (uint64 r.size)) r.offset.toNat
        (by rw [Int.toNat_of_nonneg (by omega)]; exact h2) (by omega)
    have hl := list_header_length (uint64 r.size) (uint64_lt _)
    refine ⟨(str.take r.offset.toNat).drop sp ++ list_header (uint64 r.size) ++ R, sp1,
      ?_, ?_, by omega, hle2, ?_⟩
    · rw [toBytesLoop]
      rw [slice_from _ _ hpos, slice_int str sp r.offset h1 h3]
      simp only [Option.bind_eq_bind, Option.some_bind, List.drop_left, List.take_left]
      rw [copy_zeros z _ (by rw [hseg]; omega)]
      simp only [hseg]
      have e1 : (written ++ ((str.take r.offset.toNat).drop sp ++
            List.replicate (z - (r.offset.toNat - sp)) 0)) =
          (written ++ (str.take r.offset.toNat).drop sp) ++
            List.replicate (z - (r.offset.toNat - sp)) 0 := by simp
      have e2 : written.length + (r.offset.toNat - sp) =
          (written ++ (str.take r.offset.toNat).drop sp).length := by
        rw [List.length_append, hseg]
      rw [e1, e2, slice_from _ _ (by simp)]
      simp only [Option.some_bind, List.drop_left, List.take_left]
      rw [listhead_encode_spec r _ (by simp; omega)]
      simp only [Option.some_bind, List.drop_replicate]
      have e3 : (written ++ (str.take r.offset.toNat).drop sp) ++
            (list_header (uint64 r.size) ++
              List.replicate (z - (r.offset.toNat - sp) - headsize (uint64 r.size)) 0) =
          (written ++ (str.take r.offset.toNat).drop sp ++ list_header (uint64 r.size)) ++
              List.replicate (z - (r.offset.toNat - sp) - headsize (uint64 r.size)) 0 := by simp
      have e4 : (written ++ (str.take r.offset.toNat).drop sp).length +
            (list_header (uint64 r.size)).length =
          (written ++ (str.take r.offset.toNat).drop sp ++ list_header (uint64 r.size)).length := by
        simp only [List.length_append]
      have e5 : sp + (r.offset.toNat - sp) = r.offset.toNat := by omega
      rw [e3, e4, e5, hloop]
      simp only [List.length_append, hseg, hl, List.append_assoc, Option.some.injEq,
        Prod.mk.injEq, true_and]
      have e6 : z - (r.offset.toNat - sp) - headsize (uint64 r.size) - R.length =
          z - (r.offset.toNat - sp + (headsize (uint64 r.size) + R.length)) := by omega
      rw [e6]
      exact ⟨rfl, by omega⟩
    · rw [spliceFrom, hspl]
      simp
    · simp only [List.length_append, hseg, hl, hlen, hhb]
      omega


/-- What `toBytes` computes on a buffer whose records have ordered offsets
within the payload and whose `lhsize` is the number of header bytes: the
payload with the headers spliced in, every byte of the output written. -/
theorem toBytesAux_spec (w : encbuf) (hok : OffsetsOk 0 w.str.length w.lheads)
    (hlh : w.lhsize = (headBytes w.lheads : Int)) :
    ∃ pos n : Nat, w.toBytesAux = some (spliceFrom w.str w.lheads 0, pos, n) ∧
      ((pos + n : Nat) : Int) = w.size ∧
      ((spliceFrom w.str w.lheads 0).length : Int) = w.size := by
  have hsize : w.size = ((w.str.length + headBytes w.lheads : Nat) : Int) := by
    unfold encbuf.size; rw [hlh]; push_cast; rfl
  obtain ⟨R, sp1, hloop, hspl, -, hle, hlen⟩ :=
    toBytesLoop_spec w.str w.lheads [] (w.str.length + headBytes w.lheads) 0
      (by simpa using hok) (by omega)
  simp only [List.nil_append, List.length_nil, Nat.zero_add, Nat.sub_zero] at hloop hlen
  have hz : w.str.length + headBytes w.lheads - R.length = w.str.length - sp1 := by omega
  refine ⟨R.length, w.str.length - sp1, ?_, ?_, ?_⟩
  · unfold encbuf.toBytesAux
    rw [if_neg (by omega), hsize, Int.toNat_ofNat]
    simp only [hloop, Option.bind_eq_bind, Option.some_bind]
    rw [slice_from _ _ (by simp), slice_from _ _ hle]
    simp only [Option.some_bind, List.drop_left, List.take_left, hz, Option.pure_def]
    have hc := copy_zeros (w.str.length - sp1) (w.str.drop sp1) (by simp)
    simp only [List.length_drop, Nat.sub_self, List.replicate_zero, List.append_nil] at hc
    rw [hc, hspl]
  · rw [hsize]; congr 1; omega
  · rw [hsize, hspl]; simp; omega

/-! ## Call sequences: the buffer invariant -/


theorem encodeStringHeader_frame (w w1 : encbuf) (size : Int)
    (h : w.encodeStringHeader size = some w1) :
    ∃ t, w1.str = w.str ++ t ∧ w1.lheads = w.lheads ∧ w1.lhsize = w.lhsize := by
  unfold encbuf.encodeStringHeader at h
  split at h
  · cases h; exact ⟨_, rfl, rfl, rfl⟩
  · simp only [Option.bind_eq_bind, Option.bind_eq_some, Option.pure_def, Option.some.injEq] at h
    obtain ⟨_, _, _, _, _, _, _, _, rfl⟩ := h
    exact ⟨_, rfl, rfl, rfl⟩

theorem encodeString_frame (w w1 : encbuf) (b : List Nat) (h : w.encodeString b = some w1) :
    ∃ t, w1.str = w.str ++ t ∧ w1.lheads = w.lheads ∧ w1.lhsize = w.lhsize := by
  unfold encbuf.encodeString at h
  split at h
  · cases h; exact ⟨_, rfl, rfl, rfl⟩
  · simp only [Option.bind_eq_bind, Option.bind_eq_some, Option.pure_def, Option.some.injEq] at h
    obtain ⟨w2, h2, rfl⟩ := h
    obtain ⟨t, h3, h4, h5⟩ := encodeStringHeader_frame _ _ _ h2
    exact ⟨t ++ b, by simp [h3], h4, h5⟩

theorem writeUint_frame (w w1 : encbuf) (i : Nat) (h : writeUint i w = some w1) :
    ∃ t, w1.str = w.str ++ t ∧ w1.lheads = w.lheads ∧ w1.lhsize = w.lhsize := by
  unfold writeUint at h
  split at h
  · cases h; exact ⟨_, rfl, rfl, rfl⟩
  split at h
  · cases h; exact ⟨_, rfl, rfl, rfl⟩
  · simp only [Option.bind_eq_bind, Option.bind_eq_some, Option.pure_def, Option.some.injEq] at h
    obtain ⟨_, _, _, _, _, _, _, _, rfl⟩ := h
    exact ⟨_, rfl, rfl, rfl⟩

/-- The calls other than `list` and `listEnd` only append to the payload. -/
theorem step_append (s t : Session) (op : Op) (h : s.step op = some t)
    (h1 : op ≠ Op.list) (h2 : ∀ lh, op ≠ Op.listEnd lh) :
    ∃ a, t.w.str = s.w.str ++ a ∧ t.w.lheads = s.w.lheads ∧ t.w.lhsize = s.w.lhsize ∧
      t.opened = s.opened := by
  cases op with
  | Write b => simp only [Session.step, Option.some.injEq] at h; subst h; exact ⟨b, rfl, rfl, rfl, rfl⟩
  | encodeString b =>
    simp only [Session.step, Option.map_eq_some'] at h
    obtain ⟨w1, hw, rfl⟩ := h
    obtain ⟨a, e1, e2, e3⟩ := encodeString_frame _ _ _ hw
    exact ⟨a, e1, e2, e3, rfl⟩
  | writeUint i =>
    simp only [Session.step, Option.map_eq_some'] at h
    obtain ⟨w1, hw, rfl⟩ := h
    obtain ⟨a, e1, e2, e3⟩ := writeUint_frame _ _ _ hw
    exact ⟨a, e1, e2, e3, rfl⟩
  | writeBool v =>
    simp only [Session.step, Option.some.injEq] at h; subst h
    unfold writeBool
    split <;> exact ⟨_, rfl, rfl, rfl, rfl⟩
  | list => exact absurd rfl h1
  | listEnd lh => exact absurd rfl (h2 lh)

theorem OffsetsOk_mono (hi hi1 : Int) (hle : hi ≤ hi1) : ∀ (heads : List listhead) (lo : Int),
    OffsetsOk lo hi heads → OffsetsOk lo hi1 heads := by
  intro heads
  induction heads with
  | nil => intro lo h; exact le_trans h hle
  | cons r rs ih => intro lo h; exact ⟨h.1, ih _ h.2⟩

theorem OffsetsOk_snoc (hi sz : Int) : ∀ (heads : List listhead) (lo : Int),
    OffsetsOk lo hi heads → OffsetsOk lo hi (heads ++ [{ offset := hi, size := sz }]) := by
  intro heads
  induction heads with
  | nil => intro lo h; exact ⟨h, le_refl hi⟩
  | cons r rs ih => intro lo h; exact ⟨h.1, ih _ h.2⟩

theorem OffsetsOk_set (hi sz : Int) : ∀ (heads : List listhead) (lo : Int) (k : Nat) (r : listhead),
    heads[k]? = some r → OffsetsOk lo hi heads →
    OffsetsOk lo hi (heads.set k { r with size := sz }) := by
  intro heads
  induction heads with
  | nil => intro lo k r hk; simp at hk
  | cons x xs ih =>
    intro lo k r hk h
    cases k with
    | zero =>
      simp only [List.getElem?_cons_zero, Option.some.injEq] at hk
      subst hk
      exact ⟨h.1, h.2⟩
    | succ k =>
      simp only [List.getElem?_cons_succ] at hk
      exact ⟨h.1, ih _ k r hk h.2⟩

theorem width_pos (n : Int) : 1 ≤ width n := by
  unfold width
  split <;> omega

theorem closedWidths_nonneg : ∀ (heads : List listhead) (k : Nat) (o : List Nat),
    0 ≤ closedWidths heads k o := by
  intro heads
  induction heads with
  | nil => intro k o; simp [closedWidths]
  | cons r rs ih =>
    intro k o
    have := ih (k + 1) o
    have := width_pos r.size
    simp only [closedWidths]
    split <;> omega

theorem closedWidths_append : ∀ (l1 l2 : List listhead) (k : Nat) (o : List Nat),
    closedWidths (l1 ++ l2) k o = closedWidths l1 k o + closedWidths l2 (k + l1.length) o := by
  intro l1
  induction l1 with
  | nil => intro l2 k o; simp [closedWidths]
  | cons r rs ih =>
    intro l2 k o
    have e := ih l2 (k + 1) o
    rw [show k + 1 + rs.length = k + (rs.length + 1) by omega] at e
    simp only [List.cons_append, closedWidths, List.length_cons]
    change _ + closedWidths (rs ++ l2) (k + 1) o = _
    rw [e]
    ring

theorem closedWidths_congr : ∀ (l : List listhead) (k : Nat) (o o1 : List Nat),
    (∀ j, k ≤ j → j < k + l.length → (j ∈ o ↔ j ∈ o1)) →
    closedWidths l k o = closedWidths l k o1 := by
  intro l
  induction l with
  | nil => intro k o o1 _; rfl
  | cons r rs ih =>
    intro k o o1 h
    simp only [closedWidths]
    rw [ih (k + 1) o o1 (fun j h1 h2 => h j (by omega) (by simp only [List.length_cons]; omega))]
    have := h k le_rfl (by simp)
    by_cases hk : k ∈ o
    · rw [if_pos hk, if_pos (this.1 hk)]
    · rw [if_neg hk, if_neg (fun hc => hk (this.2 hc))]

theorem closedWidths_nil_eq_widths : ∀ (l : List listhead) (k : Nat),
    closedWidths l k [] = widths l := by
  intro l
  induction l with
  | nil => intro k; rfl
  | cons r rs ih => intro k; simp [closedWidths, widths, ih (k + 1)]


theorem closedWidths_set_erase : ∀ (l : List listhead) (k i : Nat) (r r1 : listhead)
    (o : List Nat), l[i]? = some r → (k + i) ∈ o → o.Nodup →
    closedWidths (l.set i r1) k (o.erase (k + i)) = closedWidths l k o + width r1.size := by
  intro l
  induction l with
  | nil => intro k i r r1 o h; simp at h
  | cons x xs ih =>
    intro k i r r1 o h hmem hnd
    cases i with
    | zero =>
      simp only [Nat.add_zero] at hmem ⊢
      simp only [List.set_cons_zero, closedWidths]
      have h1 : k ∉ o.erase k := fun hc => ((hnd.mem_erase_iff).1 hc).1 rfl
      rw [if_neg h1, if_pos hmem]
      rw [closedWidths_congr xs (k + 1) (o.erase k) o (fun j hj _ => by
        rw [hnd.mem_erase_iff]
        constructor
        · exact fun h => h.2
        · exact fun h => ⟨by omega, h⟩)]
      ring
    | succ i =>
      simp only [List.getElem?_cons_succ] at h
      simp only [List.set_cons_succ, closedWidths]
      have e : k + (i + 1) = k + 1 + i := by omega
      rw [e] at hmem ⊢
      rw [ih (k + 1) i r r1 o h hmem hnd]
      have h1 : k ∈ o.erase (k + 1 + i) ↔ k ∈ o := by
        rw [hnd.mem_erase_iff]
        constructor
        · exact fun h => h.2
        · exact fun h => ⟨by omega, h⟩
      by_cases hk : k ∈ o
      · rw [if_pos hk, if_pos (h1.2 hk)]; ring
      · rw [if_neg hk, if_neg (fun hc => hk (h1.1 hc))]; ring

theorem closedWidths_snoc_open (l : List listhead) (r : listhead) (o : List Nat) :
    closedWidths (l ++ [r]) 0 (l.length :: o) = closedWidths l 0 o := by
  rw [closedWidths_append]
  simp only [closedWidths, Nat.zero_add, List.mem_cons, true_or, if_true, add_zero]
  apply closedWidths_congr
  intro j _ hj
  simp only [List.mem_cons]
  constructor
  · rintro (h | h)
    · omega
    · exact h
  · exact fun h => Or.inr h

theorem OffsetsOk_mem (hi : Int) : ∀ (heads : List listhead) (lo : Int),
    OffsetsOk lo hi heads → ∀ r ∈ heads, lo ≤ r.offset ∧ r.offset ≤ hi := by
  intro heads
  induction heads with
  | nil => intro lo _ r hr; simp at hr
  | cons x xs ih =>
    intro lo h r hr
    rcases List.mem_cons.1 hr with rfl | hr
    · exact ⟨h.1, OffsetsOk_le _ _ _ h.2⟩
    · have := ih _ h.2 r hr
      exact ⟨le_trans h.1 this.1, this.2⟩

/-- What `listEnd` does to a buffer. -/
theorem listEnd_spec (w w1 : encbuf) (lh : Nat) (h : w.listEnd lh = some w1) :
    ∃ r : listhead, w.lheads[lh]? = some r ∧
      w1.lheads = w.lheads.set lh { r with size := w.size - r.offset - r.size } ∧
      w1.lhsize = w.lhsize + width (w.size - r.offset - r.size) ∧
      w1.str = w.str ∧ w1.sizebuf = w.sizebuf := by
  unfold encbuf.listEnd at h
  cases hr : w.lheads[lh]? with
  | none => rw [hr] at h; simp at h
  | some r =>
    rw [hr] at h
    refine ⟨r, rfl, ?_⟩
    simp only at h
    unfold width
    split at h
    · rename_i hc
      cases h
      exact ⟨rfl, by simp only [hc, if_true], rfl, rfl⟩
    · rename_i hc
      cases h
      exact ⟨rfl, by simp only [hc, if_false], rfl, rfl⟩

theorem inv_start (eb : encbuf) : (Session.start eb).Inv := by
  refine ⟨List.nodup_nil, ?_, ?_, ?_, ?_, ?_, ?_⟩ <;>
    simp [Session.start, encbuf.reset, closedWidths, OffsetsOk]

theorem inv_step (s t : Session) (op : Op) (hs : s.Inv) (h : s.step op = some t) : t.Inv := by
  have hlh0 : 0 ≤ s.w.lhsize := by rw [hs.lhsize_eq]; exact closedWidths_nonneg _ _ _
  by_cases h1 : op = Op.list
  · subst h1
    simp only [Session.step, encbuf.list, Option.some.injEq] at h
    subst h
    refine ⟨?_, ?_, ?_, ?_, ?_, ?_, ?_⟩
    · exact List.nodup_cons.2 ⟨fun hc => lt_irrefl _ (hs.bound _ hc), hs.nodup⟩
    · intro k hk
      simp only [List.length_append, List.length_singleton]
      rcases List.mem_cons.1 hk with rfl | hk
      · omega
      · have := hs.bound k hk; omega
    · simp only
      rw [closedWidths_snoc_open]
      exact hs.lhsize_eq
    · exact OffsetsOk_snoc _ _ _ _ hs.offsets
    · intro r hr
      simp only [List.mem_append, List.mem_singleton] at hr
      rcases hr with hr | rfl
      · exact hs.size_nonneg r hr
      · exact hlh0
    · intro k r hk hmem
      simp only at hk ⊢
      by_cases hlt : k < s.w.lheads.length
      · rw [List.getElem?_append_left hlt] at hk
        rcases List.mem_cons.1 hmem with rfl | hmem
        · omega
        · exact hs.open_le k r hk hmem
      · rw [List.getElem?_append_right (by omega)] at hk
        have hk0 : k - s.w.lheads.length = 0 := by
          by_contra hne
          rw [List.getElem?_eq_none (by simp; omega)] at hk
          exact absurd hk (by simp)
        rw [hk0] at hk
        simp only [List.getElem?_cons_zero, Option.some.injEq] at hk
        subst hk
        exact le_refl _
    · intro k r hk hmem
      simp only at hk ⊢
      have hne : k ≠ s.w.lheads.length := fun hc => hmem (by rw [hc]; exact List.mem_cons_self _ _)
      have hno : k ∉ s.opened := fun hc => hmem (List.mem_cons_of_mem _ hc)
      by_cases hlt : k < s.w.lheads.length
      · rw [List.getElem?_append_left hlt] at hk
        exact hs.closed_le k r hk hno
      · rw [List.getElem?_eq_none (by simp; omega)] at hk
        exact absurd hk (by simp)
  by_cases h2 : ∃ lh, op = Op.listEnd lh
  · obtain ⟨lh, rfl⟩ := h2
    simp only [Session.step] at h
    by_cases hmem : lh ∈ s.opened
    case' neg => rw [if_neg hmem] at h; exact absurd h (by simp)
    case' pos =>
      rw [if_pos hmem] at h
      simp only [Option.map_eq_some'] at h
      obtain ⟨w1, hw, rfl⟩ := h
      obtain ⟨r, hr, e1, e2, e3, -⟩ := listEnd_spec _ _ _ hw
      have hrm : r ∈ s.w.lheads := List.getElem?_mem hr
      have hro := OffsetsOk_mem _ _ _ hs.offsets r hrm
      have hrs := hs.size_nonneg r hrm
      have hrl := hs.open_le lh r hr hmem
      have hwp := width_pos (s.w.size - r.offset - r.size)
      have hsz : s.w.size = s.w.str.length + s.w.lhsize := rfl
      refine ⟨hs.nodup.erase _, ?_, ?_, ?_, ?_, ?_, ?_⟩
      · intro k hk
        simp only [e1, List.length_set]
        exact hs.bound k (List.mem_of_mem_erase hk)
      · simp only [e1, e2]
        have := closedWidths_set_erase s.w.lheads 0 lh r
          { r with size := s.w.size - r.offset - r.size } s.opened hr (by simpa using hmem) hs.nodup
        simp only [Nat.zero_add] at this
        rw [this, hs.lhsize_eq]
      · simp only [e1, e3]
        exact OffsetsOk_set _ _ _ _ _ _ hr hs.offsets
      · intro x hx
        simp only [e1] at hx
        rcases List.mem_or_eq_of_mem_set hx with hx | rfl
        · exact hs.size_nonneg x hx
        · simp only; omega
      · intro k x hk hko
        have hne : k ≠ lh := fun hc => ((hs.nodup.mem_erase_iff).1 hko).1 hc
        simp only [e1, e2] at hk ⊢
        rw [List.getElem?_set_ne (Ne.symm hne)] at hk
        have := hs.open_le k x hk (List.mem_of_mem_erase hko)
        omega
      · intro k x hk hko
        simp only [e1] at hk
        have hsz1 : w1.size = s.w.size + width (s.w.size - r.offset - r.size) := by
          have : w1.size = (w1.str.length : Int) + w1.lhsize := rfl
          rw [this, e2, e3, hsz]; ring
        change _ ≤ w1.size
        by_cases hne : k = lh
        · subst hne
          rw [List.getElem?_set_self (hs.bound k hmem)] at hk
          simp only [Option.some.injEq] at hk
          subst hk
          simp only
          omega
        · rw [List.getElem?_set_ne (Ne.symm hne)] at hk
          have hno : k ∉ s.opened := fun hc => hko ((hs.nodup.mem_erase_iff).2 ⟨hne, hc⟩)
          have := hs.closed_le k x hk hno
          omega
  · obtain ⟨a, e1, e2, e3, e4⟩ := step_append s t op h h1 (fun lh hc => h2 ⟨lh, hc⟩)
    have hlen : (s.w.str.length : Int) ≤ t.w.str.length := by rw [e1]; simp
    refine ⟨?_, ?_, ?_, ?_, ?_, ?_, ?_⟩
    · rw [e4]; exact hs.nodup
    · rw [e4, e2]; exact hs.bound
    · rw [e4, e2, e3]; exact hs.lhsize_eq
    · rw [e2]; exact OffsetsOk_mono _ _ hlen _ _ hs.offsets
    · rw [e2]; exact hs.size_nonneg
    · rw [e2, e3, e4]; exact hs.open_le
    · rw [e2, e4]
      intro k r hk hko
      have := hs.closed_le k r hk hko
      unfold encbuf.size at this ⊢
      rw [e3]; omega

theorem inv_run : ∀ (ops : List Op) (s t : Session), s.Inv → s.run ops = some t → t.Inv := by
  intro ops
  induction ops with
  | nil => intro s t hs h; simp only [Session.run, Option.some.injEq] at h; subst h; exact hs
  | cons op ops ih =>
    intro s t hs h
    simp only [Session.run, Option.bind_eq_some] at h
    obtain ⟨u, hu, ht⟩ := h
    exact ih u t (inv_step s u op hs hu) ht

/-- A well-bracketed run is a run. -/
theorem run_of_runWB : ∀ (ops : List Op) (s t : Session), s.runWB ops = some t →
    s.run ops = some t := by
  intro ops
  induction ops with
  | nil => intro s t h; exact h
  | cons op ops ih =>
    intro s t h
    simp only [Session.runWB] at h
    split at h
    · simp only [Option.bind_eq_some] at h
      obtain ⟨u, hu, ht⟩ := h
      simp only [Session.run, Option.bind_eq_some]
      exact ⟨u, hu, ih u t ht⟩
    · exact absurd h (by simp)

/-! ## Call sequences: size of the output -/


theorem width_eq_headsize (n : Int) (h0 : 0 ≤ n) (h1 : n < 2 ^ 64) :
    width n = (headsize (uint64 n) : Int) := by
  have e := uint64_of_bounds n h0 h1
  unfold width headsize
  by_cases h : n < 56
  · rw [if_pos h, if_pos (by omega)]; rfl
  · rw [if_neg h, if_neg (by omega)]; push_cast; rfl

theorem widths_eq_headBytes : ∀ (l : List listhead),
    (∀ r ∈ l, 0 ≤ r.size ∧ r.size < 2 ^ 64) → widths l = (headBytes l : Int) := by
  intro l
  induction l with
  | nil => intro _; rfl
  | cons r rs ih =>
    intro h
    have h1 := h r (List.mem_cons_self _ _)
    have h2 := ih (fun x hx => h x (List.mem_cons_of_mem _ hx))
    unfold widths headBytes at *
    simp only [List.map_cons, List.sum_cons, Nat.cast_add]
    rw [h2, width_eq_headsize _ h1.1 h1.2]

/-- C8: in every session reached from a reset buffer by appends, `list()` and
`listEnd()` calls (each record closed at most once), `lhsize` is the sum of
`width(record.size)` over the closed records, where `width(n)` is 1 for
`n < 56` and `1 + intsize(n)` otherwise; the equation holds for the reset
buffer (the empty sequence) and again after every further call. -/
theorem lhsize_invariant (eb : encbuf) (ops : List Op) (s : Session)
    (h : (Session.start eb).run ops = some s) :
    s.w.lhsize = closedWidths s.w.lheads 0 s.opened ∧
      ∀ (op : Op) (t : Session), s.step op = some t →
        t.w.lhsize = closedWidths t.w.lheads 0 t.opened := by
  have hs := inv_run ops _ s (inv_start eb) h
  exact ⟨hs.lhsize_eq, fun op t ht => (inv_step s t op hs ht).lhsize_eq⟩

theorem lhsize_invariant_witness :
    (Session.start encbuf.new).run
        [Op.list, Op.Write [1, 2], Op.list, Op.encodeString [3], Op.listEnd 0] =
      some (⟨⟨[1, 2, 3], [⟨0, 3⟩, ⟨2, 0⟩], 1, List.replicate 9 0⟩, [1]⟩ : Session) ∧
    ((1 : Int) = closedWidths [⟨0, 3⟩, ⟨2, 0⟩] 0 [1] ∧
      ∀ (op : Op) (t : Session),
        Session.step ⟨⟨[1, 2, 3], [⟨0, 3⟩, ⟨2, 0⟩], 1, List.replicate 9 0⟩, [1]⟩ op = some t →
        t.w.lhsize = closedWidths t.w.lheads 0 t.opened) :=
  ⟨by rfl, lhsize_invariant encbuf.new
    [Op.list, Op.Write [1, 2], Op.list, Op.encodeString [3], Op.listEnd 0] _ (by rfl)⟩

/-- C6: for every session reached from a reset buffer by a well-bracketed
sequence of calls with every list closed (and a size that fits a Go `int`),
`toBytes` returns exactly `size() = len(str) + lhsize` bytes; the cursor `pos`
after the last header plus the number `n` of payload bytes the final `copy`
moves is `size()`, and the output is the payload with the headers spliced in,
so no byte is filler and no payload byte is dropped. -/
theorem toBytes_fills_exactly (eb : encbuf) (ops : List Op) (s : Session)
    (h : (Session.start eb).runWB ops = some s) (hclosed : s.opened = [])
    (hsize : s.w.size < 2 ^ 63) :
    ∃ (out : List Nat) (pos n : Nat),
      s.w.toBytesAux = some (out, pos, n) ∧ s.w.toBytes = some out ∧
      (out.length : Int) = s.w.size ∧
      s.w.size = (s.w.str.length : Int) + s.w.lhsize ∧
      ((pos + n : Nat) : Int) = s.w.size ∧
      out = spliceFrom s.w.str s.w.lheads 0 ∧
      out.length = s.w.str.length + headBytes s.w.lheads := by
  have hs := inv_run ops _ s (inv_start eb) (run_of_runWB _ _ _ h)
  have hb : ∀ r ∈ s.w.lheads, 0 ≤ r.size ∧ r.size < 2 ^ 64 := by
    intro r hr
    obtain ⟨k, hk⟩ := List.getElem?_of_mem hr
    have := hs.closed_le k r hk (by rw [hclosed]; simp)
    exact ⟨hs.size_nonneg r hr, by omega⟩
  have hlh : s.w.lhsize = (headBytes s.w.lheads : Int) := by
    rw [hs.lhsize_eq, hclosed, closedWidths_nil_eq_widths, widths_eq_headBytes _ hb]
  obtain ⟨pos, n, h1, h2, h3⟩ := toBytesAux_spec s.w hs.offsets hlh
  refine ⟨_, pos, n, h1, ?_, h3, rfl, h2, rfl, ?_⟩
  · unfold encbuf.toBytes; rw [h1]; rfl
  · have : s.w.size = (s.w.str.length : Int) + s.w.lhsize := rfl
    omega

theorem toBytes_fills_exactly_witness :
    (Session.start encbuf.new).runWB
        [Op.list, Op.encodeString [0x63, 0x61, 0x74], Op.list, Op.listEnd 1, Op.listEnd 0] =
      some (⟨⟨[0x83, 0x63, 0x61, 0x74], [⟨0, 5⟩, ⟨4, 0⟩], 2, List.replicate 9 0⟩, []⟩ : Session) ∧
    ∃ (out : List Nat) (pos n : Nat),
      encbuf.toBytesAux ⟨[0x83, 0x63, 0x61, 0x74], [⟨0, 5⟩, ⟨4, 0⟩], 2, List.replicate 9 0⟩ = some (out, pos, n) ∧
      encbuf.toBytes ⟨[0x83, 0x63, 0x61, 0x74], [⟨0, 5⟩, ⟨4, 0⟩], 2, List.replicate 9 0⟩ = some out ∧
      (out.length : Int) = encbuf.size ⟨[0x83, 0x63, 0x61, 0x74], [⟨0, 5⟩, ⟨4, 0⟩], 2, List.replicate 9 0⟩ ∧
      encbuf.size ⟨[0x83, 0x63, 0x61, 0x74], [⟨0, 5⟩, ⟨4, 0⟩], 2, List.replicate 9 0⟩ =
        (([0x83, 0x63, 0x61, 0x74] : List Nat).length : Int) + 2 ∧
      ((pos + n : Nat) : Int) = encbuf.size ⟨[0x83, 0x63, 0x61, 0x74], [⟨0, 5⟩, ⟨4, 0⟩], 2, List.replicate 9 0⟩ ∧
      out = spliceFrom [0x83, 0x63, 0x61, 0x74] [⟨0, 5⟩, ⟨4, 0⟩] 0 ∧
      out.length = ([0x83, 0x63, 0x61, 0x74] : List Nat).length + headBytes [⟨0, 5⟩, ⟨4, 0⟩] :=
  ⟨by rfl, toBytes_fills_exactly encbuf.new
    [Op.list, Op.encodeString [0x63, 0x61, 0x74], Op.list, Op.listEnd 1, Op.listEnd 0] _
    (by rfl) (by rfl) (by decide)⟩

/-! ## Well-bracketed call sequences -/


theorem runWB_cons (s t : Session) (op : Op) (ops : List Op)
    (h : s.runWB (op :: ops) = some t) :
    ∃ u, s.innermost op = true ∧ s.step op = some u ∧ u.runWB ops = some t := by
  simp only [Session.runWB] at h
  by_cases hi : s.innermost op = true
  · rw [if_pos hi] at h
    simp only [Option.bind_eq_some] at h
    obtain ⟨u, hu, ht⟩ := h
    exact ⟨u, hi, hu, ht⟩
  · rw [if_neg hi] at h; exact absurd h (by simp)

theorem innermost_listEnd (s : Session) (lh : Nat) (h : s.innermost (Op.listEnd lh) = true) :
    ∃ rest, s.opened = lh :: rest := by
  simp only [Session.innermost, beq_iff_eq] at h
  cases ho : s.opened with
  | nil => rw [ho] at h; simp at h
  | cons x xs =>
    rw [ho] at h
    simp only [List.head?_cons, Option.some.injEq] at h
    exact ⟨xs, by rw [h]⟩

/-- What a `listEnd` call that closes the innermost list does to a session. -/
theorem step_listEnd_top (s t : Session) (lh : Nat) (rest : List Nat)
    (ho : s.opened = lh :: rest) (h : s.step (Op.listEnd lh) = some t) :
    ∃ r : listhead, s.w.lheads[lh]? = some r ∧
      t.w.lheads = s.w.lheads.set lh { r with size := s.w.size - r.offset - r.size } ∧
      t.w.lhsize = s.w.lhsize + width (s.w.size - r.offset - r.size) ∧
      t.w.str = s.w.str ∧ t.opened = rest := by
  simp only [Session.step] at h
  rw [if_pos (by rw [ho]; exact List.mem_cons_self _ _)] at h
  simp only [Option.map_eq_some'] at h
  obtain ⟨w1, hw, rfl⟩ := h
  obtain ⟨r, hr, e1, e2, e3, -⟩ := listEnd_spec _ _ _ hw
  exact ⟨r, hr, e1, e2, e3, by simp [ho]⟩

theorem invWB_start (eb : encbuf) : (Session.start eb).InvWB := by
  refine ⟨?_, ?_⟩ <;> simp [Session.start, encbuf.reset]

theorem invWB_step (s t : Session) (op : Op) (hs : s.Inv) (hw : s.InvWB)
    (hi : s.innermost op = true) (h : s.step op = some t) : t.InvWB := by
  by_cases h1 : op = Op.list
  · subst h1
    simp only [Session.step, encbuf.list, Option.some.injEq] at h
    subst h
    refine ⟨?_, ?_⟩
    · exact List.pairwise_cons.2 ⟨fun k hk => hs.bound k hk, hw.sorted⟩
    · intro k r hk hmem
      simp only at hk hmem ⊢
      have hklt : k ≤ s.w.lheads.length := by
        rcases List.mem_cons.1 hmem with rfl | hmem
        · exact le_rfl
        · exact le_of_lt (hs.bound k hmem)
      rw [List.take_append_of_le_length hklt]
      have hcongr : closedWidths (s.w.lheads.take k) 0 (s.w.lheads.length :: s.opened) =
          closedWidths (s.w.lheads.take k) 0 s.opened := by
        apply closedWidths_congr
        intro j _ hj
        simp only [List.length_take, Nat.zero_add] at hj
        simp only [List.mem_cons]
        constructor
        · rintro (h | h)
          · omega
          · exact h
        · exact fun h => Or.inr h
      rw [hcongr]
      rcases List.mem_cons.1 hmem with rfl | hmem
      · rw [List.getElem?_append_right le_rfl] at hk
        simp only [Nat.sub_self, List.getElem?_cons_zero, Option.some.injEq] at hk
        subst hk
        simp only [List.take_length]
        exact hs.lhsize_eq
      · rw [List.getElem?_append_left (hs.bound k hmem)] at hk
        exact hw.snapshot k r hk hmem
  by_cases h2 : ∃ lh, op = Op.listEnd lh
  · obtain ⟨lh, rfl⟩ := h2
    obtain ⟨rest, ho⟩ := innermost_listEnd s lh hi
    obtain ⟨r, hr, e1, e2, e3, e4⟩ := step_listEnd_top s t lh rest ho h
    have hsorted := hw.sorted
    rw [ho] at hsorted
    obtain ⟨hlt, hrest⟩ := List.pairwise_cons.1 hsorted
    refine ⟨by rw [e4]; exact hrest, ?_⟩
    intro k x hk hmem
    rw [e4] at hmem ⊢
    have hklt := hlt k hmem
    rw [e1, List.getElem?_set_ne (by omega)] at hk
    have := hw.snapshot k x hk (by rw [ho]; exact List.mem_cons_of_mem _ hmem)
    rw [this, e1, ho, List.take_set_of_lt _ _ hklt]
    apply closedWidths_congr
    intro j _ hj
    simp only [List.length_take, Nat.zero_add] at hj
    simp only [List.mem_cons]
    constructor
    · rintro (h | h)
      · omega
      · exact h
    · exact fun h => Or.inr h
  · obtain ⟨a, e1, e2, e3, e4⟩ := step_append s t op h h1 (fun lh hc => h2 ⟨lh, hc⟩)
    refine ⟨by rw [e4]; exact hw.sorted, ?_⟩
    rw [e2, e4]
    exact hw.snapshot

theorem invWB_run : ∀ (ops : List Op) (s t : Session), s.Inv → s.InvWB →
    s.runWB ops = some t → t.Inv ∧ t.InvWB := by
  intro ops
  induction ops with
  | nil => intro s t hs hw h; simp only [Session.runWB, Option.some.injEq] at h; subst h; exact ⟨hs, hw⟩
  | cons op ops ih =>
    intro s t hs hw h
    obtain ⟨u, hi, hu, ht⟩ := runWB_cons s t op ops h
    exact ih u t (inv_step s u op hs hu) (invWB_step s u op hs hw hi hu) ht


/-- A call keeps the payload written so far and the offsets of the records. -/
theorem step_frame (s t : Session) (op : Op) (h : s.step op = some t) :
    (∃ added, t.w.str = s.w.str ++ added) ∧
    (∀ (k : Nat) (r : listhead), s.w.lheads[k]? = some r →
      ∃ r1 : listhead, t.w.lheads[k]? = some r1 ∧ r1.offset = r.offset) := by
  by_cases h1 : op = Op.list
  · subst h1
    simp only [Session.step, encbuf.list, Option.some.injEq] at h
    subst h
    refine ⟨⟨[], by simp⟩, ?_⟩
    intro k r hk
    have hlt : k < s.w.lheads.length := by
      by_contra hc
      rw [List.getElem?_eq_none (by omega)] at hk
      exact absurd hk (by simp)
    exact ⟨r, by simp only; rw [List.getElem?_append_left hlt]; exact hk, rfl⟩
  by_cases h2 : ∃ lh, op = Op.listEnd lh
  · obtain ⟨lh, rfl⟩ := h2
    simp only [Session.step] at h
    by_cases hmem : lh ∈ s.opened
    case' neg => rw [if_neg hmem] at h; exact absurd h (by simp)
    case' pos =>
      rw [if_pos hmem] at h
      simp only [Option.map_eq_some'] at h
      obtain ⟨w1, hw, rfl⟩ := h
      obtain ⟨r, hr, e1, e2, e3, -⟩ := listEnd_spec _ _ _ hw
      refine ⟨⟨[], by simp [e3]⟩, ?_⟩
      intro k x hk
      simp only [e1]
      by_cases hkl : lh = k
      · subst hkl
        rw [hr] at hk
        simp only [Option.some.injEq] at hk
        subst hk
        have hlt : lh < s.w.lheads.length := by
          by_contra hc
          rw [List.getElem?_eq_none (by omega)] at hr
          exact absurd hr (by simp)
        exact ⟨_, List.getElem?_set_self hlt, rfl⟩
      · exact ⟨x, by rw [List.getElem?_set_ne hkl]; exact hk, rfl⟩
  · obtain ⟨a, e1, e2, e3, e4⟩ := step_append s t op h h1 (fun lh hc => h2 ⟨lh, hc⟩)
    exact ⟨⟨a, e1⟩, fun k r hk => ⟨r, by rw [e2]; exact hk, rfl⟩⟩

theorem runWB_frame : ∀ (ops : List Op) (s t : Session), s.runWB ops = some t →
    (∃ added, t.w.str = s.w.str ++ added) ∧
    (∀ (k : Nat) (r : listhead), s.w.lheads[k]? = some r →
      ∃ r1 : listhead, t.w.lheads[k]? = some r1 ∧ r1.offset = r.offset) := by
  intro ops
  induction ops with
  | nil =>
    intro s t h
    simp only [Session.runWB, Option.some.injEq] at h
    subst h
    exact ⟨⟨[], by simp⟩, fun k r hk => ⟨r, hk, rfl⟩⟩
  | cons op ops ih =>
    intro s t h
    obtain ⟨u, -, hu, ht⟩ := runWB_cons s t op ops h
    obtain ⟨⟨a1, ha1⟩, f1⟩ := step_frame s u op hu
    obtain ⟨⟨a2, ha2⟩, f2⟩ := ih u t ht
    refine ⟨⟨a1 ++ a2, by rw [ha2, ha1, List.append_assoc]⟩, ?_⟩
    intro k r hk
    obtain ⟨r1, hk1, e1⟩ := f1 k r hk
    obtain ⟨r2, hk2, e2⟩ := f2 k r1 hk1
    exact ⟨r2, hk2, by rw [e2, e1]⟩

/-- While the list `lh` is open, the open references below it on the stack
stay as they are; once it is closed it is never open again. -/
theorem stack_step (s t : Session) (op : Op) (lh : Nat) (rest : List Nat) (hs : s.Inv)
    (hi : s.innermost op = true) (h : s.step op = some t) (hlh : lh < s.w.lheads.length)
    (hP : (∃ newer, s.opened = newer ++ lh :: rest ∧ ∀ j ∈ newer, lh < j) ∨ lh ∉ s.opened) :
    lh < t.w.lheads.length ∧
    ((∃ newer, t.opened = newer ++ lh :: rest ∧ ∀ j ∈ newer, lh < j) ∨ lh ∉ t.opened) := by
  by_cases h1 : op = Op.list
  · subst h1
    simp only [Session.step, encbuf.list, Option.some.injEq] at h
    subst h
    refine ⟨by simp; omega, ?_⟩
    rcases hP with ⟨newer, e, hn⟩ | hP
    · left
      refine ⟨s.w.lheads.length :: newer, by simp [e], ?_⟩
      intro j hj
      rcases List.mem_cons.1 hj with rfl | hj
      · exact hlh
      · exact hn j hj
    · right
      simp only [List.mem_cons, not_or]
      exact ⟨by omega, hP⟩
  by_cases h2 : ∃ x, op = Op.listEnd x
  · obtain ⟨x, rfl⟩ := h2
    obtain ⟨tl, ho⟩ := innermost_listEnd s x hi
    obtain ⟨r, hr, e1, e2, e3, e4⟩ := step_listEnd_top s t x tl ho h
    refine ⟨by rw [e1, List.length_set]; exact hlh, ?_⟩
    have hnd := hs.nodup
    rw [ho] at hnd
    rcases hP with ⟨newer, e, hn⟩ | hP
    · cases newer with
      | nil =>
        right
        rw [ho] at e
        simp only [List.nil_append, List.cons.injEq] at e
        rw [e4, ← e.1]
        exact (List.nodup_cons.1 hnd).1
      | cons y ys =>
        left
        rw [ho] at e
        simp only [List.cons_append, List.cons.injEq] at e
        exact ⟨ys, by rw [e4, e.2], fun j hj => hn j (List.mem_cons_of_mem _ hj)⟩
    · right
      rw [e4]
      exact fun hc => hP (by rw [ho]; exact List.mem_cons_of_mem _ hc)
  · obtain ⟨a, e1, e2, e3, e4⟩ := step_append s t op h h1 (fun lh hc => h2 ⟨lh, hc⟩)
    rw [e2, e4]
    exact ⟨hlh, hP⟩

theorem stack_run : ∀ (ops : List Op) (s t : Session) (lh : Nat) (rest : List Nat), s.Inv →
    s.runWB ops = some t → lh < s.w.lheads.length →
    ((∃ newer, s.opened = newer ++ lh :: rest ∧ ∀ j ∈ newer, lh < j) ∨ lh ∉ s.opened) →
    ((∃ newer, t.opened = newer ++ lh :: rest ∧ ∀ j ∈ newer, lh < j) ∨ lh ∉ t.opened) := by
  intro ops
  induction ops with
  | nil =>
    intro s t lh rest _ h _ hP
    simp only [Session.runWB, Option.some.injEq] at h
    subst h
    exact hP
  | cons op ops ih =>
    intro s t lh rest hs h hlh hP
    obtain ⟨u, hi, hu, ht⟩ := runWB_cons s t op ops h
    obtain ⟨h1, h2⟩ := stack_step s u op lh rest hs hi hu hlh hP
    exact ih u t lh rest (inv_step s u op hs hu) ht h1 h2

/-- C7: in a well-bracketed call sequence, let a list be opened by `list()` in
session `s1` and closed by `listEnd` in session `s3` (giving `s4`).  Then the
calls in between only appended `added` to the payload and left the stack below
the list untouched, and after `listEnd` the record's size is non-negative and
equals the number of payload bytes appended between the open and the close
plus the sum of the header widths of the lists opened and closed in between
(the records after this one); its own header is not counted, as it is added to
`lhsize` only. -/
theorem listEnd_size (eb : encbuf) (pre mid : List Op) (s1 s3 s4 : Session)
    (h1 : (Session.start eb).runWB pre = some s1)
    (h3 : s1.runWB (Op.list :: mid) = some s3)
    (h4 : s3.runWB [Op.listEnd s1.w.lheads.length] = some s4) :
    ∃ (added : List Nat) (r : listhead),
      s3.w.str = s1.w.str ++ added ∧
      s3.opened = s1.w.lheads.length :: s1.opened ∧ s4.opened = s1.opened ∧
      s4.w.lheads[s1.w.lheads.length]? = some r ∧
      r.offset = s1.w.str.length ∧
      0 ≤ r.size ∧
      r.size = added.length + widths (s4.w.lheads.drop (s1.w.lheads.length + 1)) ∧
      s4.w.lhsize = s3.w.lhsize + width r.size := by
  obtain ⟨hs1, hw1⟩ := invWB_run pre _ s1 (inv_start eb) (invWB_start eb) h1
  obtain ⟨s2, -, hs2, hmid⟩ := runWB_cons s1 s3 Op.list mid h3
  have hI2 := inv_step s1 s2 Op.list hs1 hs2
  obtain ⟨hI3, hW3⟩ := invWB_run _ _ s3 hs1 hw1 h3
  simp only [Session.step, encbuf.list, Option.some.injEq] at hs2
  obtain ⟨s5, hi4, hs4, h5⟩ := runWB_cons s3 s4 _ [] h4
  simp only [Session.runWB, Option.some.injEq] at h5
  subst h5
  obtain ⟨tl, ho3⟩ := innermost_listEnd s3 _ hi4
  -- the stack below the list is untouched
  have hstack := stack_run mid s2 s3 s1.w.lheads.length s1.opened hI2 hmid
    (by rw [← hs2]; simp) (Or.inl ⟨[], by rw [← hs2]; rfl, by simp⟩)
  have htl : tl = s1.opened := by
    rcases hstack with ⟨newer, e, hn⟩ | hP
    · cases newer with
      | nil =>
        rw [ho3] at e
        simpa using e
      | cons y ys =>
        rw [ho3] at e
        simp only [List.cons_append, List.cons.injEq] at e
        have := hn y (List.mem_cons_self _ _)
        omega
    · exact absurd (by rw [ho3]; exact List.mem_cons_self _ _) hP
  subst htl
  -- payload and offset
  obtain ⟨⟨added, hadd⟩, hoff⟩ := runWB_frame mid s2 s3 hmid
  have hstr2 : s2.w.str = s1.w.str := by rw [← hs2]
  rw [hstr2] at hadd
  obtain ⟨r3, hr3, hr3o⟩ := hoff s1.w.lheads.length ⟨s1.w.str.length, s1.w.lhsize⟩
    (by rw [← hs2]; simp)
  obtain ⟨r, hr, e1, e2, e3, e4⟩ := step_listEnd_top s3 s5 _ _ ho3 hs4
  rw [hr3] at hr
  simp only [Option.some.injEq] at hr
  subst hr
  have hlt : s1.w.lheads.length < s3.w.lheads.length := by
    by_contra hc
    rw [List.getElem?_eq_none (by omega)] at hr3
    exact absurd hr3 (by simp)
  -- the snapshot and the headers of the lists closed in between
  have hsnap := hW3.snapshot _ r3 hr3 (by rw [ho3]; exact List.mem_cons_self _ _)
  have hsplit : closedWidths s3.w.lheads 0 s3.opened =
      closedWidths (s3.w.lheads.take s1.w.lheads.length) 0 s3.opened +
        widths (s3.w.lheads.drop (s1.w.lheads.length + 1)) := by
    conv_lhs => rw [← List.take_append_drop s1.w.lheads.length s3.w.lheads]
    rw [closedWidths_append, List.length_take, Nat.min_eq_left (le_of_lt hlt), Nat.zero_add]
    congr 1
    rw [List.drop_eq_getElem_cons hlt]
    simp only [closedWidths]
    rw [if_pos (by rw [ho3]; exact List.mem_cons_self _ _), zero_add,
      ← closedWidths_nil_eq_widths _ (s1.w.lheads.length + 1)]
    apply closedWidths_congr
    intro j hj _
    have hsorted := hW3.sorted
    rw [ho3] at hsorted ⊢
    have hlt2 := (List.pairwise_cons.1 hsorted).1
    simp only [List.mem_cons, List.not_mem_nil, iff_false, not_or]
    exact ⟨by omega, fun hc => by have := hlt2 j hc; omega⟩
  have hsz3 : s3.w.size = (s3.w.str.length : Int) + s3.w.lhsize := rfl
  have hsize : s3.w.size - r3.offset - r3.size =
      (added.length : Int) + widths (s3.w.lheads.drop (s1.w.lheads.length + 1)) := by
    rw [hsz3, hI3.lhsize_eq, hsplit, hsnap, hr3o, hadd]
    simp only [List.length_append, Nat.cast_add]
    ring
  refine ⟨added, { r3 with size := s3.w.size - r3.offset - r3.size }, hadd, ho3, e4, ?_, hr3o,
    ?_, ?_, e2⟩
  · rw [e1]; exact List.getElem?_set_self hlt
  · simp only
    rw [hsize]
    have : 0 ≤ widths (s3.w.lheads.drop (s1.w.lheads.length + 1)) := by
      rw [← closedWidths_nil_eq_widths _ 0]; exact closedWidths_nonneg _ _ _
    omega
  · simp only
    rw [hsize, e1, List.drop_set_of_lt _ _ (by omega)]


theorem listEnd_size_witness :
    (Session.start encbuf.new).runWB [Op.Write [9]] =
      some (⟨⟨[9], [], 0, List.replicate 9 0⟩, []⟩ : Session) ∧
    Session.runWB ⟨⟨[9], [], 0, List.replicate 9 0⟩, []⟩
        (Op.list :: [Op.encodeString [1, 2], Op.list, Op.listEnd 1]) =
      some (⟨⟨[9, 0x82, 1, 2], [⟨1, 0⟩, ⟨4, 0⟩], 1, List.replicate 9 0⟩, [0]⟩ : Session) ∧
    Session.runWB ⟨⟨[9, 0x82, 1, 2], [⟨1, 0⟩, ⟨4, 0⟩], 1, List.replicate 9 0⟩, [0]⟩
        [Op.listEnd 0] =
      some (⟨⟨[9, 0x82, 1, 2], [⟨1, 4⟩, ⟨4, 0⟩], 2, List.replicate 9 0⟩, []⟩ : Session) ∧
    ∃ (added : List Nat) (r : listhead),
      [9, 0x82, 1, 2] = [9] ++ added ∧
      [0] = 0 :: ([] : List Nat) ∧ ([] : List Nat) = [] ∧
      ([⟨1, 4⟩, ⟨4, 0⟩] : List listhead)[0]? = some r ∧
      r.offset = (([9] : List Nat).length : Int) ∧
      0 ≤ r.size ∧
      r.size = added.length + widths (([⟨1, 4⟩, ⟨4, 0⟩] : List listhead).drop (0 + 1)) ∧
      (2 : Int) = 1 + width r.size :=
  ⟨by rfl, by rfl, by rfl,
    listEnd_size encbuf.new [Op.Write [9]] [Op.encodeString [1, 2], Op.list, Op.listEnd 1]
      ⟨⟨[9], [], 0, List.replicate 9 0⟩, []⟩
      ⟨⟨[9, 0x82, 1, 2], [⟨1, 0⟩, ⟨4, 0⟩], 1, List.replicate 9 0⟩, [0]⟩
      ⟨⟨[9, 0x82, 1, 2], [⟨1, 4⟩, ⟨4, 0⟩], 2, List.replicate 9 0⟩, []⟩
      (by rfl) (by rfl) (by rfl)⟩
/-! ## Emission of item trees -/


theorem take_drop_split (str : List Nat) (sp m n : Nat) (h1 : sp ≤ m) (h2 : m ≤ n) :
    (str.take n).drop sp = (str.take m).drop sp ++ (str.take n).drop m := by
  have e : str.take m = (str.take n).take m := by
    rw [List.take_take, Nat.min_eq_left h2]
  rw [e]
  generalize str.take n = l
  by_cases hm : m ≤ l.length
  · have h3 : l.drop sp = (l.take m ++ l.drop m).drop sp := by rw [List.take_append_drop]
    rw [h3, List.drop_append_eq_append_drop]
    congr 1
    have : sp - (l.take m).length = 0 := by
      simp only [List.length_take]
      omega
    rw [this, List.drop_zero]
  · rw [List.take_of_length_le (by omega), List.drop_eq_nil_of_le (by omega : l.length ≤ m)]
    simp

theorem spliceFrom_shift (str : List Nat) (hi : Int) : ∀ (H : List listhead) (sp m : Nat),
    sp ≤ m → OffsetsOk m hi H →
    spliceFrom str H sp = (str.take m).drop sp ++ spliceFrom str H m := by
  intro H
  cases H with
  | nil =>
    intro sp m h1 _
    simp only [spliceFrom]
    have := take_drop_split str sp m str.length h1
    by_cases hm : m ≤ str.length
    · have := this hm
      simpa using this
    · rw [List.take_of_length_le (by omega), List.drop_eq_nil_of_le (by omega : str.length ≤ m)]
      simp
  | cons r rs =>
    intro sp m h1 h2
    simp only [spliceFrom]
    rw [take_drop_split str sp m r.offset.toNat h1 (by have := h2.1; omega)]
    simp

theorem spliceFrom_append (str1 S2 : List Nat) (hi : Int) : ∀ (H1 H2 : List listhead) (sp : Nat),
    OffsetsOk sp str1.length H1 → OffsetsOk str1.length hi H2 →
    spliceFrom (str1 ++ S2) (H1 ++ H2) sp =
      spliceFrom str1 H1 sp ++ spliceFrom (str1 ++ S2) H2 str1.length := by
  intro H1
  induction H1 with
  | nil =>
    intro H2 sp h1 h2
    simp only [List.nil_append, spliceFrom]
    have hsp : sp ≤ str1.length := by have := h1; simp only [OffsetsOk] at this; omega
    rw [spliceFrom_shift (str1 ++ S2) hi H2 sp str1.length hsp h2]
    simp
  | cons r rs ih =>
    intro H2 sp h1 h2
    obtain ⟨h3, h4⟩ := h1
    have h5 := OffsetsOk_le _ _ _ h4
    simp only [List.cons_append, spliceFrom]
    change _ ++ _ ++ spliceFrom (str1 ++ S2) (rs ++ H2) r.offset.toNat = _
    rw [ih H2 r.offset.toNat (by rw [Int.toNat_of_nonneg (by omega)]; exact h4) h2]
    rw [List.take_append_of_le_length (by omega)]
    simp

theorem OffsetsOk_append (hi : Int) : ∀ (H1 H2 : List listhead) (lo mid : Int),
    OffsetsOk lo mid H1 → OffsetsOk mid hi H2 → OffsetsOk lo hi (H1 ++ H2) := by
  intro H1
  induction H1 with
  | nil =>
    intro H2 lo mid h1 h2
    cases H2 with
    | nil => exact le_trans h1 h2
    | cons r rs => exact ⟨le_trans h1 h2.1, h2.2⟩
  | cons r rs ih =>
    intro H2 lo mid h1 h2
    exact ⟨h1.1, ih H2 _ mid h1.2 h2⟩

theorem headBytes_append (H1 H2 : List listhead) :
    headBytes (H1 ++ H2) = headBytes H1 + headBytes H2 := by
  simp [headBytes]

theorem string_enc_length_ge (b : List Nat) : b.length ≤ (string_enc b).length := by
  unfold string_enc
  split
  · rename_i h; simp [h.1]
  · simp

theorem enc_length_le_encAll (x : Item) (xs : List Item) :
    (enc x).length ≤ (encAll (x :: xs)).length ∧ (encAll xs).length ≤ (encAll (x :: xs)).length := by
  simp [encAll]

theorem encAll_length_le_enc (xs : List Item) : (encAll xs).length ≤ (enc (.list xs)).length := by
  simp [enc]

mutual
/-- Effect of emitting an item into a pooled buffer: payload and records are
appended, and splicing the new records into the new payload gives the wire
encoding of the item. -/
theorem emit_spec : ∀ (v : Item) (w : encbuf), w.sizebuf.length = 9 →
    (enc v).length < 2 ^ 63 →
    ∃ (w1 : encbuf) (S : List Nat) (H : List listhead), emit v w = some w1 ∧
      w1.str = w.str ++ S ∧ w1.lheads = w.lheads ++ H ∧
      w1.lhsize = w.lhsize + (headBytes H : Int) ∧ w1.sizebuf.length = 9 ∧
      OffsetsOk w.str.length w1.str.length H ∧
      spliceFrom w1.str H w.str.length = enc v ∧
      (enc v).length = S.length + headBytes H
  | .str b, w, hsb, hlen => by
    have hb := string_enc_length_ge b
    simp only [enc] at hlen ⊢
    obtain ⟨sb, hsb1, he⟩ := encodeString_spec w b (by omega) hsb
    refine ⟨{ w with str := w.str ++ string_enc b, sizebuf := sb }, string_enc b, [], ?_, rfl,
      by simp, by simp [headBytes], hsb1, ?_, ?_, ?_⟩
    · simp only [emit, writeBytes]; exact he
    · simp [OffsetsOk]
    · simp [spliceFrom]
    · simp [headBytes]
  | .list xs, w, hsb, hlen => by
    have hle := encAll_length_le_enc xs
    obtain ⟨w2, S, H, he, e1, e2, e3, e4, e5, e6, e7⟩ :=
      emitAll_spec xs (w.list).1 hsb (by omega)
    simp only [encbuf.list] at he e1 e2 e3 e5 e6
    -- the record of this list
    have hget : w2.lheads[w.lheads.length]? =
        some ({ offset := w.str.length, size := w.lhsize } : listhead) := by
      rw [e2, List.append_assoc, List.getElem?_append_right le_rfl]
      simp
    have hsz : w2.size - (w.str.length : Int) - w.lhsize = ((encAll xs).length : Int) := by
      have : w2.size = (w2.str.length : Int) + w2.lhsize := rfl
      rw [this, e1, e3, e7]
      simp only [List.length_append, Nat.cast_add]
      ring
    have hu : uint64 ((encAll xs).length : Int) = (encAll xs).length :=
      uint64_of_nat _ (by omega)
    have hwd : width ((encAll xs).length : Int) = (headsize (encAll xs).length : Int) := by
      rw [width_eq_headsize _ (by omega) (by omega), hu]
    have hend : w2.listEnd w.lheads.length =
        some { w2 with
          lheads := w.lheads ++
            ({ offset := w.str.length, size := ((encAll xs).length : Int) } :: H),
          lhsize := w2.lhsize + (headsize (encAll xs).length : Int) } := by
      unfold encbuf.listEnd
      rw [hget]
      simp only [hsz]
      have hset : w2.lheads.set w.lheads.length
            { offset := w.str.length, size := ((encAll xs).length : Int) } =
          w.lheads ++ ({ offset := w.str.length, size := ((encAll xs).length : Int) } :: H) := by
        rw [e2, List.append_assoc, List.set_append_right _ _ le_rfl]
        simp
      rw [hset]
      unfold width at hwd
      split
      · rename_i hc; rw [if_pos hc] at hwd; rw [← hwd]
      · rename_i hc; rw [if_neg hc] at hwd; rw [← hwd]
    refine ⟨{ w2 with
          lheads := w.lheads ++
            ({ offset := w.str.length, size := ((encAll xs).length : Int) } :: H),
          lhsize := w2.lhsize + (headsize (encAll xs).length : Int) },
      S, { offset := w.str.length, size := ((encAll xs).length : Int) } :: H,
      ?_, e1, rfl, ?_, e4, ?_, ?_, ?_⟩
    · simp only [emit, encbuf.list, Option.bind_eq_bind, he, Option.some_bind]
      exact hend
    · simp only [e3, headBytes, List.map_cons, List.sum_cons, hu, Nat.cast_add]
      ring
    · exact ⟨le_refl _, e5⟩
    · simp only [spliceFrom, Int.toNat_ofNat, hu, e1, enc]
      rw [← e1, e6]
      rw [e1, List.take_left]
      simp
    · have hl := list_header_length (encAll xs).length (by omega)
      have hhb : headBytes (({ offset := w.str.length, size := ((encAll xs).length : Int) }
          : listhead) :: H) = headsize (encAll xs).length + headBytes H := by
        simp [headBytes, hu]
      simp only [enc, List.length_append, hl, hhb]
      omega
/-- Effect of emitting the children of a list one after the other. -/
theorem emitAll_spec : ∀ (xs : List Item) (w : encbuf), w.sizebuf.length = 9 →
    (encAll xs).length < 2 ^ 63 →
    ∃ (w1 : encbuf) (S : List Nat) (H : List listhead), emitAll xs w = some w1 ∧
      w1.str = w.str ++ S ∧ w1.lheads = w.lheads ++ H ∧
      w1.lhsize = w.lhsize + (headBytes H : Int) ∧ w1.sizebuf.length = 9 ∧
      OffsetsOk w.str.length w1.str.length H ∧
      spliceFrom w1.str H w.str.length = encAll xs ∧
      (encAll xs).length = S.length + headBytes H
  | [], w, hsb, _ => by
    refine ⟨w, [], [], rfl, by simp, by simp, by simp [headBytes], hsb, ?_, ?_, ?_⟩
    · simp [OffsetsOk]
    · simp [spliceFrom, encAll]
    · simp [encAll, headBytes]
  | x :: xs, w, hsb, hlen => by
    have hle := enc_length_le_encAll x xs
    obtain ⟨w1, S1, H1, he1, a1, a2, a3, a4, a5, a6, a7⟩ := emit_spec x w hsb (by omega)
    obtain ⟨w2, S2, H2, he2, b1, b2, b3, b4, b5, b6, b7⟩ := emitAll_spec xs w1 a4 (by omega)
    refine ⟨w2, S1 ++ S2, H1 ++ H2, ?_, ?_, ?_, ?_, b4, ?_, ?_, ?_⟩
    · simp only [emitAll, Option.bind_eq_bind, he1, Option.some_bind, he2]
    · rw [b1, a1, List.append_assoc]
    · rw [b2, a2, List.append_assoc]
    · rw [b3, a3, headBytes_append]; push_cast; ring
    · exact OffsetsOk_append _ _ _ _ _ a5 b5
    · rw [b1, spliceFrom_append w1.str S2 _ H1 H2 w.str.length a5 b5]
      rw [a6, ← b1, b6]
      rfl
    · simp only [encAll, List.length_append, a7, b7, headBytes_append]
      omega
end


theorem encAll_eq_flatten (xs : List Item) : encAll xs = (xs.map enc).flatten := by
  induction xs with
  | nil => rfl
  | cons x xs ih => simp [encAll, ih]

theorem encodeToBytes_eq (eb : encbuf) (v : Item) (hsb : eb.sizebuf.length = 9)
    (hlen : (enc v).length < 2 ^ 63) : encodeToBytes eb v = some (enc v) := by
  obtain ⟨w1, S, H, he, e1, e2, e3, e4, e5, e6, e7⟩ := emit_spec v eb.reset hsb hlen
  simp only [encbuf.reset, List.take_zero, List.nil_append, List.length_nil, zero_add,
    Nat.cast_zero] at e1 e2 e3 e5 e6
  obtain ⟨pos, n, h1, -, -⟩ := toBytesAux_spec w1 (by rw [e2]; exact e5) (by rw [e3, e2])
  unfold encodeToBytes
  simp only [Option.bind_eq_bind, he, Option.some_bind, encbuf.toBytes, h1, Option.map_some']
  rw [e2, e6]

/-- C1: for every RLP item tree whose encoding fits a Go `int`, emitting it
into a freshly reset pooled buffer (`encodeString` for a string; `list()`, the
children in order, `listEnd` for a list) and calling `toBytes` yields the
reference wire encoding; for a list that encoding is the list header of `S`
followed by the concatenation of the children's encodings, where `S` is the
sum of the children's encoded lengths and the header is `0xC0 + S` when
`S < 56` and otherwise `0xF7 + K` followed by the `K` big-endian bytes of
`S`. -/
theorem encodeToBytes_wire_format (eb : encbuf) (v : Item) (hsb : eb.sizebuf.length = 9)
    (hlen : (enc v).length < 2 ^ 63) :
    encodeToBytes eb v = some (enc v) ∧
    ∀ xs : List Item, v = Item.list xs →
      ((xs.map (fun x => (enc x).length)).sum < 2 ^ 63) ∧
      (∀ x ∈ xs, encodeToBytes eb x = some (enc x)) ∧
      encodeToBytes eb v = some (
        (if (xs.map (fun x => (enc x).length)).sum < 56 then
          [0xC0 + (xs.map (fun x => (enc x).length)).sum]
         else
          (0xF7 + minimal_bytes (xs.map (fun x => (enc x).length)).sum) ::
            be (xs.map (fun x => (enc x).length)).sum
              (minimal_bytes (xs.map (fun x => (enc x).length)).sum)) ++
        (xs.map enc).flatten) := by
  refine ⟨encodeToBytes_eq eb v hsb hlen, ?_⟩
  rintro xs rfl
  have hsum : (xs.map (fun x => (enc x).length)).sum = (encAll xs).length := by
    rw [encAll_eq_flatten, List.length_flatten, List.map_map]
    rfl
  have hle := encAll_length_le_enc xs
  refine ⟨by omega, ?_, ?_⟩
  · intro x hx
    refine encodeToBytes_eq eb x hsb ?_
    have : (enc x).length ≤ (xs.map (fun x => (enc x).length)).sum :=
      List.single_le_sum (by intro y _; exact Nat.zero_le y) _
        (List.mem_map.2 ⟨x, hx, rfl⟩)
    omega
  · rw [encodeToBytes_eq eb _ hsb hlen, hsum, ← encAll_eq_flatten]
    rfl

theorem encodeToBytes_wire_format_witness :
    encbuf.new.sizebuf.length = 9 ∧
    (enc (.list [.list [], .list [.list []], .list [.list [], .list [.list []]]])).length
      < 2 ^ 63 ∧
    (encodeToBytes encbuf.new
        (.list [.list [], .list [.list []], .list [.list [], .list [.list []]]]) =
      some (enc (.list [.list [], .list [.list []], .list [.list [], .list [.list []]]])) ∧
    ∀ xs : List Item,
      Item.list [.list [], .list [.list []], .list [.list [], .list [.list []]]] = Item.list xs →
      ((xs.map (fun x => (enc x).length)).sum < 2 ^ 63) ∧
      (∀ x ∈ xs, encodeToBytes encbuf.new x = some (enc x)) ∧
      encodeToBytes encbuf.new
          (.list [.list [], .list [.list []], .list [.list [], .list [.list []]]]) = some (
        (if (xs.map (fun x => (enc x).length)).sum < 56 then
          [0xC0 + (xs.map (fun x => (enc x).length)).sum]
         else
          (0xF7 + minimal_bytes (xs.map (fun x => (enc x).length)).sum) ::
            be (xs.map (fun x => (enc x).length)).sum
              (minimal_bytes (xs.map (fun x => (enc x).length)).sum)) ++
        (xs.map enc).flatten)) :=
  ⟨by decide, by decide,
    encodeToBytes_wire_format encbuf.new
      (.list [.list [], .list [.list []], .list [.list [], .list [.list []]]])
      (by decide) (by decide)⟩

/-! ## Round trip through the decoder of the wire format -/


theorem decodeItem_string (fuel : Nat) (b rest : List Nat) (hb : b.length < 2 ^ 63) :
    decodeItem (fuel + 1) (string_enc b ++ rest) = some (.str b, rest) := by
  unfold string_enc
  by_cases h : b.length = 1 ∧ b.headD 0 ≤ 0x7F
  · rw [if_pos h]
    obtain ⟨h1, h2⟩ := h
    match b, h1 with
    | [b0], _ =>
      simp only [List.headD_cons] at h2 ⊢
      simp only [List.singleton_append, decodeItem]
      rw [if_pos h2]
  · rw [if_neg h]
    unfold string_header
    by_cases h56 : b.length < 56
    · rw [if_pos h56]
      simp only [List.singleton_append, List.cons_append, List.nil_append, decodeItem]
      rw [if_neg (by omega), if_pos (by omega), if_neg (by simp)]
      simp
    · rw [if_neg h56]
      have hm := minimal_bytes_bounds b.length (by omega)
      simp only [List.cons_append, decodeItem]
      rw [if_neg (by omega), if_neg (by omega), if_pos (by omega)]
      have e1 : 183 + minimal_bytes b.length - 183 = minimal_bytes b.length := by omega
      rw [e1]
      have e2 : List.take (minimal_bytes b.length) (be b.length (minimal_bytes b.length) ++ b ++ rest)
          = be b.length (minimal_bytes b.length) := by
        rw [List.append_assoc, List.take_left' (be_length _ _)]
      have e3 : List.drop (minimal_bytes b.length) (be b.length (minimal_bytes b.length) ++ b ++ rest)
          = b ++ rest := by
        rw [List.append_assoc, List.drop_left' (be_length _ _)]
      rw [e2, e3, beValue_be _ _ hm.2.2.1]
      rw [if_neg (by simp), if_neg (by simp)]
      simp

theorem decodeItem_list (fuel : Nat) (xs : List Item) (payload rest : List Nat)
    (hp : payload.length < 2 ^ 63) (hd : decodeItems fuel payload = some xs) :
    decodeItem (fuel + 1) (list_header payload.length ++ payload ++ rest) = some (.list xs, rest) := by
  unfold list_header
  by_cases h56 : payload.length < 56
  · rw [if_pos h56]
    simp only [List.singleton_append, List.cons_append, List.nil_append, decodeItem]
    rw [if_neg (by omega), if_neg (by omega), if_neg (by omega), if_pos (by omega),
      if_neg (by simp)]
    have e1 : 192 + payload.length - 192 = payload.length := by omega
    rw [e1, List.take_left, hd, List.drop_left]
  · rw [if_neg h56]
    have hm := minimal_bytes_bounds payload.length (by omega)
    simp only [List.cons_append, decodeItem]
    rw [if_neg (by omega), if_neg (by omega), if_neg (by omega), if_neg (by omega),
      if_pos (by omega)]
    have e1 : 247 + minimal_bytes payload.length - 247 = minimal_bytes payload.length := by omega
    rw [e1]
    have e2 : List.take (minimal_bytes payload.length)
        (be payload.length (minimal_bytes payload.length) ++ payload ++ rest)
          = be payload.length (minimal_bytes payload.length) := by
      rw [List.append_assoc, List.take_left' (be_length _ _)]
    have e3 : List.drop (minimal_bytes payload.length)
        (be payload.length (minimal_bytes payload.length) ++ payload ++ rest)
          = payload ++ rest := by
      rw [List.append_assoc, List.drop_left' (be_length _ _)]
    rw [e2, e3, beValue_be _ _ hm.2.2.1]
    rw [if_neg (by simp), if_neg (by simp), List.take_left, hd, List.drop_left]

theorem string_enc_length_pos (b : List Nat) : 0 < (string_enc b).length := by
  unfold string_enc string_header
  split
  · simp
  · split <;> simp

theorem enc_length_pos (v : Item) : 0 < (enc v).length := by
  cases v with
  | str b => simp only [enc]; exact string_enc_length_pos b
  | list xs =>
    simp only [enc, List.length_append]
    have : 0 < (list_header (encAll xs).length).length := by
      unfold list_header; split <;> simp
    omega

mutual
/-- The decoder of the wire format reads back an encoded item, given enough
fuel, and leaves the bytes after it. -/
theorem decodeItem_enc : ∀ (v : Item) (fuel : Nat) (rest : List Nat),
    (enc v).length < 2 ^ 63 → 2 * (enc v).length ≤ fuel →
    decodeItem fuel (enc v ++ rest) = some (v, rest)
  | .str b, fuel, rest, hlen, hfuel => by
    have hpos := enc_length_pos (.str b)
    obtain ⟨f, rfl⟩ : ∃ f, fuel = f + 1 := ⟨fuel - 1, by omega⟩
    have hb := string_enc_length_ge b
    simp only [enc] at hlen ⊢
    exact decodeItem_string f b rest (by omega)
  | .list xs, fuel, rest, hlen, hfuel => by
    have hpos : 0 < (list_header (encAll xs).length).length := by
      unfold list_header; split <;> simp
    simp only [enc, List.length_append] at hlen hfuel ⊢
    obtain ⟨f, rfl⟩ : ∃ f, fuel = f + 1 := ⟨fuel - 1, by omega⟩
    exact decodeItem_list f xs (encAll xs) rest (by omega)
      (decodeItems_encAll xs f (by omega) (by omega))
/-- The decoder reads back the children of a list from its payload. -/
theorem decodeItems_encAll : ∀ (xs : List Item) (fuel : Nat),
    (encAll xs).length < 2 ^ 63 → 2 * (encAll xs).length + 1 ≤ fuel →
    decodeItems fuel (encAll xs) = some xs
  | [], fuel, _, hfuel => by
    obtain ⟨f, rfl⟩ : ∃ f, fuel = f + 1 := ⟨fuel - 1, by omega⟩
    simp [encAll, decodeItems]
  | x :: xs, fuel, hlen, hfuel => by
    have hpos := enc_length_pos x
    simp only [encAll, List.length_append] at hlen hfuel ⊢
    obtain ⟨f, rfl⟩ : ∃ f, fuel = f + 1 := ⟨fuel - 1, by omega⟩
    have h1 := decodeItem_enc x f (encAll xs) (by omega) (by omega)
    have h2 := decodeItems_encAll xs f (by omega) (by omega)
    cases he : enc x ++ encAll xs with
    | nil =>
      have := congrArg List.length he
      simp only [List.length_append, List.length_nil] at this
      omega
    | cons t tl =>
      rw [he] at h1
      simp only [decodeItems, h1, h2]
end

theorem decode_enc (v : Item) (hlen : (enc v).length < 2 ^ 63) :
    decode (enc v) = some (v, []) := by
  have := decodeItem_enc v (2 * (enc v).length) [] hlen le_rfl
  simpa [decode] using this

/-- C5: for every RLP item whose encoding fits a Go `int`, the encoder on a
pooled buffer (emit into the reset buffer, then `toBytes`) returns bytes from
which the decoder of the wire format returns exactly that item, consuming all
the bytes; hence two items with the same encoding are equal. -/
theorem decode_encode_roundtrip (eb : encbuf) (v : Item) (hsb : eb.sizebuf.length = 9)
    (hlen : (enc v).length < 2 ^ 63) :
    ∃ bs : List Nat, encodeToBytes eb v = some bs ∧ decode bs = some (v, []) ∧
      ∀ (eb2 : encbuf) (v2 : Item), eb2.sizebuf.length = 9 → (enc v2).length < 2 ^ 63 →
        encodeToBytes eb2 v2 = some bs → v2 = v := by
  refine ⟨enc v, encodeToBytes_eq eb v hsb hlen, decode_enc v hlen, ?_⟩
  intro eb2 v2 hsb2 hlen2 h2
  rw [encodeToBytes_eq eb2 v2 hsb2 hlen2] at h2
  simp only [Option.some.injEq] at h2
  have h3 := decode_enc v2 hlen2
  rw [h2, decode_enc v hlen] at h3
  simp only [Option.some.injEq, Prod.mk.injEq, and_true] at h3
  exact h3.symm

theorem decode_encode_roundtrip_witness :
    encbuf.new.sizebuf.length = 9 ∧
    (enc (.list [.str [0x63, 0x61, 0x74], .str [0x64, 0x6f, 0x67]])).length < 2 ^ 63 ∧
    ∃ bs : List Nat,
      encodeToBytes encbuf.new (.list [.str [0x63, 0x61, 0x74], .str [0x64, 0x6f, 0x67]])
        = some bs ∧
      decode bs = some (.list [.str [0x63, 0x61, 0x74], .str [0x64, 0x6f, 0x67]], []) ∧
      ∀ (eb2 : encbuf) (v2 : Item), eb2.sizebuf.length = 9 → (enc v2).length < 2 ^ 63 →
        encodeToBytes eb2 v2 = some bs →
        v2 = .list [.str [0x63, 0x61, 0x74], .str [0x64, 0x6f, 0x67]] :=
  ⟨by decide, by decide,
    decode_encode_roundtrip encbuf.new (.list [.str [0x63, 0x61, 0x74], .str [0x64, 0x6f, 0x67]])
      (by decide) (by decide)⟩

/-! ## Header layout: `puthead` -/


/-- C11: for every 64-bit `size`, both tag pairs `(0x80, 0xB7)` and
`(0xC0, 0xF7)` and every buffer of at least 9 bytes, `puthead` returns
`headsize size` and changes only the header bytes; when `size < 56` it stores
`smalltag + size` in `buf[0]` and returns 1; otherwise it stores
`largetag + k` in `buf[0]`, where `k` is the count `putint` returns for
`buf[1:]`, followed by the `k` big-endian bytes of `size`, and returns `1 + k`;
the stored tag bytes are the exact sums, which stay at or below `0xFF`. -/
theorem puthead_correct (buf : List Nat) (smalltag largetag size : Nat) (hsize : size < 2 ^ 64)
    (hb : 9 ≤ buf.length)
    (htag : (smalltag = 0x80 ∧ largetag = 0xB7) ∨ (smalltag = 0xC0 ∧ largetag = 0xF7)) :
    ∃ buf1 : List Nat, puthead buf smalltag largetag size = some (buf1, headsize size) ∧
      buf1.length = buf.length ∧
      buf1.drop (headsize size) = buf.drop (headsize size) ∧
      (size < 56 → headsize size = 1 ∧ buf1.head? = some (smalltag + size) ∧
        smalltag + size ≤ 0xFF) ∧
      (56 ≤ size → ∃ (tl : List Nat) (k : Nat), putint (buf.drop 1) size = some (tl, k) ∧
        k = intsize size ∧ headsize size = 1 + k ∧ buf1 = (largetag + k) :: tl ∧
        tl.take k = be size k ∧ beValue (tl.take k) = size ∧ largetag + k ≤ 0xFF) := by
  have hm := minimal_bytes_bounds size hsize
  have hi := intsize_eq_minimal_bytes size hsize
  have hh := headsize_le size hsize
  have hs : smalltag + 55 < 256 := by rcases htag with h | h <;> omega
  have hl : largetag + 8 < 256 := by rcases htag with h | h <;> omega
  have hspec := puthead_spec buf smalltag largetag size hsize hs hl (by omega)
  refine ⟨_, hspec, ?_, ?_, ?_, ?_⟩
  · by_cases h : size < 56
    · simp only [h, if_true, headsize, List.singleton_append, List.length_cons, List.length_drop]
      omega
    · have e : headsize size = 1 + minimal_bytes size := by
        unfold headsize; rw [if_neg h, hi]
      simp only [h, if_false, e, List.cons_append, List.length_cons, List.length_append,
        be_length, List.length_drop]
      omega
  · rw [List.drop_append_eq_append_drop]
    have e : ∀ l : List Nat, l.length = headsize size → l.drop (headsize size) = [] := by
      intro l hl; exact List.drop_eq_nil_of_le (le_of_eq hl)
    by_cases h : size < 56
    · simp only [h, if_true]
      rw [e _ (by simp [headsize, h])]
      simp [headsize, h]
    · have e2 : headsize size = 1 + minimal_bytes size := by
        unfold headsize; rw [if_neg h, hi]
      simp only [h, if_false]
      rw [e _ (by simp [e2]; omega)]
      simp [e2]
      congr 1
      omega
  · intro h
    simp only [h, if_true, headsize]
    exact ⟨trivial, by simp, by omega⟩
  · intro h
    have h56 : ¬ size < 56 := by omega
    have e2 : headsize size = 1 + minimal_bytes size := by
      unfold headsize; rw [if_neg h56, hi]
    refine ⟨_, _, putint_spec (buf.drop 1) size hsize (by simp; omega), hi.symm, e2, ?_, ?_,
      ?_, by omega⟩
    · simp only [h56, if_false, e2, List.cons_append, List.drop_drop]
    · rw [List.take_left' (be_length _ _)]
    · rw [List.take_left' (be_length _ _)]
      exact beValue_be _ _ hm.2.2.1

theorem puthead_correct_witness :
    (1024 : Nat) < 2 ^ 64 ∧ 9 ≤ (List.replicate 9 7).length ∧
    (((0xC0 : Nat) = 0x80 ∧ (0xF7 : Nat) = 0xB7) ∨ ((0xC0 : Nat) = 0xC0 ∧ (0xF7 : Nat) = 0xF7)) ∧
    ∃ buf1 : List Nat,
      puthead (List.replicate 9 7) 0xC0 0xF7 1024 = some (buf1, headsize 1024) ∧
      buf1.length = (List.replicate 9 7).length ∧
      buf1.drop (headsize 1024) = (List.replicate 9 7).drop (headsize 1024) ∧
      (1024 < 56 → headsize 1024 = 1 ∧ buf1.head? = some (0xC0 + 1024) ∧
        0xC0 + 1024 ≤ 0xFF) ∧
      (56 ≤ 1024 → ∃ (tl : List Nat) (k : Nat),
        putint ((List.replicate 9 7).drop 1) 1024 = some (tl, k) ∧
        k = intsize 1024 ∧ headsize 1024 = 1 + k ∧ buf1 = (0xF7 + k) :: tl ∧
        tl.take k = be 1024 k ∧ beValue (tl.take k) = 1024 ∧ 0xF7 + k ≤ 0xFF) :=
  ⟨by norm_num, by simp, Or.inr ⟨rfl, rfl⟩,
    puthead_correct (List.replicate 9 7) 0xC0 0xF7 1024 (by norm_num) (by simp)
      (Or.inr ⟨rfl, rfl⟩)⟩

/-! ## Streaming emit: `toWriter` -/

theorem writesStopAtError_cons (reply : List (List Nat) → List Nat → Int × Option String)
    (log : List (List Nat)) (p : List Nat) (ps : List (List Nat)) (err : Option String)
    (h1 : (reply log p).2 = none) (h2 : writesStopAtError reply (log ++ [p]) ps err) :
    writesStopAtError reply log (p :: ps) err := by
  cases ps with
  | nil =>
    simp only [writesStopAtError] at h2 ⊢
    rw [h2, h1]
  | cons q qs => exact ⟨h1, h2⟩

theorem writesStopAtError_snoc (reply : List (List Nat) → List Nat → Int × Option String) :
    ∀ (ps : List (List Nat)) (log : List (List Nat)) (p : List Nat),
    writesStopAtError reply log ps none →
    writesStopAtError reply log (ps ++ [p]) (reply (log ++ ps) p).2 := by
  intro ps
  induction ps with
  | nil => intro log p _; simp [writesStopAtError]
  | cons q qs ih =>
    intro log p h
    cases qs with
    | nil =>
      simp only [writesStopAtError] at h
      refine ⟨h.symm, ?_⟩
      simp [writesStopAtError]
    | cons r rs =>
      obtain ⟨h1, h2⟩ := h
      have := ih (log ++ [q]) p h2
      refine ⟨h1, ?_⟩
      simpa using this

/-- What the writes of `toWriter` look like, written out: every write but the
last returned no error, and the last returned `err`. -/
theorem writesStopAtError_explicit (reply : List (List Nat) → List Nat → Int × Option String) :
    ∀ (ps : List (List Nat)) (log : List (List Nat)) (err : Option String),
    writesStopAtError reply log ps err →
    (ps = [] → err = none) ∧
    (∀ (k : Nat) (p : List Nat), k + 1 < ps.length → ps[k]? = some p →
      (reply (log ++ ps.take k) p).2 = none) ∧
    (∀ last : List Nat, ps.getLast? = some last → (reply (log ++ ps.dropLast) last).2 = err) := by
  intro ps
  induction ps with
  | nil =>
    intro log err h
    simp only [writesStopAtError] at h
    exact ⟨fun _ => h, by simp, by simp⟩
  | cons q qs ih =>
    intro log err h
    cases qs with
    | nil =>
      simp only [writesStopAtError] at h
      refine ⟨by simp, by simp, ?_⟩
      intro last hl
      simp only [List.getLast?_singleton, Option.some.injEq] at hl
      subst hl
      simp [h]
    | cons r rs =>
      obtain ⟨h1, h2⟩ := h
      obtain ⟨-, i2, i3⟩ := ih (log ++ [q]) err h2
      refine ⟨by simp, ?_, ?_⟩
      · intro k p hk hp
        cases k with
        | zero =>
          simp only [List.getElem?_cons_zero, Option.some.injEq] at hp
          subst hp
          simpa using h1
        | succ k =>
          simp only [List.getElem?_cons_succ] at hp
          have := i2 k p (by simp only [List.length_cons] at hk ⊢; omega) hp
          simpa using this
      · intro last hl
        have hl2 : (r :: rs).getLast? = some last := by
          simpa [List.getLast?_cons_cons] using hl
        have := i3 last hl2
        simpa using this


theorem listhead_encode_length (r : listhead) (sb : List Nat) (hsb : sb.length = 9) :
    ∃ sb1 : List Nat, r.encode sb = some (sb1, list_header (uint64 r.size)) ∧ sb1.length = 9 := by
  have hh := headsize_le (uint64 r.size) (uint64_lt _)
  have hl := list_header_length (uint64 r.size) (uint64_lt _)
  refine ⟨_, listhead_encode_spec r sb (by omega), ?_⟩
  simp only [List.length_append, hl, List.length_drop]
  omega

theorem dropLast_cons_of_ne_nil (p : List Nat) (ps : List (List Nat)) (h : ps ≠ []) :
    (p :: ps).dropLast = p :: ps.dropLast := by
  cases ps with
  | nil => exact absurd rfl h
  | cons q qs => rfl

/-- The part of `toWriter` from the header of a record on: the header is
written, then the loop goes on with the remaining records. -/
theorem toWriterLoop_header (str : List Nat)
    (reply : List (List Nat) → List Nat → Int × Option String)
    (head : listhead) (rest : List listhead) (log : List (List Nat)) (sb : List Nat)
    (hsb : sb.length = 9) (h2 : OffsetsOk head.offset str.length rest) (h0 : 0 ≤ head.offset)
    (ih : ∀ (log : List (List Nat)) (sp : Nat) (sb : List Nat), sb.length = 9 →
      OffsetsOk sp str.length rest →
      ∃ (pieces : List (List Nat)) (sp1 : Int) (sb1 : List Nat) (err : Option String),
        toWriterLoop str rest ⟨log, reply⟩ sp sb = some (⟨log ++ pieces, reply⟩, sp1, sb1, err) ∧
        sb1.length = 9 ∧ writesStopAtError reply log pieces err ∧
        (err = none → ∃ sp2 : Nat, sp1 = sp2 ∧ sp ≤ sp2 ∧ sp2 ≤ str.length ∧
          spliceFrom str rest sp = pieces.join ++ str.drop sp2) ∧
        (err ≠ none → ∃ t, spliceFrom str rest sp = pieces.dropLast.join ++ t)) :
    ∃ (pieces : List (List Nat)) (sp1 : Int) (sb1 : List Nat) (err : Option String),
      (match head.encode sb with
        | none => none
        | some (sizebuf1, enc) =>
          match ((Sink.mk log reply).Write enc).2.2 with
          | some err => some (((Sink.mk log reply).Write enc).1, head.offset, sizebuf1, some err)
          | none => toWriterLoop str rest ((Sink.mk log reply).Write enc).1 head.offset sizebuf1) =
        some (⟨log ++ pieces, reply⟩, sp1, sb1, err) ∧
      sb1.length = 9 ∧ writesStopAtError reply log pieces err ∧
      (err = none → ∃ sp2 : Nat, sp1 = sp2 ∧ head.offset.toNat ≤ sp2 ∧ sp2 ≤ str.length ∧
        list_header (uint64 head.size) ++ spliceFrom str rest head.offset.toNat =
          pieces.join ++ str.drop sp2) ∧
      (err ≠ none → ∃ t, list_header (uint64 head.size) ++ spliceFrom str rest head.offset.toNat =
          pieces.dropLast.join ++ t) := by
  obtain ⟨sb1, henc, hsb1⟩ := listhead_encode_length head sb hsb
  rw [henc]
  simp only [Sink.Write]
  cases he : (reply log (list_header (uint64 head.size))).2 with
  | some err =>
    refine ⟨[list_header (uint64 head.size)], head.offset, sb1, some err, rfl, hsb1, ?_, ?_, ?_⟩
    · simp only [writesStopAtError]; exact he.symm
    · intro hc; exact absurd hc (by simp)
    · intro _; exact ⟨_, rfl⟩
  | none =>
    have hoff : head.offset = ((head.offset.toNat : Nat) : Int) := by omega
    obtain ⟨pieces, sp1, sb2, err, hloop, hsb2, hw, hn, hs⟩ :=
      ih (log ++ [list_header (uint64 head.size)]) head.offset.toNat sb1 hsb1
        (by rw [← hoff]; exact h2)
    rw [← hoff] at hloop
    refine ⟨list_header (uint64 head.size) :: pieces, sp1, sb2, err, ?_, hsb2,
      writesStopAtError_cons reply log _ pieces err he hw, ?_, ?_⟩
    · simp only [hloop, List.append_assoc, List.singleton_append]
    · intro hc
      obtain ⟨sp2, e1, e2, e3, e4⟩ := hn hc
      exact ⟨sp2, e1, e2, e3, by rw [e4]; simp⟩
    · intro hc
      obtain ⟨t, ht⟩ := hs hc
      have hne : pieces ≠ [] := by
        rintro rfl
        simp only [writesStopAtError] at hw
        exact hc hw
      refine ⟨t, ?_⟩
      rw [dropLast_cons_of_ne_nil _ _ hne, ht]
      simp

theorem toWriterLoop_spec (str : List Nat)
    (reply : List (List Nat) → List Nat → Int × Option String)
    (hconf : ∀ (log : List (List Nat)) (p : List Nat), (reply log p).2 = none →
      (reply log p).1 = p.length) :
    ∀ (heads : List listhead) (log : List (List Nat)) (sp : Nat) (sb : List Nat),
      sb.length = 9 → OffsetsOk sp str.length heads →
      ∃ (pieces : List (List Nat)) (sp1 : Int) (sb1 : List Nat) (err : Option String),
        toWriterLoop str heads ⟨log, reply⟩ sp sb = some (⟨log ++ pieces, reply⟩, sp1, sb1, err) ∧
        sb1.length = 9 ∧ writesStopAtError reply log pieces err ∧
        (err = none → ∃ sp2 : Nat, sp1 = sp2 ∧ sp ≤ sp2 ∧ sp2 ≤ str.length ∧
          spliceFrom str heads sp = pieces.join ++ str.drop sp2) ∧
        (err ≠ none → ∃ t, spliceFrom str heads sp = pieces.dropLast.join ++ t) := by
  intro heads
  induction heads with
  | nil =>
    intro log sp sb hsb hok
    refine ⟨[], sp, sb, none, by simp [toWriterLoop], hsb, by simp [writesStopAtError], ?_, ?_⟩
    · intro _
      have : (sp : Int) ≤ str.length := hok
      exact ⟨sp, rfl, le_rfl, by omega, by simp [spliceFrom]⟩
    · intro hc; exact absurd rfl hc
  | cons head rest ih =>
    intro log sp sb hsb hok
    obtain ⟨h1, h2⟩ := hok
    have h3 := OffsetsOk_le _ _ _ h2
    have hoff : head.offset = ((head.offset.toNat : Nat) : Int) := by omega
    rw [toWriterLoop]
    by_cases hpos : head.offset - (sp : Int) > 0
    · rw [if_pos hpos, slice_int str sp head.offset h1 h3]
      simp only [Sink.Write]
      have hseglen : ((str.take head.offset.toNat).drop sp).length = head.offset.toNat - sp := by
        simp; omega
      cases he : (reply log ((str.take head.offset.toNat).drop sp)).2 with
      | some err =>
        refine ⟨[(str.take head.offset.toNat).drop sp], _, sb, some err, rfl, hsb, ?_, ?_, ?_⟩
        · simp only [writesStopAtError]; exact he.symm
        · intro hc; exact absurd hc (by simp)
        · intro _; exact ⟨_, rfl⟩
      | none =>
        have hn := hconf _ _ he
        have hsp : (sp : Int) + (reply log ((str.take head.offset.toNat).drop sp)).1 =
            head.offset := by
          rw [hn, hseglen]; omega
        obtain ⟨pieces, sp1, sb1, err, hloop, hsb1, hw, hnone, hsome⟩ :=
          toWriterLoop_header str reply head rest (log ++ [(str.take head.offset.toNat).drop sp])
            sb hsb h2 (by omega) ih
        simp only [Sink.Write] at hloop
        simp only [hsp]
        refine ⟨(str.take head.offset.toNat).drop sp :: pieces, sp1, sb1, err, ?_, hsb1,
          writesStopAtError_cons reply log _ pieces err he hw, ?_, ?_⟩
        · rw [hloop]; simp
        · intro hc
          obtain ⟨sp2, e1, e2, e3, e4⟩ := hnone hc
          refine ⟨sp2, e1, by omega, e3, ?_⟩
          simp only [spliceFrom, List.join_cons, List.append_assoc]
          rw [← e4]
        · intro hc
          obtain ⟨t, ht⟩ := hsome hc
          have hne : pieces ≠ [] := by
            rintro rfl
            simp only [writesStopAtError] at hw
            exact hc hw
          refine ⟨t, ?_⟩
          rw [dropLast_cons_of_ne_nil _ _ hne]
          simp only [spliceFrom, List.join_cons, List.append_assoc]
          rw [← ht]
    · rw [if_neg hpos]
      have hsp : (sp : Int) = head.offset := by omega
      obtain ⟨pieces, sp1, sb1, err, hloop, hsb1, hw, hnone, hsome⟩ :=
        toWriterLoop_header str reply head rest log sb hsb h2 (by omega) ih
      have hseg : (str.take head.offset.toNat).drop sp = [] := by
        apply List.drop_eq_nil_of_le
        simp only [List.length_take]
        omega
      rw [hsp]
      refine ⟨pieces, sp1, sb1, err, hloop, hsb1, hw, ?_, ?_⟩
      · intro hc
        obtain ⟨sp2, e1, e2, e3, e4⟩ := hnone hc
        refine ⟨sp2, e1, by omega, e3, ?_⟩
        simp only [spliceFrom, hseg, List.nil_append]
        exact e4
      · intro hc
        obtain ⟨t, ht⟩ := hsome hc
        refine ⟨t, ?_⟩
        simp only [spliceFrom, hseg, List.nil_append]
        exact ht


/-- What `toWriter` does on a buffer with ordered offsets and the pooled scratch
region, for a sink that keeps the `io.Writer` contract. -/
theorem toWriter_spec (w : encbuf) (out : Sink) (hconf : out.Conforming)
    (hsb : w.sizebuf.length = 9) (hok : OffsetsOk 0 w.str.length w.lheads) :
    ∃ (w1 : encbuf) (pieces : List (List Nat)) (err : Option String),
      w.toWriter out = some (w1, ⟨out.log ++ pieces, out.reply⟩, err) ∧
      w1.str = w.str ∧ w1.lheads = w.lheads ∧ w1.lhsize = w.lhsize ∧ w1.sizebuf.length = 9 ∧
      writesStopAtError out.reply out.log pieces err ∧
      (err = none → pieces.join = spliceFrom w.str w.lheads 0) ∧
      (err ≠ none → ∃ t, spliceFrom w.str w.lheads 0 = pieces.dropLast.join ++ t) := by
  obtain ⟨pieces, sp1, sb1, err, hloop, hsb1, hw, hnone, hsome⟩ :=
    toWriterLoop_spec w.str out.reply hconf w.lheads out.log 0 w.sizebuf hsb (by simpa using hok)
  unfold encbuf.toWriter
  simp only [Nat.cast_zero] at hloop
  rw [hloop]
  cases err with
  | some e =>
    refine ⟨{ w with sizebuf := sb1 }, pieces, some e, rfl, rfl, rfl, rfl, hsb1, hw, ?_, hsome⟩
    intro hc; exact absurd hc (by simp)
  | none =>
    obtain ⟨sp2, e1, -, e3, e4⟩ := hnone rfl
    subst e1
    simp only
    by_cases hlt : (sp2 : Int) < (w.str.length : Int)
    · rw [if_pos hlt, slice_from _ _ e3]
      simp only [Sink.Write]
      refine ⟨{ w with sizebuf := sb1 }, pieces ++ [w.str.drop sp2], _, ?_, rfl, rfl, rfl, hsb1,
        writesStopAtError_snoc out.reply pieces out.log _ hw, ?_, ?_⟩
      · simp
      · intro _; rw [e4]; simp
      · intro _; exact ⟨w.str.drop sp2, by rw [e4]; simp⟩
    · rw [if_neg hlt]
      refine ⟨{ w with sizebuf := sb1 }, pieces, none, rfl, rfl, rfl, rfl, hsb1, hw, ?_, ?_⟩
      · intro _
        rw [e4, List.drop_eq_nil_of_le (by omega)]
        simp
      · intro hc; exact absurd rfl hc

/-- A buffer reached by a well-bracketed call sequence with every list closed
has ordered offsets, and `toBytes` returns the payload with the headers spliced
in. -/
theorem closed_session_toBytes (eb : encbuf) (ops : List Op) (s : Session)
    (h : (Session.start eb).runWB ops = some s) (hclosed : s.opened = [])
    (hsize : s.w.size < 2 ^ 63) :
    OffsetsOk 0 s.w.str.length s.w.lheads ∧
    s.w.toBytes = some (spliceFrom s.w.str s.w.lheads 0) ∧
    ((spliceFrom s.w.str s.w.lheads 0).length : Int) = s.w.size := by
  have hs := inv_run ops _ s (inv_start eb) (run_of_runWB _ _ _ h)
  have hb : ∀ r ∈ s.w.lheads, 0 ≤ r.size ∧ r.size < 2 ^ 64 := by
    intro r hr
    obtain ⟨k, hk⟩ := List.getElem?_of_mem hr
    have := hs.closed_le k r hk (by rw [hclosed]; simp)
    exact ⟨hs.size_nonneg r hr, by omega⟩
  have hlh : s.w.lhsize = (headBytes s.w.lheads : Int) := by
    rw [hs.lhsize_eq, hclosed, closedWidths_nil_eq_widths, widths_eq_headBytes _ hb]
  obtain ⟨pos, n, h1, -, h3⟩ := toBytesAux_spec s.w hs.offsets hlh
  refine ⟨hs.offsets, ?_, h3⟩
  unfold encbuf.toBytes; rw [h1]; rfl

/-- C13: for every buffer reached by a well-bracketed call sequence with every
list closed (pooled scratch region, size within a Go `int`) and every sink
that accepts each write in full without error, `toWriter` returns no error and
the byte slices it writes to the sink, concatenated in order, are `toBytes()`
of the same buffer. -/
theorem toWriter_eq_toBytes (eb : encbuf) (ops : List Op) (s : Session)
    (h : (Session.start eb).runWB ops = some s) (hclosed : s.opened = [])
    (hsize : s.w.size < 2 ^ 63) (hsb : s.w.sizebuf.length = 9)
    (out : Sink) (hacc : out.Accepting) :
    ∃ (w1 : encbuf) (out1 : Sink) (bytes : List Nat) (pieces : List (List Nat)),
      s.w.toWriter out = some (w1, out1, none) ∧ s.w.toBytes = some bytes ∧
      out1.log = out.log ++ pieces ∧ pieces.join = bytes := by
  obtain ⟨hok, hbytes, -⟩ := closed_session_toBytes eb ops s h hclosed hsize
  have hconf : out.Conforming := by
    intro log p _
    rw [hacc log p]
  obtain ⟨w1, pieces, err, hw, -, -, -, -, hstop, hnone, -⟩ := toWriter_spec s.w out hconf hsb hok
  have herr : err = none := by
    obtain ⟨e1, -, e3⟩ := writesStopAtError_explicit out.reply pieces out.log err hstop
    cases hl : pieces.getLast? with
    | none => exact e1 (List.getLast?_eq_none_iff.1 hl)
    | some last =>
      have := e3 last hl
      rw [hacc] at this
      exact this.symm
  subst herr
  exact ⟨w1, _, _, pieces, hw, hbytes, rfl, hnone rfl⟩

theorem toWriter_eq_toBytes_witness :
    (Session.start encbuf.new).runWB
        [Op.list, Op.encodeString [0x63, 0x61, 0x74], Op.list, Op.listEnd 1, Op.listEnd 0] =
      some (⟨⟨[0x83, 0x63, 0x61, 0x74], [⟨0, 5⟩, ⟨4, 0⟩], 2, List.replicate 9 0⟩, []⟩ : Session) ∧
    Sink.Accepting ⟨[], fun _ p => ((p.length : Int), none)⟩ ∧
    ∃ (w1 : encbuf) (out1 : Sink) (bytes : List Nat) (pieces : List (List Nat)),
      encbuf.toWriter ⟨[0x83, 0x63, 0x61, 0x74], [⟨0, 5⟩, ⟨4, 0⟩], 2, List.replicate 9 0⟩
        ⟨[], fun _ p => ((p.length : Int), none)⟩ = some (w1, out1, none) ∧
      encbuf.toBytes ⟨[0x83, 0x63, 0x61, 0x74], [⟨0, 5⟩, ⟨4, 0⟩], 2, List.replicate 9 0⟩ =
        some bytes ∧
      out1.log = [] ++ pieces ∧ pieces.join = bytes :=
  ⟨by rfl, fun _ _ => rfl,
    toWriter_eq_toBytes encbuf.new
      [Op.list, Op.encodeString [0x63, 0x61, 0x74], Op.list, Op.listEnd 1, Op.listEnd 0] _
      (by rfl) (by rfl) (by decide) (by rfl) ⟨[], fun _ p => ((p.length : Int), none)⟩
      (fun _ _ => rfl)⟩

/-- The writes of the loop of `toWriter`, for any sink: whenever the loop
returns, every write but the last returned no error, and the error the loop
returns is the one of the last write. -/
theorem toWriterLoop_trace (str : List Nat)
    (reply : List (List Nat) → List Nat → Int × Option String) :
    ∀ (heads : List listhead) (log : List (List Nat)) (sp : Int) (sb : List Nat)
      (out1 : Sink) (sp1 : Int) (sb1 : List Nat) (err : Option String),
      toWriterLoop str heads ⟨log, reply⟩ sp sb = some (out1, sp1, sb1, err) →
      ∃ pieces : List (List Nat), out1 = ⟨log ++ pieces, reply⟩ ∧
        writesStopAtError reply log pieces err := by
  intro heads
  induction heads with
  | nil =>
    intro log sp sb out1 sp1 sb1 err h
    simp only [toWriterLoop, Option.some.injEq, Prod.mk.injEq] at h
    obtain ⟨rfl, -, -, rfl⟩ := h
    exact ⟨[], by simp, by simp [writesStopAtError]⟩
  | cons head rest ih =>
    intro log sp sb out1 sp1 sb1 err h
    rw [toWriterLoop] at h
    simp only [Sink.Write] at h
    have hhead : ∀ (log1 : List (List Nat)) (sp0 : Int),
        (match head.encode sb with
          | none => none
          | some (sizebuf1, enc) =>
            match (reply log1 enc).2 with
            | some err => some (({ log := log1 ++ [enc], reply := reply } : Sink), sp0, sizebuf1,
                some err)
            | none => toWriterLoop str rest { log := log1 ++ [enc], reply := reply } sp0
                sizebuf1) = some (out1, sp1, sb1, err) →
        ∃ pieces : List (List Nat), out1 = ⟨log1 ++ pieces, reply⟩ ∧
          writesStopAtError reply log1 pieces err := by
      intro log1 sp0 h1
      cases henc : head.encode sb with
      | none => rw [henc] at h1; simp at h1
      | some r =>
        obtain ⟨sizebuf1, enc⟩ := r
        rw [henc] at h1
        simp only at h1
        cases he : (reply log1 enc).2 with
        | some e =>
          rw [he] at h1
          simp only [Option.some.injEq, Prod.mk.injEq] at h1
          obtain ⟨rfl, -, -, rfl⟩ := h1
          exact ⟨[enc], rfl, by simp only [writesStopAtError]; exact he.symm⟩
        | none =>
          rw [he] at h1
          simp only at h1
          obtain ⟨pieces, hp, hw⟩ := ih _ _ _ _ _ _ _ h1
          exact ⟨enc :: pieces, by rw [hp]; simp,
            writesStopAtError_cons reply log1 enc pieces err he hw⟩
    by_cases hpos : head.offset - sp > 0
    · rw [if_pos hpos] at h
      cases hs : slice str sp head.offset with
      | none => rw [hs] at h; simp at h
      | some p =>
        rw [hs] at h
        simp only at h
        cases he : (reply log p).2 with
        | some e =>
          rw [he] at h
          simp only [Option.some.injEq, Prod.mk.injEq] at h
          obtain ⟨rfl, -, -, rfl⟩ := h
          exact ⟨[p], rfl, by simp only [writesStopAtError]; exact he.symm⟩
        | none =>
          rw [he] at h
          simp only at h
          obtain ⟨pieces, hp, hw⟩ := hhead (log ++ [p]) _ h
          exact ⟨p :: pieces, by rw [hp]; simp,
            writesStopAtError_cons reply log p pieces err he hw⟩
    · rw [if_neg hpos] at h
      exact hhead log sp h


theorem slice_in_range (s : List Nat) (lo hi : Int) (h0 : 0 ≤ lo) (h1 : lo ≤ hi)
    (h2 : hi ≤ (s.length : Int)) :
    ∃ p : List Nat, slice s lo hi = some p ∧ (p.length : Int) = hi - lo := by
  unfold slice
  rw [if_pos ⟨h0, h1, h2⟩]
  refine ⟨_, rfl, ?_⟩
  simp only [List.length_drop, List.length_take]
  omega

/-- The loop of `toWriter` returns for a sink whose error-free writes report a
count within `0..len(p)`: the cursor `strpos` stays non-negative, so every
slice expression is in range. -/
theorem toWriterLoop_returns (str : List Nat)
    (reply : List (List Nat) → List Nat → Int × Option String)
    (hin : ∀ (log : List (List Nat)) (p : List Nat), (reply log p).2 = none →
      0 ≤ (reply log p).1 ∧ (reply log p).1 ≤ p.length) :
    ∀ (heads : List listhead) (log : List (List Nat)) (sp : Int) (sb : List Nat),
      sb.length = 9 → 0 ≤ sp → (∀ r ∈ heads, r.offset ≤ (str.length : Int)) →
      ∃ (out1 : Sink) (sp1 : Int) (sb1 : List Nat) (err : Option String),
        toWriterLoop str heads ⟨log, reply⟩ sp sb = some (out1, sp1, sb1, err) ∧
        sb1.length = 9 ∧ (err = none → 0 ≤ sp1) := by
  intro heads
  induction heads with
  | nil =>
    intro log sp sb hsb h0 _
    exact ⟨⟨log, reply⟩, sp, sb, none, by simp [toWriterLoop], hsb, fun _ => h0⟩
  | cons head rest ih =>
    intro log sp sb hsb h0 hoff
    have hrest : ∀ r ∈ rest, r.offset ≤ (str.length : Int) :=
      fun r hr => hoff r (List.mem_cons_of_mem _ hr)
    have hhead : ∀ (log1 : List (List Nat)) (sp0 : Int), 0 ≤ sp0 →
        ∃ (out1 : Sink) (sp1 : Int) (sb1 : List Nat) (err : Option String),
          (match head.encode sb with
            | none => none
            | some (sizebuf1, enc) =>
              match (reply log1 enc).2 with
              | some err => some (({ log := log1 ++ [enc], reply := reply } : Sink), sp0,
                  sizebuf1, some err)
              | none => toWriterLoop str rest { log := log1 ++ [enc], reply := reply } sp0
                  sizebuf1) = some (out1, sp1, sb1, err) ∧
          sb1.length = 9 ∧ (err = none → 0 ≤ sp1) := by
      intro log1 sp0 hsp0
      obtain ⟨sizebuf1, henc, hsb1⟩ := listhead_encode_length head sb hsb
      rw [henc]
      simp only
      cases he : (reply log1 (list_header (uint64 head.size))).2 with
      | some e => exact ⟨_, _, _, _, rfl, hsb1, by simp⟩
      | none => exact ih _ sp0 sizebuf1 hsb1 hsp0 hrest
    rw [toWriterLoop]
    simp only [Sink.Write]
    by_cases hpos : head.offset - sp > 0
    · rw [if_pos hpos]
      obtain ⟨p, hs, hlen⟩ := slice_in_range str sp head.offset h0 (by omega)
        (hoff head (List.mem_cons_self _ _))
      rw [hs]
      simp only
      cases he : (reply log p).2 with
      | some e => exact ⟨_, _, _, _, rfl, hsb, by simp⟩
      | none =>
        simp only
        exact hhead (log ++ [p]) _ (by have := (hin log p he).1; omega)
    · rw [if_neg hpos]
      exact hhead log sp h0

/-- The writes of `toWriter`, for any sink: whenever `toWriter` returns, every
write but the last returned no error, and the error returned is the one of the
last write (no error when nothing was written). -/
theorem toWriter_trace (w : encbuf) (out : Sink) (w1 : encbuf) (out1 : Sink)
    (err : Option String) (h : w.toWriter out = some (w1, out1, err)) :
    ∃ pieces : List (List Nat), out1 = ⟨out.log ++ pieces, out.reply⟩ ∧
      writesStopAtError out.reply out.log pieces err := by
  unfold encbuf.toWriter at h
  cases hl : toWriterLoop w.str w.lheads out 0 w.sizebuf with
  | none => rw [hl] at h; simp at h
  | some r =>
    obtain ⟨o1, sp1, sb1, e1⟩ := r
    rw [hl] at h
    obtain ⟨pieces, hp, hw⟩ := toWriterLoop_trace w.str out.reply w.lheads out.log 0 w.sizebuf
      o1 sp1 sb1 e1 hl
    cases e1 with
    | some e =>
      simp only [Option.some.injEq, Prod.mk.injEq] at h
      obtain ⟨-, rfl, rfl⟩ := h
      exact ⟨pieces, hp, hw⟩
    | none =>
      simp only at h
      by_cases hlt : sp1 < (w.str.length : Int)
      · rw [if_pos hlt] at h
        cases hs : slice w.str sp1 w.str.length with
        | none => rw [hs] at h; simp at h
        | some p =>
          rw [hs] at h
          simp only [Option.some.injEq, Prod.mk.injEq] at h
          obtain ⟨-, rfl, rfl⟩ := h
          subst hp
          exact ⟨pieces ++ [p], by simp [Sink.Write],
            by simpa [Sink.Write] using writesStopAtError_snoc out.reply pieces out.log p hw⟩
      · rw [if_neg hlt] at h
        simp only [Option.some.injEq, Prod.mk.injEq] at h
        obtain ⟨-, rfl, rfl⟩ := h
        exact ⟨pieces, hp, hw⟩

/-- The call `toWriter` returns for a sink whose error-free writes report a
count within `0..len(p)`. -/
theorem toWriter_returns (w : encbuf) (out : Sink) (hin : out.InRange)
    (hsb : w.sizebuf.length = 9) (hoff : ∀ r ∈ w.lheads, r.offset ≤ (w.str.length : Int)) :
    ∃ (w1 : encbuf) (out1 : Sink) (err : Option String),
      w.toWriter out = some (w1, out1, err) := by
  obtain ⟨o1, sp1, sb1, e1, hl, -, hsp⟩ :=
    toWriterLoop_returns w.str out.reply hin w.lheads out.log 0 w.sizebuf hsb (le_refl _) hoff
  unfold encbuf.toWriter
  rw [hl]
  cases e1 with
  | some e => exact ⟨_, _, _, rfl⟩
  | none =>
    simp only
    by_cases hlt : sp1 < (w.str.length : Int)
    · rw [if_pos hlt]
      obtain ⟨p, hs, -⟩ := slice_in_range w.str sp1 w.str.length (hsp rfl) (by omega) (le_refl _)
      rw [hs]
      exact ⟨_, _, _, rfl⟩
    · rw [if_neg hlt]
      exact ⟨_, _, _, rfl⟩

theorem OffsetsOk_offset_le (hi : Int) : ∀ (heads : List listhead) (lo : Int),
    OffsetsOk lo hi heads → ∀ r ∈ heads, r.offset ≤ hi := by
  intro heads
  induction heads with
  | nil => intro lo _ r hr; simp at hr
  | cons q qs ih =>
    intro lo h r hr
    rcases List.mem_cons.1 hr with rfl | hr
    · exact OffsetsOk_le _ _ _ h.2
    · exact ih _ h.2 r hr

/-- Counterexample to C14 as stated: a sink whose first write reports 1 byte
written and no error, and whose fourth write returns an error.  On the buffer
of `Write [1, 2]`, an empty list, `Write [3]`, an empty list, with
`toBytes() = [1, 2, 0xC0, 3, 0xC0]`, `toWriter` writes `[1, 2]`, `[0xC0]`, then
`[2, 3]` (it resumes at `strpos = 1`), then `[0xC0]`, which fails.  Neither the
slices written before the failing write nor the bytes the sink reported as
written before it are a leading part of `toBytes()`. -/
theorem toWriter_short_write_not_prefix :
    (Session.start encbuf.new).runWB
        [Op.Write [1, 2], Op.list, Op.listEnd 0, Op.Write [3], Op.list, Op.listEnd 1] =
      some (⟨⟨[1, 2, 3], [⟨2, 0⟩, ⟨3, 0⟩], 2, List.replicate 9 0⟩, []⟩ : Session) ∧
    encbuf.toBytes ⟨[1, 2, 3], [⟨2, 0⟩, ⟨3, 0⟩], 2, List.replicate 9 0⟩ = some [1, 2, 0xC0, 3, 0xC0] ∧
    (encbuf.toWriter ⟨[1, 2, 3], [⟨2, 0⟩, ⟨3, 0⟩], 2, List.replicate 9 0⟩
        ⟨[], fun log p =>
          if log.length = 0 then (1, none)
          else if log.length = 3 then (0, some "closed") else ((p.length : Int), none)⟩).map
      (fun r => (r.2.1.log, r.2.2)) =
      some ([[1, 2], [0xC0], [2, 3], [0xC0]], some "closed") ∧
    (¬ ∃ t : List Nat,
      [1, 2, 0xC0, 3, 0xC0] = ([[1, 2], [0xC0], [2, 3]] : List (List Nat)).join ++ t) ∧
    (¬ ∃ t : List Nat,
      [1, 2, 0xC0, 3, 0xC0] = ([[1], [0xC0], [2, 3]] : List (List Nat)).join ++ t) := by
  refine ⟨by rfl, by rfl, by rfl, ?_, ?_⟩
  · rintro ⟨t, ht⟩
    simp at ht
  · rintro ⟨t, ht⟩
    simp at ht

/-- C14 (amended): for every buffer reached by a well-bracketed call sequence
with every list closed and every sink.  Whenever `toWriter` returns, every
write it made except the last one returned no error, and the error of the last
write is exactly what `toWriter` returns: a write that returns an error is the
last write and its error is returned.  `toWriter` does return when the
error-free writes of the sink report a count within `0..len(p)`.  For a sink
that keeps the `io.Writer` contract (a write that returns no error has written
all of `p`), the slices written join to `toBytes()` when no error is returned,
and when an error is returned the slices written before the failing write,
concatenated, are a leading part of `toBytes()`. -/
theorem toWriter_stops_at_error (eb : encbuf) (ops : List Op) (s : Session)
    (h : (Session.start eb).runWB ops = some s) (hclosed : s.opened = [])
    (hsize : s.w.size < 2 ^ 63) (hsb : s.w.sizebuf.length = 9) (out : Sink) :
    (∀ (w1 : encbuf) (out1 : Sink) (err : Option String),
      encbuf.toWriter s.w out = some (w1, out1, err) →
      ∃ pieces : List (List Nat),
        out1.log = Sink.log out ++ pieces ∧ out1.reply = Sink.reply out ∧
        (pieces = [] → err = none) ∧
        (∀ (k : Nat) (p : List Nat), k + 1 < pieces.length → pieces[k]? = some p →
          (Sink.reply out (Sink.log out ++ pieces.take k) p).2 = none) ∧
        (∀ last : List Nat, pieces.getLast? = some last →
          (Sink.reply out (Sink.log out ++ pieces.dropLast) last).2 = err)) ∧
    (Sink.InRange out →
      ∃ (w1 : encbuf) (out1 : Sink) (err : Option String),
        encbuf.toWriter s.w out = some (w1, out1, err)) ∧
    (Sink.Conforming out →
      ∃ (w1 : encbuf) (out1 : Sink) (err : Option String) (bytes : List Nat)
        (pieces : List (List Nat)),
        encbuf.toWriter s.w out = some (w1, out1, err) ∧ encbuf.toBytes s.w = some bytes ∧
        out1.log = Sink.log out ++ pieces ∧
        (err = none → pieces.join = bytes) ∧
        (err ≠ none → ∃ t, bytes = pieces.dropLast.join ++ t)) := by
  obtain ⟨hok, hbytes, -⟩ := closed_session_toBytes eb ops s h hclosed hsize
  refine ⟨?_, ?_, ?_⟩
  · intro w1 out1 err hw
    obtain ⟨pieces, hp, hstop⟩ := toWriter_trace s.w out w1 out1 err hw
    obtain ⟨e1, e2, e3⟩ := writesStopAtError_explicit out.reply pieces out.log err hstop
    subst hp
    exact ⟨pieces, rfl, rfl, e1, e2, e3⟩
  · intro hin
    exact toWriter_returns s.w out hin hsb (OffsetsOk_offset_le _ _ _ hok)
  · intro hconf
    obtain ⟨w1, pieces, err, hw, -, -, -, -, -, hnone, hsome⟩ :=
      toWriter_spec s.w out hconf hsb hok
    exact ⟨w1, _, err, _, pieces, hw, hbytes, rfl, hnone, hsome⟩

theorem toWriter_stops_at_error_witness :
    (Session.start encbuf.new).runWB
        [Op.list, Op.encodeString [0x63, 0x61, 0x74], Op.list, Op.listEnd 1, Op.listEnd 0] =
      some (⟨⟨[0x83, 0x63, 0x61, 0x74], [⟨0, 5⟩, ⟨4, 0⟩], 2, List.replicate 9 0⟩, []⟩ : Session) ∧
    encbuf.size ⟨[0x83, 0x63, 0x61, 0x74], [⟨0, 5⟩, ⟨4, 0⟩], 2, List.replicate 9 0⟩ < 2 ^ 63 ∧
    (∀ (w1 : encbuf) (out1 : Sink) (err : Option String),
      encbuf.toWriter ⟨[0x83, 0x63, 0x61, 0x74], [⟨0, 5⟩, ⟨4, 0⟩], 2, List.replicate 9 0⟩ (⟨[], fun
          log p => if log.length =
          1 then (0, some "closed") else ((p.length : Int), none)⟩ : Sink) = some (w1, out1, err) →
      ∃ pieces : List (List Nat),
        out1.log = Sink.log (⟨[], fun log p => if log.length =
            1 then (0, some "closed") else ((p.length : Int), none)⟩ : Sink) ++ pieces ∧
            out1.reply = Sink.reply (⟨[], fun log p => if log.length =
            1 then (0, some "closed") else ((p.length : Int), none)⟩ : Sink) ∧
        (pieces = [] → err = none) ∧
        (∀ (k : Nat) (p : List Nat), k + 1 < pieces.length → pieces[k]? = some p →
          (Sink.reply (⟨[], fun log p => if log.length =
              1 then (0, some "closed") else ((p.length : Int), none)⟩ : Sink) (Sink.log (⟨[], fun
              log p => if log.length =
              1 then (0, some "closed") else ((p.length : Int), none)⟩ : Sink) ++ pieces.take k)
              p).2 = none) ∧
        (∀ last : List Nat, pieces.getLast? = some last →
          (Sink.reply (⟨[], fun log p => if log.length =
              1 then (0, some "closed") else ((p.length : Int), none)⟩ : Sink) (Sink.log (⟨[], fun
              log p => if log.length =
              1 then (0, some "closed") else ((p.length : Int), none)⟩ : Sink) ++ pieces.dropLast)
              last).2 = err)) ∧
    (Sink.InRange (⟨[], fun log p => if log.length =
        1 then (0, some "closed") else ((p.length : Int), none)⟩ : Sink) →
      ∃ (w1 : encbuf) (out1 : Sink) (err : Option String),
        encbuf.toWriter ⟨[0x83, 0x63, 0x61, 0x74], [⟨0, 5⟩, ⟨4, 0⟩], 2, List.replicate 9 0⟩ (⟨[],
            fun log p => if log.length =
            1 then (0, some "closed") else ((p.length : Int), none)⟩ : Sink) =
            some (w1, out1, err)) ∧
    (Sink.Conforming (⟨[], fun log p => if log.length =
        1 then (0, some "closed") else ((p.length : Int), none)⟩ : Sink) →
      ∃ (w1 : encbuf) (out1 : Sink) (err : Option String) (bytes : List Nat)
        (pieces : List (List Nat)),
        encbuf.toWriter ⟨[0x83, 0x63, 0x61, 0x74], [⟨0, 5⟩, ⟨4, 0⟩], 2, List.replicate 9 0⟩ (⟨[],
            fun log p => if log.length =
            1 then (0, some "closed") else ((p.length : Int), none)⟩ : Sink) =
            some (w1, out1, err) ∧
            encbuf.toBytes ⟨[0x83, 0x63, 0x61, 0x74], [⟨0, 5⟩, ⟨4, 0⟩], 2, List.replicate 9 0⟩ =
            some bytes ∧
        out1.log = Sink.log (⟨[], fun log p => if log.length =
            1 then (0, some "closed") else ((p.length : Int), none)⟩ : Sink) ++ pieces ∧
        (err = none → pieces.join = bytes) ∧
        (err ≠ none → ∃ t, bytes = pieces.dropLast.join ++ t)) :=
  ⟨by rfl, by decide,
    toWriter_stops_at_error encbuf.new
      [Op.list, Op.encodeString [0x63, 0x61, 0x74], Op.list, Op.listEnd 1, Op.listEnd 0] _
      (by rfl) (by rfl) (by decide) (by rfl)
      (⟨[], fun log p => if log.length = 1 then (0, some "closed") else ((p.length : Int), none)⟩ : Sink)⟩
/-! ## Pull reader: release of the buffer -/

theorem next_buf_none (r : encReader) (h : r.buf = none) : r.next = some (r, none) := by
  unfold encReader.next
  rw [h]

theorem next_isSome (r r1 : encReader) (q : Option (List Nat)) (h : r.next = some (r1, q))
    (hb : r.buf.isSome = true) : r1.buf.isSome = true := by
  unfold encReader.next at h
  cases hbuf : r.buf with
  | none => rw [hbuf] at hb; simp at hb
  | some buf =>
    rw [hbuf] at h
    simp only at h
    split at h
    · cases h; rw [hbuf]; rfl
    · split at h
      · split at h
        · exact absurd h (by simp)
        · split at h
          · split at h
            · exact absurd h (by simp)
            · cases h; simp [hbuf]
          · split at h
            · exact absurd h (by simp)
            · cases h; rfl
      · split at h
        · split at h
          · exact absurd h (by simp)
          · cases h; simp [hbuf]
        · cases h; rw [hbuf]; rfl

theorem next_piece_of_buf_none (r r1 : encReader) (q : Option (List Nat))
    (h : r.next = some (r1, q)) (hb : r.buf = none) : r1 = r ∧ q = none := by
  rw [next_buf_none r hb] at h
  cases h
  exact ⟨rfl, rfl⟩

/-- What one `Read` does to the pool and to the reader, in any state: a call
that does not report `io.EOF` leaves the pool alone and the reader alive; a
call that reports it leaves the reader without buffer and piece and has put
the buffer back once if the reader still had it. -/
theorem readLoop_pool : ∀ (fuel : Nat) (pool : Pool) (r : encReader) (b : List Nat) (n : Nat)
    (pool1 : Pool) (r1 : encReader) (b1 : List Nat) (n1 : Nat) (eof : Bool),
    readLoop fuel pool r b n = some (pool1, r1, b1, n1, eof) →
    (eof = false → pool1 = pool ∧ r1.buf.isSome = true ∧ r.buf.isSome = true) ∧
    (eof = true → r1.buf = none ∧ r1.piece = none ∧ pool1.gets = pool.gets ∧
      pool1.puts = pool.puts + (if r.buf.isSome then 1 else 0) ∧
      (r.buf = none → pool1 = pool ∧ n1 = n ∧ b1 = b)) := by
  intro fuel
  induction fuel with
  | zero => intro pool r b n pool1 r1 b1 n1 eof h; simp [readLoop] at h
  | succ fuel ih =>
    intro pool r b n pool1 r1 b1 n1 eof h
    rw [readLoop] at h
    cases hn : r.next with
    | none => rw [hn] at h; simp at h
    | some res =>
      obtain ⟨r2, q⟩ := res
      rw [hn] at h
      cases q with
      | none =>
        simp only at h
        cases hb2 : r2.buf with
        | some eb =>
          rw [hb2] at h
          simp only [Option.some.injEq, Prod.mk.injEq] at h
          obtain ⟨rfl, rfl, rfl, rfl, rfl⟩ := h
          have hrb : r.buf.isSome = true := by
            cases hrb : r.buf with
            | none =>
              have := (next_piece_of_buf_none r r2 none hn hrb).1
              rw [this, hrb] at hb2
              simp at hb2
            | some _ => rfl
          refine ⟨by simp, fun _ => ⟨rfl, rfl, rfl, ?_, ?_⟩⟩
          · simp [hrb, Pool.Put]
          · intro hc; rw [hc] at hrb; simp at hrb
        | none =>
          rw [hb2] at h
          simp only [Option.some.injEq, Prod.mk.injEq] at h
          obtain ⟨rfl, rfl, rfl, rfl, rfl⟩ := h
          have hrb : r.buf.isSome = false := by
            cases hrb : r.buf with
            | none => rfl
            | some _ =>
              have := next_isSome r r2 none hn (by rw [hrb]; rfl)
              rw [hb2] at this
              simp at this
          refine ⟨by simp, fun _ => ⟨rfl, rfl, rfl, ?_, fun _ => ⟨rfl, rfl, rfl⟩⟩⟩
          simp [hrb]
      | some p =>
        simp only at h
        have hrb : r.buf.isSome = true := by
          cases hrb : r.buf with
          | none =>
            have := (next_piece_of_buf_none r r2 (some p) hn hrb).2
            simp at this
          | some _ => rfl
        have hr2 := next_isSome r r2 (some p) hn hrb
        cases hs : slice b n b.length with
        | none => rw [hs] at h; simp at h
        | some dst =>
          rw [hs] at h
          simp only at h
          split at h
          · simp only [Option.some.injEq, Prod.mk.injEq] at h
            obtain ⟨rfl, rfl, rfl, rfl, rfl⟩ := h
            exact ⟨fun _ => ⟨rfl, hr2, hrb⟩, by simp⟩
          · obtain ⟨i1, i2⟩ := ih _ _ _ _ _ _ _ _ _ h
            refine ⟨fun he => ⟨(i1 he).1, (i1 he).2.1, hrb⟩, fun he => ?_⟩
            obtain ⟨j1, j2, j3, j4, -⟩ := i2 he
            refine ⟨j1, j2, j3, ?_, ?_⟩
            · rw [j4]
              simp only [hr2, hrb]
            · intro hc; rw [hc] at hrb; simp at hrb

theorem Read_dead (pool : Pool) (r : encReader) (b : List Nat) (h1 : r.buf = none)
    (h2 : r.piece = none) : encReader.Read pool r b = some (pool, r, b, 0, true) := by
  obtain ⟨buf, lhpos, strpos, piece⟩ := r
  simp only at h1 h2
  subst h1 h2
  rfl


theorem readSeq_dead : ∀ (bufs : List (List Nat)) (pool : Pool) (r : encReader),
    r.buf = none → r.piece = none →
    readSeq pool r bufs = some (pool, r, bufs.map (fun _ => (([] : List Nat), true))) := by
  intro bufs
  induction bufs with
  | nil => intro pool r _ _; rfl
  | cons b bs ih =>
    intro pool r h1 h2
    simp only [readSeq, Read_dead pool r b h1 h2, ih pool r h1 h2, List.take_zero, List.map_cons]

/-- Bookkeeping of a sequence of `Read` calls on a reader in any state. -/
theorem readSeq_pool : ∀ (bufs : List (List Nat)) (pool : Pool) (r : encReader)
    (pool1 : Pool) (r1 : encReader) (results : List (List Nat × Bool)),
    readSeq pool r bufs = some (pool1, r1, results) →
    pool1.gets = pool.gets ∧
    pool1.puts = pool.puts +
      (if r.buf.isSome = true ∧ results.any (fun res => res.2) = true then 1 else 0) ∧
    (results.any (fun res => res.2) = true → r1.buf = none ∧ r1.piece = none) ∧
    (∀ (i j : Nat) (resi resj : List Nat × Bool), i < j → results[i]? = some resi →
      resi.2 = true → results[j]? = some resj → resj = ([], true)) := by
  intro bufs
  induction bufs with
  | nil =>
    intro pool r pool1 r1 results h
    simp only [readSeq, Option.some.injEq, Prod.mk.injEq] at h
    obtain ⟨rfl, rfl, rfl⟩ := h
    simp
  | cons b bs ih =>
    intro pool r pool1 r1 results h
    simp only [readSeq] at h
    cases hr : encReader.Read pool r b with
    | none => rw [hr] at h; simp at h
    | some res =>
      obtain ⟨p2, r2, b2, n2, eof⟩ := res
      rw [hr] at h
      simp only at h
      obtain ⟨f1, f2⟩ := readLoop_pool _ _ _ _ _ _ _ _ _ _ hr
      cases eof with
      | false =>
        obtain ⟨rfl, hl2, hl⟩ := f1 rfl
        cases hs : readSeq p2 r2 bs with
        | none => rw [hs] at h; simp at h
        | some res2 =>
          obtain ⟨p3, r3, results2⟩ := res2
          rw [hs] at h
          simp only [Option.some.injEq, Prod.mk.injEq] at h
          obtain ⟨rfl, rfl, rfl⟩ := h
          obtain ⟨i1, i2, i3, i4⟩ := ih _ _ _ _ _ hs
          refine ⟨i1, ?_, ?_, ?_⟩
          · rw [i2]; simp only [hl, hl2, true_and, List.any_cons, Bool.false_or]
          · intro ha
            exact i3 (by simpa using ha)
          · intro i j resi resj hij hi hie hj
            cases i with
            | zero =>
              simp only [List.getElem?_cons_zero, Option.some.injEq] at hi
              subst hi
              simp at hie
            | succ i =>
              cases j with
              | zero => omega
              | succ j =>
                simp only [List.getElem?_cons_succ] at hi hj
                exact i4 i j resi resj (by omega) hi hie hj
      | true =>
        obtain ⟨hd1, hd2, g1, g2, -⟩ := f2 rfl
        rw [readSeq_dead bs p2 r2 hd1 hd2] at h
        simp only [Option.some.injEq, Prod.mk.injEq] at h
        obtain ⟨rfl, rfl, rfl⟩ := h
        refine ⟨g1, ?_, fun _ => ⟨hd1, hd2⟩, ?_⟩
        · rw [g2]; simp
        · intro i j resi resj hij hi hie hj
          cases j with
          | zero => omega
          | succ j =>
            simp only [List.getElem?_cons_succ, List.getElem?_map, Option.map_eq_some'] at hj
            obtain ⟨_, _, rfl⟩ := hj
            rfl

/-- C20: take a reader that still owns its buffer, in any state, and any
sequence of `Read` calls with any caller buffers.  The calls never take a
buffer from the pool, and they put a buffer back exactly once if one of them
reported end-of-stream and not at all otherwise.  Once a call has reported
end-of-stream the reader has no buffer and no piece left (`buf` is `nil`), every
later call returns 0 bytes with end-of-stream again, and a further `Read` on
the final reader changes neither the pool nor the reader nor the caller's
buffer. -/
theorem read_after_eof (pool : Pool) (r : encReader) (bufs : List (List Nat))
    (pool1 : Pool) (r1 : encReader) (results : List (List Nat × Bool))
    (hlive : r.buf.isSome = true) (h : readSeq pool r bufs = some (pool1, r1, results)) :
    pool1.gets = pool.gets ∧
    pool1.puts = pool.puts + (if results.any (fun res => res.2) = true then 1 else 0) ∧
    (∀ (i j : Nat) (resi resj : List Nat × Bool), i < j → results[i]? = some resi →
      resi.2 = true → results[j]? = some resj → resj = ([], true)) ∧
    (results.any (fun res => res.2) = true →
      r1.buf = none ∧ r1.piece = none ∧
      ∀ (pool2 : Pool) (b2 : List Nat),
        encReader.Read pool2 r1 b2 = some (pool2, r1, b2, 0, true)) := by
  obtain ⟨h1, h2, h3, h4⟩ := readSeq_pool bufs pool r pool1 r1 results h
  refine ⟨h1, ?_, h4, ?_⟩
  · rw [h2]; simp only [hlive, true_and]
  · intro ha
    obtain ⟨e1, e2⟩ := h3 ha
    exact ⟨e1, e2, fun pool2 b2 => Read_dead pool2 r1 b2 e1 e2⟩

theorem read_after_eof_witness :
    (encReader.new ⟨[0x83, 0x63, 0x61, 0x74], [⟨0, 5⟩, ⟨4, 0⟩], 2, List.replicate 9 0⟩).buf.isSome
      = true ∧
    readSeq ⟨[], 1, 0⟩
        (encReader.new ⟨[0x83, 0x63, 0x61, 0x74], [⟨0, 5⟩, ⟨4, 0⟩], 2, List.replicate 9 0⟩)
        [[0, 0], [0, 0, 0], [0, 0], [0]] =
      some (⟨[⟨[0x83, 0x63, 0x61, 0x74], [⟨0, 5⟩, ⟨4, 0⟩], 2, [0xC0, 0, 0, 0, 0, 0, 0, 0, 0]⟩], 1, 1⟩,
        ⟨none, 2, 4, none⟩,
        [([0xC5, 0x83], false), ([0x63, 0x61, 0x74], false), ([0xC0], true), ([], true)]) ∧
    ((1 : Nat) = 1 ∧
    (1 : Nat) = 0 + (if ([([0xC5, 0x83], false), ([0x63, 0x61, 0x74], false), ([0xC0], true),
        (([] : List Nat), true)] : List (List Nat × Bool)).any (fun res => res.2) = true
        then 1 else 0) ∧
    (∀ (i j : Nat) (resi resj : List Nat × Bool), i < j →
      ([([0xC5, 0x83], false), ([0x63, 0x61, 0x74], false), ([0xC0], true),
        (([] : List Nat), true)] : List (List Nat × Bool))[i]? = some resi →
      resi.2 = true →
      ([([0xC5, 0x83], false), ([0x63, 0x61, 0x74], false), ([0xC0], true),
        (([] : List Nat), true)] : List (List Nat × Bool))[j]? = some resj → resj = ([], true)) ∧
    (([([0xC5, 0x83], false), ([0x63, 0x61, 0x74], false), ([0xC0], true),
        (([] : List Nat), true)] : List (List Nat × Bool)).any (fun res => res.2) = true →
      (⟨none, 2, 4, none⟩ : encReader).buf = none ∧ (⟨none, 2, 4, none⟩ : encReader).piece = none ∧
      ∀ (pool2 : Pool) (b2 : List Nat),
        encReader.Read pool2 ⟨none, 2, 4, none⟩ b2 = some (pool2, ⟨none, 2, 4, none⟩, b2, 0, true))) :=
  ⟨by rfl, by rfl,
    read_after_eof ⟨[], 1, 0⟩
      (encReader.new ⟨[0x83, 0x63, 0x61, 0x74], [⟨0, 5⟩, ⟨4, 0⟩], 2, List.replicate 9 0⟩)
      [[0, 0], [0, 0, 0], [0, 0], [0]] _ _ _ (by rfl) (by rfl)⟩

/-! ## Pull reader: the bytes delivered -/


theorem spliceFrom_length (str : List Nat) : ∀ (heads : List listhead) (sp : Nat),
    OffsetsOk sp str.length heads →
    (spliceFrom str heads sp).length = (str.length - sp) + headBytes heads := by
  intro heads
  induction heads with
  | nil => intro sp _; simp [spliceFrom, headBytes]
  | cons r rs ih =>
    intro sp h
    obtain ⟨h1, h2⟩ := h
    have h3 := OffsetsOk_le _ _ _ h2
    have hl := list_header_length (uint64 r.size) (uint64_lt _)
    have := ih r.offset.toNat (by rw [Int.toNat_of_nonneg (by omega)]; exact h2)
    simp only [spliceFrom, List.length_append, List.length_drop, List.length_take, this, hl,
      headBytes, List.map_cons, List.sum_cons]
    simp only [headBytes] at this ⊢
    omega

theorem headBytes_le (heads : List listhead) : headBytes heads ≤ 9 * heads.length := by
  induction heads with
  | nil => simp [headBytes]
  | cons r rs ih =>
    have := (headsize_le (uint64 r.size) (uint64_lt _)).2
    simp only [headBytes, List.map_cons, List.sum_cons, List.length_cons] at ih ⊢
    omega

theorem Ok_live (r : encReader) (buf : encbuf) (hb : r.buf = some buf) :
    r.Ok ↔ (buf.sizebuf.length = 9 ∧ 0 ≤ r.strpos ∧
      OffsetsOk r.strpos buf.str.length (buf.lheads.drop r.lhpos) ∧ r.piece ≠ some []) := by
  unfold encReader.Ok
  rw [hb]

theorem rest_live (r : encReader) (buf : encbuf) (hb : r.buf = some buf) :
    r.rest = r.piece.getD [] ++ spliceFrom buf.str (buf.lheads.drop r.lhpos) r.strpos.toNat := by
  unfold encReader.rest
  rw [hb]

/-- One call of `next` on a live reader without current piece: either nothing
is left, or a non-empty piece comes off the front of what is left. -/
theorem next_spec (r : encReader) (buf : encbuf) (hb : r.buf = some buf) (hp : r.piece = none)
    (hok : r.Ok) :
    (r.rest = [] ∧ r.next = some (r, none)) ∨
    (∃ (r1 : encReader) (p : List Nat) (buf1 : encbuf), r.next = some (r1, some p) ∧ p ≠ [] ∧
      r1.piece = none ∧ r1.buf = some buf1 ∧ r1.Ok ∧ r.rest = p ++ r1.rest) := by
  obtain ⟨hsb, h0, hoff, -⟩ := (Ok_live r buf hb).1 hok
  have hrest := rest_live r buf hb
  rw [hp] at hrest
  simp only [Option.getD_none, List.nil_append] at hrest
  have hsp : r.strpos = ((r.strpos.toNat : Nat) : Int) := by omega
  unfold encReader.next
  rw [hb, hp]
  simp only
  by_cases hlt : r.lhpos < buf.lheads.length
  · rw [if_pos hlt, List.getElem?_eq_getElem hlt]
    simp only
    have hdrop := List.drop_eq_getElem_cons hlt
    rw [hdrop] at hoff hrest
    obtain ⟨h1, h2⟩ := hoff
    have h3 := OffsetsOk_le _ _ _ h2
    right
    by_cases hpos : buf.lheads[r.lhpos].offset - r.strpos > 0
    · rw [if_pos hpos]
      have hsl := slice_int buf.str r.strpos.toNat buf.lheads[r.lhpos].offset (by omega) h3
      rw [← hsp] at hsl
      rw [hsl]
      refine ⟨_, _, buf, rfl, ?_, rfl, rfl, ?_, ?_⟩
      · intro hc
        have := congrArg List.length hc
        simp at this
        omega
      · refine (Ok_live _ buf rfl).2 ⟨hsb, by simp only; omega, ?_, by simp⟩
        simp only
        rw [hdrop]
        exact ⟨by omega, by
          have e : r.strpos + (buf.lheads[r.lhpos].offset - r.strpos) =
              buf.lheads[r.lhpos].offset := by omega
          rw [e] at *
          exact h2⟩
      · rw [hrest, rest_live _ buf rfl]
        simp only [Option.getD_none, List.nil_append]
        rw [hdrop]
        have e : r.strpos + (buf.lheads[r.lhpos].offset - r.strpos) =
            buf.lheads[r.lhpos].offset := by omega
        rw [e]
        have hnil : List.drop buf.lheads[r.lhpos].offset.toNat
            (List.take buf.lheads[r.lhpos].offset.toNat buf.str) = [] :=
          List.drop_eq_nil_of_le (by simp [List.length_take])
        simp only [spliceFrom, List.append_assoc, hnil, List.nil_append]
    · rw [if_neg hpos]
      have he : r.strpos = buf.lheads[r.lhpos].offset := by omega
      obtain ⟨sb1, henc, hsb1⟩ := listhead_encode_length buf.lheads[r.lhpos] buf.sizebuf hsb
      rw [henc]
      refine ⟨_, _, { buf with sizebuf := sb1 }, rfl, ?_, rfl, rfl, ?_, ?_⟩
      · intro hc
        have := congrArg List.length hc
        rw [list_header_length _ (uint64_lt _)] at this
        have := (headsize_le (uint64 buf.lheads[r.lhpos].size) (uint64_lt _)).1
        simp at *
        omega
      · refine (Ok_live _ { buf with sizebuf := sb1 } rfl).2 ⟨hsb1, h0, ?_, by simp⟩
        simp only
        rw [he]
        exact h2
      · rw [hrest, rest_live _ { buf with sizebuf := sb1 } rfl]
        have hnil : List.drop r.strpos.toNat (List.take r.strpos.toNat buf.str) = [] :=
          List.drop_eq_nil_of_le (by simp [List.length_take])
        simp only [Option.getD_none, List.nil_append, spliceFrom, ← he, hnil]
  · rw [if_neg hlt]
    have hdrop : buf.lheads.drop r.lhpos = [] := List.drop_eq_nil_of_le (by omega)
    rw [hdrop] at hoff hrest
    simp only [spliceFrom] at hrest
    have hle : r.strpos ≤ (buf.str.length : Int) := hoff
    by_cases hs : r.strpos < (buf.str.length : Int)
    · rw [if_pos hs]
      right
      have hsl := slice_from buf.str r.strpos.toNat (by omega)
      rw [← hsp] at hsl
      rw [hsl]
      refine ⟨_, _, buf, rfl, ?_, rfl, rfl, ?_, ?_⟩
      · intro hc
        have := congrArg List.length hc
        simp at this
        omega
      · refine (Ok_live _ buf rfl).2 ⟨hsb, by simp, ?_, by simp⟩
        simp only
        rw [hdrop]
        exact le_refl _
      · rw [hrest, rest_live _ buf rfl]
        simp only [Option.getD_none, List.nil_append]
        rw [hdrop]
        simp [spliceFrom]
    · rw [if_neg hs]
      left
      refine ⟨?_, rfl⟩
      rw [hrest]
      exact List.drop_eq_nil_of_le (by omega)


/-- The step of the `Read` loop that fetches the piece, on a live reader in any
position: either nothing is left, or a non-empty piece comes off the front of
what is left. -/
theorem next_any (r : encReader) (buf : encbuf) (hb : r.buf = some buf) (hok : r.Ok) :
    (r.rest = [] ∧ ∃ r1 : encReader, r.next = some (r1, none) ∧ r1.buf.isSome = true) ∨
    (∃ (r1 : encReader) (p : List Nat) (buf1 : encbuf), r.next = some (r1, some p) ∧ p ≠ [] ∧
      r1.buf = some buf1 ∧ ({ r1 with piece := none } : encReader).Ok ∧
      r.rest = p ++ ({ r1 with piece := none } : encReader).rest) := by
  cases hp : r.piece with
  | none =>
    rcases next_spec r buf hb hp hok with ⟨h1, h2⟩ | ⟨r1, p, buf1, h1, h2, h3, h4, h5, h6⟩
    · exact Or.inl ⟨h1, r, h2, by rw [hb]; rfl⟩
    · right
      have e : ({ r1 with piece := none } : encReader) = r1 := by
        obtain ⟨a, b, c, d⟩ := r1
        simp only at h3
        subst h3
        rfl
      exact ⟨r1, p, buf1, h1, h2, h4, by rw [e]; exact h5, by rw [e]; exact h6⟩
  | some p =>
    right
    obtain ⟨rb, lhpos, strpos, piece⟩ := r
    simp only at hb hp
    subst hb hp
    have hok2 := hok
    simp only [encReader.Ok] at hok2
    obtain ⟨hsb, h0, hoff, hne⟩ := hok2
    refine ⟨_, p, buf, rfl, ?_, rfl, ?_, ?_⟩
    · intro hc; rw [hc] at hne; exact hne rfl
    · simp only [encReader.Ok]
      exact ⟨hsb, h0, hoff, by simp⟩
    · simp [encReader.rest]

theorem Ok_with_piece (r : encReader) (q : List Nat) (hq : q ≠ [])
    (hok : ({ r with piece := none } : encReader).Ok) (hb : r.buf.isSome = true) :
    ({ r with piece := some q } : encReader).Ok := by
  obtain ⟨rb, lhpos, strpos, piece⟩ := r
  cases rb with
  | none => simp at hb
  | some buf =>
    simp only [encReader.Ok] at hok ⊢
    exact ⟨hok.1, hok.2.1, hok.2.2.1, by simpa using hq⟩

theorem rest_with_piece (r : encReader) (q : List Nat) (hb : r.buf.isSome = true) :
    ({ r with piece := some q } : encReader).rest =
      q ++ ({ r with piece := none } : encReader).rest := by
  obtain ⟨rb, lhpos, strpos, piece⟩ := r
  cases rb with
  | none => simp at hb
  | some buf => simp [encReader.rest]

/-- The loop of `Read` on a live reader over a buffer with ordered offsets:
it delivers as much of what is left as fits into `b[n:]`, and reports
end-of-stream exactly when all of it fits. -/
theorem readLoop_spec : ∀ (fuel : Nat) (pool : Pool) (r : encReader) (b : List Nat) (n : Nat)
    (buf : encbuf), r.buf = some buf → r.Ok → n ≤ b.length → r.rest.length + 1 ≤ fuel →
    ∃ (pool1 : Pool) (r1 : encReader) (b1 : List Nat),
      readLoop fuel pool r b n =
        some (pool1, r1, b1, n + min (b.length - n) r.rest.length,
          decide (r.rest.length ≤ b.length - n)) ∧
      b1.length = b.length ∧
      b1.take (n + min (b.length - n) r.rest.length) =
        b.take n ++ r.rest.take (min (b.length - n) r.rest.length) ∧
      (b.length - n < r.rest.length →
        r1.Ok ∧ r1.buf.isSome = true ∧ r1.rest = r.rest.drop (b.length - n)) := by
  intro fuel
  induction fuel with
  | zero => intro pool r b n buf _ _ _ hf; omega
  | succ fuel ih =>
    intro pool r b n buf hb hok hn hf
    rw [readLoop]
    rcases next_any r buf hb hok with ⟨h1, r1, h2, h3⟩ | ⟨r1, p, buf1, h1, h2, h3, h4, h5⟩
    · rw [h2]
      simp only
      cases hb1 : r1.buf with
      | none => rw [hb1] at h3; simp at h3
      | some eb =>
        simp only
        refine ⟨pool.Put eb, { r1 with piece := none, buf := none }, b, ?_, rfl, ?_, ?_⟩
        · simp [h1]
        · simp [h1]
        · intro hc; rw [h1] at hc; simp at hc
    · rw [h1]
      simp only
      rw [slice_from b n hn]
      simp only [copy, List.length_drop]
      have hplen : 0 < p.length := List.length_pos.2 h2
      have hrl : r.rest.length = p.length + ({ r1 with piece := none } : encReader).rest.length := by
        rw [h5, List.length_append]
      have hisSome : r1.buf.isSome = true := by rw [h3]; rfl
      by_cases hfit : min (b.length - n) p.length < p.length
      · rw [if_pos hfit]
        have hmin : min (b.length - n) p.length = b.length - n := by omega
        have hmin2 : min (b.length - n) r.rest.length = b.length - n := by omega
        rw [hmin, hmin2]
        refine ⟨pool, { r1 with piece := some (p.drop (b.length - n)) },
          b.take n ++ (p.take (b.length - n) ++ (b.drop n).drop (b.length - n)), ?_, ?_, ?_, ?_⟩
        · simp only [Option.some.injEq, Prod.mk.injEq, true_and]
          simp only [Bool.false_eq, decide_eq_false_iff_not]
          omega
        · simp only [List.length_append, List.length_take, List.length_drop]
          omega
        · have e1 : (b.take n).length = n := by simp; omega
          have e2 : (p.take (b.length - n)).length = b.length - n := by simp; omega
          rw [← List.append_assoc, List.take_left' (by rw [List.length_append, e1, e2])]
          rw [h5, List.take_append_of_le_length (by omega)]
        · intro _
          refine ⟨Ok_with_piece r1 _ ?_ h4 hisSome, hisSome, ?_⟩
          · intro hc
            have := congrArg List.length hc
            simp at this
            omega
          · rw [rest_with_piece r1 _ hisSome, h5, List.drop_append_of_le_length (by omega)]
      · rw [if_neg hfit]
        have hmin : min (b.length - n) p.length = p.length := by omega
        rw [hmin]
        have hlen2 : (b.take n ++ (p.take p.length ++ (b.drop n).drop p.length)).length =
            b.length := by
          simp only [List.length_append, List.length_take, List.length_drop]
          omega
        obtain ⟨pool1, r2, b1, hloop, hb1, htake, hrest⟩ :=
          ih pool { r1 with piece := none } (b.take n ++ (p.take p.length ++ (b.drop n).drop p.length))
            (n + p.length) buf1 h3 h4 (by rw [hlen2]; omega) (by omega)
        rw [hlen2] at hloop htake hrest
        have hm : n + p.length + min (b.length - (n + p.length))
              ({ r1 with piece := none } : encReader).rest.length =
            n + min (b.length - n) r.rest.length := by
          rw [hrl]; omega
        have hd : decide (({ r1 with piece := none } : encReader).rest.length ≤
              b.length - (n + p.length)) = decide (r.rest.length ≤ b.length - n) := by
          rw [hrl]
          apply Bool.decide_congr
          omega
        rw [hm, hd] at hloop
        refine ⟨pool1, r2, b1, hloop, by rw [hb1, hlen2], ?_, ?_⟩
        · rw [hm] at htake
          rw [htake]
          have e1 : (b.take n).length = n := by simp; omega
          rw [List.take_length, ← List.append_assoc,
            List.take_left' (by rw [List.length_append, e1])]
          have e3 : min (b.length - n) r.rest.length =
              p.length + min (b.length - (n + p.length))
                ({ r1 with piece := none } : encReader).rest.length := by
            rw [hrl]; omega
          rw [e3, h5, List.take_append, List.append_assoc]
        · intro hc
          obtain ⟨i1, i2, i3⟩ := hrest (by rw [hrl] at hc; omega)
          refine ⟨i1, i2, ?_⟩
          rw [i3, h5]
          have e4 : b.length - n = p.length + (b.length - (n + p.length)) := by omega
          rw [e4, List.drop_append]


theorem fuel_enough (r : encReader) (hok : r.Ok) : r.rest.length + 1 ≤ r.fuel := by
  obtain ⟨rb, lhpos, strpos, piece⟩ := r
  cases rb with
  | none => simp [encReader.rest, encReader.fuel]
  | some buf =>
    simp only [encReader.Ok] at hok
    obtain ⟨-, h0, hoff, -⟩ := hok
    have h1 := spliceFrom_length buf.str (buf.lheads.drop lhpos) strpos.toNat
      (by rw [Int.toNat_of_nonneg h0]; exact hoff)
    have h2 := headBytes_le (buf.lheads.drop lhpos)
    simp only [encReader.rest, encReader.fuel, List.length_append, h1]
    simp only [List.length_drop] at h2
    omega

/-- One `Read` on a reader that satisfies the invariant, alive or not: it
delivers the first `len(b)` bytes of what is left (all of it when it is
shorter), reports end-of-stream exactly when nothing is left over, and leaves
a reader that has the remainder still to deliver. -/
theorem Read_spec (pool : Pool) (r : encReader) (b : List Nat) (hok : r.Ok) :
    ∃ (pool1 : Pool) (r1 : encReader) (b1 : List Nat),
      encReader.Read pool r b =
        some (pool1, r1, b1, min b.length r.rest.length, decide (r.rest.length ≤ b.length)) ∧
      b1.take (min b.length r.rest.length) = r.rest.take b.length ∧
      r1.Ok ∧ r1.rest = r.rest.drop b.length := by
  cases hb : r.buf with
  | none =>
    have hp : r.piece = none := by
      unfold encReader.Ok at hok
      rw [hb] at hok
      exact hok
    have hrest : r.rest = [] := by
      unfold encReader.rest
      rw [hb]
    refine ⟨pool, r, b, ?_, ?_, hok, ?_⟩
    · rw [Read_dead pool r b hb hp, hrest]
      simp
    · rw [hrest]; simp
    · rw [hrest]; simp
  | some buf =>
    obtain ⟨pool1, r1, b1, h1, -, h3, h4⟩ :=
      readLoop_spec r.fuel pool r b 0 buf hb hok (Nat.zero_le _) (fuel_enough r hok)
    simp only [Nat.zero_add, Nat.sub_zero, List.take_zero, List.nil_append] at h1 h3 h4
    have htk : r.rest.take (min b.length r.rest.length) = r.rest.take b.length := by
      rw [List.take_eq_take]
      simp
    refine ⟨pool1, r1, b1, h1, by rw [h3, htk], ?_⟩
    by_cases hlt : b.length < r.rest.length
    · obtain ⟨i1, -, i3⟩ := h4 hlt
      exact ⟨i1, i3⟩
    · have hle : r.rest.length ≤ b.length := by omega
      have hd : decide (r.rest.length ≤ b.length) = true := by simpa using hle
      rw [hd] at h1
      obtain ⟨j1, j2, -⟩ := (readLoop_pool _ _ _ _ _ _ _ _ _ _ h1).2 rfl
      have e1 : r1.Ok := by
        unfold encReader.Ok
        rw [j1]
        exact j2
      have e2 : r1.rest = [] := by
        unfold encReader.rest
        rw [j1]
      exact ⟨e1, by rw [e2, List.drop_eq_nil_of_le hle]⟩

/-- A sequence of `Read` calls on a reader that satisfies the invariant: the
calls return consecutive parts of what was left, each as long as the caller's
buffer allows, and a call reports end-of-stream exactly when the buffers so far
have room for all of it. -/
theorem readSeq_spec : ∀ (bufs : List (List Nat)) (pool : Pool) (r : encReader), r.Ok →
    ∃ (pool1 : Pool) (r1 : encReader) (results : List (List Nat × Bool)),
      readSeq pool r bufs = some (pool1, r1, results) ∧ results.length = bufs.length ∧
      (∀ k : Nat, ((results.take k).map Prod.fst).flatten =
        r.rest.take ((bufs.take k).map List.length).sum) ∧
      (∀ (i : Nat) (res : List Nat × Bool), results[i]? = some res →
        (res.2 = true ↔ r.rest.length ≤ ((bufs.take (i + 1)).map List.length).sum)) := by
  intro bufs
  induction bufs with
  | nil =>
    intro pool r _
    exact ⟨pool, r, [], rfl, rfl, by simp, by simp⟩
  | cons b bs ih =>
    intro pool r hok
    obtain ⟨pool1, r1, b1, h1, h2, h3, h4⟩ := Read_spec pool r b hok
    obtain ⟨pool2, r2, results, g1, g2, g3, g4⟩ := ih pool1 r1 h3
    refine ⟨pool2, r2, (b1.take (min b.length r.rest.length),
      decide (r.rest.length ≤ b.length)) :: results, ?_, ?_, ?_, ?_⟩
    · simp only [readSeq, h1, g1]
    · simp [g2]
    · intro k
      cases k with
      | zero => simp
      | succ k =>
        simp only [List.take_succ_cons, List.map_cons, List.flatten_cons, List.sum_cons, g3 k, h2,
          h4, List.take_add]
    · intro i res hi
      cases i with
      | zero =>
        simp only [List.getElem?_cons_zero, Option.some.injEq] at hi
        subst hi
        simp
      | succ i =>
        simp only [List.getElem?_cons_succ] at hi
        rw [g4 i res hi, h4]
        simp only [List.take_succ_cons, List.map_cons, List.sum_cons, List.length_drop]
        omega


/-- C12: for every buffer reached by a well-bracketed call sequence with every
list closed (pooled scratch region, size within a Go `int`), every pool and
every sequence of caller buffers, empty ones included, successive `Read` calls
on the reader `EncodeToReader` returns all succeed; the bytes of the first `k`
calls, concatenated, are the leading part of `toBytes()` as long as the first
`k` caller buffers together; a call reports end-of-stream exactly when the
buffers so far have room for all of `toBytes()`; so the bytes returned up to a
call that reports end-of-stream, concatenated, are `toBytes()` and their count
is `size()`; and with non-empty caller buffers end-of-stream is reported
within `size() + 1` calls. -/
theorem read_eq_toBytes (eb : encbuf) (ops : List Op) (s : Session)
    (h : (Session.start eb).runWB ops = some s) (hclosed : s.opened = [])
    (hsize : s.w.size < 2 ^ 63) (hsb : s.w.sizebuf.length = 9)
    (pool : Pool) (bufs : List (List Nat)) :
    ∃ (bytes : List Nat) (pool1 : Pool) (r1 : encReader) (results : List (List Nat × Bool)),
      s.w.toBytes = some bytes ∧ (bytes.length : Int) = s.w.size ∧
      readSeq pool (encReader.new s.w) bufs = some (pool1, r1, results) ∧
      results.length = bufs.length ∧
      (∀ k : Nat, ((results.take k).map Prod.fst).flatten =
        bytes.take ((bufs.take k).map List.length).sum) ∧
      (∀ (i : Nat) (res : List Nat × Bool), results[i]? = some res →
        (res.2 = true ↔ bytes.length ≤ ((bufs.take (i + 1)).map List.length).sum)) ∧
      (∀ (i : Nat) (res : List Nat × Bool), results[i]? = some res → res.2 = true →
        ((results.take (i + 1)).map Prod.fst).flatten = bytes ∧
        ((((results.take (i + 1)).map Prod.fst).flatten.length : Nat) : Int) = s.w.size) ∧
      ((∀ b ∈ bufs, b ≠ []) → s.w.size < (bufs.length : Int) →
        results.any (fun res => res.2) = true) := by
  obtain ⟨hok, hbytes, hlen⟩ := closed_session_toBytes eb ops s h hclosed hsize
  have hrok : (encReader.new s.w).Ok := by
    simp only [encReader.Ok, encReader.new]
    exact ⟨hsb, le_refl _, by simpa using hok, by simp⟩
  have hrest : (encReader.new s.w).rest = spliceFrom s.w.str s.w.lheads 0 := by
    simp [encReader.rest, encReader.new]
  obtain ⟨pool1, r1, results, g1, g2, g3, g4⟩ := readSeq_spec bufs pool _ hrok
  rw [hrest] at g3 g4
  have hall : ∀ (i : Nat) (res : List Nat × Bool), results[i]? = some res → res.2 = true →
      ((results.take (i + 1)).map Prod.fst).flatten = spliceFrom s.w.str s.w.lheads 0 := by
    intro i res hi he
    rw [g3 (i + 1)]
    exact List.take_of_length_le ((g4 i res hi).1 he)
  refine ⟨_, pool1, r1, results, hbytes, hlen, g1, g2, g3, g4, ?_, ?_⟩
  · intro i res hi he
    rw [hall i res hi he]
    exact ⟨rfl, hlen⟩
  · intro hne hlt
    have hsum : ∀ l : List (List Nat), (∀ b ∈ l, b ≠ []) → l.length ≤ (l.map List.length).sum := by
      intro l
      induction l with
      | nil => intro _; simp
      | cons b bs ih =>
        intro hb
        have h1 := ih (fun c hc => hb c (List.mem_cons_of_mem _ hc))
        have h2 : 0 < b.length := List.length_pos.2 (hb b (List.mem_cons_self _ _))
        simp only [List.length_cons, List.map_cons, List.sum_cons]
        omega
    have hpos : 0 < bufs.length := by
      have : (0 : Int) ≤ s.w.size := by rw [← hlen]; exact Int.ofNat_nonneg _
      omega
    have hlt2 : bufs.length - 1 < results.length := by omega
    have hget : results[bufs.length - 1]? = some (results[bufs.length - 1]) :=
      List.getElem?_eq_getElem hlt2
    have hlast := (g4 _ _ hget).2 (by
      have e : bufs.length - 1 + 1 = bufs.length := by omega
      rw [e, List.take_length]
      have := hsum bufs hne
      omega)
    rw [List.any_eq_true]
    exact ⟨_, List.getElem_mem hlt2, hlast⟩


theorem read_eq_toBytes_witness :
    (Session.start encbuf.new).runWB
        [Op.list, Op.encodeString [0x63, 0x61, 0x74], Op.list, Op.listEnd 1, Op.listEnd 0] =
      some (⟨⟨[0x83, 0x63, 0x61, 0x74], [⟨0, 5⟩, ⟨4, 0⟩], 2, List.replicate 9 0⟩, []⟩ : Session) ∧
    encbuf.size ⟨[0x83, 0x63, 0x61, 0x74], [⟨0, 5⟩, ⟨4, 0⟩], 2, List.replicate 9 0⟩ < 2 ^ 63 ∧
    ∃ (bytes : List Nat) (pool1 : Pool) (r1 : encReader) (results : List (List Nat × Bool)),
      encbuf.toBytes ⟨[0x83, 0x63, 0x61, 0x74], [⟨0, 5⟩, ⟨4, 0⟩], 2, List.replicate 9 0⟩ = some bytes ∧
      (bytes.length : Int) = encbuf.size ⟨[0x83, 0x63, 0x61, 0x74], [⟨0, 5⟩, ⟨4, 0⟩], 2, List.replicate 9 0⟩ ∧
      readSeq ⟨[], 1, 0⟩ (encReader.new ⟨[0x83, 0x63, 0x61, 0x74], [⟨0, 5⟩, ⟨4, 0⟩], 2, List.replicate 9 0⟩)
        ([[0, 0], [0, 0, 0], [0, 0], [0]] : List (List Nat)) = some (pool1, r1, results) ∧
      results.length = ([[0, 0], [0, 0, 0], [0, 0], [0]] : List (List Nat)).length ∧
      (∀ k : Nat, ((results.take k).map Prod.fst).flatten =
        bytes.take (((([[0, 0], [0, 0, 0], [0, 0], [0]] : List (List Nat))).take k).map List.length).sum) ∧
      (∀ (i : Nat) (res : List Nat × Bool), results[i]? = some res →
        (res.2 = true ↔
          bytes.length ≤ ((([[0, 0], [0, 0, 0], [0, 0], [0]] : List (List Nat)).take (i + 1)).map
              List.length).sum)) ∧
      (∀ (i : Nat) (res : List Nat × Bool), results[i]? = some res → res.2 = true →
        ((results.take (i + 1)).map Prod.fst).flatten = bytes ∧
        ((((results.take (i + 1)).map Prod.fst).flatten.length : Nat) : Int) =
          encbuf.size ⟨[0x83, 0x63, 0x61, 0x74], [⟨0, 5⟩, ⟨4, 0⟩], 2, List.replicate 9 0⟩) ∧
      ((∀ b ∈ ([[0, 0], [0, 0, 0], [0, 0], [0]] : List (List Nat)), b ≠ []) →
        encbuf.size ⟨[0x83, 0x63, 0x61, 0x74], [⟨0, 5⟩, ⟨4, 0⟩], 2, List.replicate 9 0⟩ < ((([[0,
            0], [0, 0, 0], [0, 0], [0]] : List (List Nat)).length : Nat) : Int) →
        results.any (fun res => res.2) = true) :=
  ⟨by rfl, by decide,
    read_eq_toBytes encbuf.new
      [Op.list, Op.encodeString [0x63, 0x61, 0x74], Op.list, Op.listEnd 1, Op.listEnd 0] _
      (by rfl) (by rfl) (by decide) (by rfl) ⟨[], 1, 0⟩ [[0, 0], [0, 0, 0], [0, 0], [0]]⟩

/-! ## Determinism: the content of the pooled buffer before `reset` -/

/-- What `encodeString` does, for a string of any length: the bytes appended
do not depend on the buffer. -/
theorem encodeString_gen (w : encbuf) (b : List Nat) (hsb : w.sizebuf.length = 9) :
    ∃ sb : List Nat, sb.length = 9 ∧
      w.encodeString b =
        some { w with
          str := w.str ++
            (if b.length = 1 ∧ b.headD 0 ≤ 0x7F then [b.headD 0]
             else (if (b.length : Int) < 56 then [byte (0x80 + byte (uint64 b.length))]
               else (0xB7 + minimal_bytes (uint64 b.length)) ::
                    be (uint64 b.length) (minimal_bytes (uint64 b.length))) ++ b),
          sizebuf := sb } := by
  unfold encbuf.encodeString
  by_cases h : b.length = 1 ∧ b.headD 0 ≤ 0x7F
  · exact ⟨w.sizebuf, hsb, by simp only [h, and_self, if_true]⟩
  · obtain ⟨sb, hsb1, he⟩ := encodeStringHeader_gen w b.length hsb
    refine ⟨sb, hsb1, ?_⟩
    simp only [h, if_false, he]
    simp

theorem listEnd_sizebuf (w : encbuf) (lh : Nat) (sb : List Nat) :
    encbuf.listEnd { w with sizebuf := sb } lh =
      (w.listEnd lh).map (fun w1 => { w1 with sizebuf := sb }) := by
  unfold encbuf.listEnd
  simp only [encbuf.size]
  cases w.lheads[lh]? with
  | none => rfl
  | some r =>
    simp only
    split <;> rfl

theorem toBytes_sizebuf (w : encbuf) (sb : List Nat) :
    encbuf.toBytes { w with sizebuf := sb } = w.toBytes := rfl

/-- One call on two sessions that differ in the scratch region only: both
fail, or both succeed and the results differ in the scratch region only. -/
theorem step_sizebuf (s : Session) (op : Op) (sb : List Nat) (hs : s.w.sizebuf.length = 9)
    (hsb : sb.length = 9) (hop : ∀ i, op = Op.writeUint i → i < 2 ^ 64) :
    (s.step op = none ∧
      Session.step { s with w := { s.w with sizebuf := sb } } op = none) ∨
    (∃ (t : Session) (sb1 : List Nat), s.step op = some t ∧ t.w.sizebuf.length = 9 ∧
      sb1.length = 9 ∧
      Session.step { s with w := { s.w with sizebuf := sb } } op =
        some { t with w := { t.w with sizebuf := sb1 } }) := by
  cases op with
  | Write b => exact Or.inr ⟨_, sb, rfl, hs, hsb, rfl⟩
  | encodeString b =>
    obtain ⟨sb1, h1, e1⟩ := encodeString_gen s.w b hs
    obtain ⟨sb2, h2, e2⟩ := encodeString_gen { s.w with sizebuf := sb } b hsb
    exact Or.inr ⟨_, sb2, by rw [Session.step, e1]; rfl, h1, h2,
      by rw [Session.step, e2]; rfl⟩
  | writeUint i =>
    have hi := hop i rfl
    obtain ⟨sb1, h1, e1⟩ := writeUint_spec s.w i hi hs
    obtain ⟨sb2, h2, e2⟩ := writeUint_spec { s.w with sizebuf := sb } i hi hsb
    exact Or.inr ⟨_, sb2, by rw [Session.step, e1]; rfl, h1, h2,
      by rw [Session.step, e2]; rfl⟩
  | writeBool v =>
    cases v with
    | true => exact Or.inr ⟨_, sb, rfl, hs, hsb, rfl⟩
    | false => exact Or.inr ⟨_, sb, rfl, hs, hsb, rfl⟩
  | list => exact Or.inr ⟨_, sb, rfl, hs, hsb, rfl⟩
  | listEnd lh =>
    by_cases hmem : lh ∈ s.opened
    · cases hl : s.w.listEnd lh with
      | none =>
        left
        simp only [Session.step, hmem, if_true, listEnd_sizebuf, hl, Option.map_none', and_self]
      | some w1 =>
        right
        obtain ⟨_, _, _, _, _, hsz⟩ := listEnd_spec _ _ _ hl
        refine ⟨_, sb, by rw [Session.step, if_pos hmem, hl]; rfl,
          by simp only; rw [hsz]; exact hs, hsb, ?_⟩
        rw [Session.step, if_pos hmem, listEnd_sizebuf, hl]
        rfl
    · left
      simp only [Session.step, hmem, if_false, and_self]

/-- A sequence of calls on two sessions that differ in the scratch region
only. -/
theorem run_sizebuf : ∀ (ops : List Op) (s : Session) (sb : List Nat),
    s.w.sizebuf.length = 9 → sb.length = 9 → (∀ i, Op.writeUint i ∈ ops → i < 2 ^ 64) →
    (s.run ops = none ∧
      Session.run { s with w := { s.w with sizebuf := sb } } ops = none) ∨
    (∃ (t : Session) (sb1 : List Nat), s.run ops = some t ∧
      Session.run { s with w := { s.w with sizebuf := sb } } ops =
        some { t with w := { t.w with sizebuf := sb1 } }) := by
  intro ops
  induction ops with
  | nil => intro s sb _ _ _; exact Or.inr ⟨s, sb, rfl, rfl⟩
  | cons op ops ih =>
    intro s sb hs hsb hop
    rcases step_sizebuf s op sb hs hsb (fun i hi => hop i (by rw [hi]; exact List.mem_cons_self _ _))
      with ⟨e1, e2⟩ | ⟨t, sb1, e1, h1, h2, e2⟩
    · left
      simp only [Session.run, e1, e2, Option.none_bind, and_self]
    · simp only [Session.run, e1, e2, Option.some_bind]
      exact ih t sb1 h1 h2 (fun i hi => hop i (List.mem_cons_of_mem _ hi))


/-- C18: determinism.  Take any two pooled buffers in arbitrary prior states:
any stale payload bytes, list-head records and `lhsize`, and any content of the
9-byte scratch region.  For every item tree whose encoding fits a Go `int`,
`reset`, encoding the item and `toBytes` give on both buffers the same bytes,
the encoding of the item.  More generally, for every sequence of calls on the
buffer (with `uint64` arguments to `writeUint`), the sequence fails on both
buffers or on neither, and after it the payload, the list-head records,
`lhsize`, `size()` and `toBytes()` are the same on both: they depend on the
calls only, not on what the buffer held before `reset`. -/
theorem encode_deterministic (eb1 eb2 : encbuf) (h1 : eb1.sizebuf.length = 9)
    (h2 : eb2.sizebuf.length = 9) :
    (∀ v : Item, (enc v).length < 2 ^ 63 →
      encodeToBytes eb1 v = some (enc v) ∧ encodeToBytes eb2 v = some (enc v)) ∧
    (∀ ops : List Op, (∀ i, Op.writeUint i ∈ ops → i < 2 ^ 64) →
      ((Session.start eb1).run ops = none ↔ (Session.start eb2).run ops = none) ∧
      ∀ s1 s2 : Session, (Session.start eb1).run ops = some s1 →
        (Session.start eb2).run ops = some s2 →
        s1.w.str = s2.w.str ∧ s1.w.lheads = s2.w.lheads ∧ s1.w.lhsize = s2.w.lhsize ∧
        s1.opened = s2.opened ∧ s1.w.size = s2.w.size ∧ s1.w.toBytes = s2.w.toBytes) := by
  refine ⟨fun v hv => ⟨encodeToBytes_eq eb1 v h1 hv, encodeToBytes_eq eb2 v h2 hv⟩, ?_⟩
  intro ops hops
  have hstart : Session.start eb2 =
      { Session.start eb1 with w := { (Session.start eb1).w with sizebuf := eb2.sizebuf } } := rfl
  rw [hstart]
  rcases run_sizebuf ops (Session.start eb1) eb2.sizebuf h1 h2 hops with
    ⟨e1, e2⟩ | ⟨t, sb1, e1, e2⟩
  · rw [e1, e2]
    exact ⟨Iff.rfl, fun s1 s2 hc => absurd hc (by simp)⟩
  · rw [e1, e2]
    refine ⟨by simp, ?_⟩
    intro s1 s2 g1 g2
    simp only [Option.some.injEq] at g1 g2
    subst g1 g2
    exact ⟨rfl, rfl, rfl, rfl, rfl, rfl⟩

theorem encode_deterministic_witness :
    (⟨[0xFF, 0x01], [⟨7, 3⟩], 5, [1, 2, 3, 4, 5, 6, 7, 8, 9]⟩ : encbuf).sizebuf.length = 9 ∧
    (⟨[], [⟨0, 0⟩, ⟨1, 1⟩], -4, List.replicate 9 0xAA⟩ : encbuf).sizebuf.length = 9 ∧
    (∀ v : Item, (enc v).length < 2 ^ 63 →
      encodeToBytes ⟨[0xFF, 0x01], [⟨7, 3⟩], 5, [1, 2, 3, 4, 5, 6, 7, 8, 9]⟩ v = some (enc v) ∧
          encodeToBytes ⟨[], [⟨0, 0⟩, ⟨1, 1⟩], -4, List.replicate 9 0xAA⟩ v = some (enc v)) ∧
    (∀ ops : List Op, (∀ i, Op.writeUint i ∈ ops → i < 2 ^ 64) →
      ((Session.start ⟨[0xFF, 0x01], [⟨7, 3⟩], 5, [1, 2, 3, 4, 5, 6, 7, 8, 9]⟩).run ops = none ↔
          (Session.start ⟨[], [⟨0, 0⟩, ⟨1, 1⟩], -4, List.replicate 9 0xAA⟩).run ops = none) ∧
      ∀ s1 s2 : Session, (Session.start ⟨[0xFF, 0x01], [⟨7, 3⟩], 5, [1, 2, 3, 4, 5, 6, 7, 8,
          9]⟩).run ops = some s1 →
        (Session.start ⟨[], [⟨0, 0⟩, ⟨1, 1⟩], -4, List.replicate 9 0xAA⟩).run ops = some s2 →
        s1.w.str = s2.w.str ∧ s1.w.lheads = s2.w.lheads ∧ s1.w.lhsize = s2.w.lhsize ∧
        s1.opened = s2.opened ∧ s1.w.size = s2.w.size ∧ s1.w.toBytes = s2.w.toBytes) :=
  ⟨by rfl, by rfl, encode_deterministic ⟨[0xFF, 0x01], [⟨7, 3⟩], 5, [1, 2, 3, 4, 5, 6, 7, 8, 9]⟩
    ⟨[], [⟨0, 0⟩, ⟨1, 1⟩], -4, List.replicate 9 0xAA⟩ (by rfl) (by rfl)⟩

/-! ## Type dispatch -/

/-- What `makeSliceWriter` returns is decided by the lookup of the element
type. -/
theorem makeSliceWriter_cases (env : Env) (typ e : Typ) (ts : tags) (he : typ.Elem = some e) :
    (env.cachedTypeInfo1 e {} = none ∧ makeSliceWriter env typ ts = none) ∨
    (∃ msg, env.cachedTypeInfo1 e {} = some (.error msg) ∧
      makeSliceWriter env typ ts = some (.error msg)) ∨
    (∃ ti wr, env.cachedTypeInfo1 e {} = some (.ok ti) ∧
      makeSliceWriter env typ ts = some (.ok wr)) := by
  unfold makeSliceWriter
  rw [he]
  simp only
  cases hc : env.cachedTypeInfo1 e {} with
  | none => exact Or.inl ⟨rfl, rfl⟩
  | some r =>
    cases r with
    | error msg => exact Or.inr (Or.inl ⟨msg, rfl, rfl⟩)
    | ok ti => exact Or.inr (Or.inr ⟨ti, _, rfl, rfl⟩)

/-- What `makePtrWriter` returns is decided by the lookup of the element
type. -/
theorem makePtrWriter_cases (env : Env) (typ e : Typ) (he : typ.Elem = some e) :
    (env.cachedTypeInfo1 e {} = none ∧ makePtrWriter env typ = none) ∨
    (∃ msg, env.cachedTypeInfo1 e {} = some (.error msg) ∧
      makePtrWriter env typ = some (.error msg)) ∨
    (∃ ti wr, env.cachedTypeInfo1 e {} = some (.ok ti) ∧
      makePtrWriter env typ = some (.ok wr)) := by
  unfold makePtrWriter
  rw [he]
  simp only
  cases hc : env.cachedTypeInfo1 e {} with
  | none => exact Or.inl ⟨rfl, rfl⟩
  | some r =>
    cases r with
    | error msg => exact Or.inr (Or.inl ⟨msg, rfl, rfl⟩)
    | ok ti => exact Or.inr (Or.inr ⟨ti, _, rfl, rfl⟩)

/-- What `makeStructWriter` returns is decided by `structFields`. -/
theorem makeStructWriter_cases (env : Env) (typ : Typ) :
    (env.structFields typ = none ∧ makeStructWriter env typ = none) ∨
    (∃ msg, env.structFields typ = some (.error msg) ∧
      makeStructWriter env typ = some (.error msg)) ∨
    (∃ fields wr, env.structFields typ = some (.ok fields) ∧
      makeStructWriter env typ = some (.ok wr)) := by
  unfold makeStructWriter
  cases hc : env.structFields typ with
  | none => exact Or.inl ⟨rfl, rfl⟩
  | some r =>
    cases r with
    | error msg => exact Or.inr (Or.inl ⟨msg, rfl, rfl⟩)
    | ok fields => exact Or.inr (Or.inr ⟨fields, _, rfl, rfl⟩)

theorem Elem_of_kind (typ : Typ) (h : typ.Kind = .Slice ∨ typ.Kind = .Array ∨ typ.Kind = .Ptr) :
    ∃ e, typ.Elem = some e := by
  cases typ with
  | plain name k r => cases k <;> simp [Typ.Kind, PlainKind.toKind] at h
  | rawValue => exact ⟨_, rfl⟩
  | array len e r => exact ⟨_, rfl⟩
  | slice e r => exact ⟨_, rfl⟩
  | ptr e => exact ⟨_, rfl⟩
  | bigInt => simp [Typ.Kind] at h
  | iface name enc => simp [Typ.Kind] at h
  | struct name r fields => simp [Typ.Kind] at h

/-- The dispatch of `makeWriter`: a writer that needs no lookup, or the result
of one of the three constructors, or the error of the default case. -/
theorem makeWriter_cases (env : Env) (typ : Typ) (ts : tags) :
    (∃ wr, makeWriter env typ ts = some (.ok wr)) ∨
    ((typ.Kind = .Slice ∨ typ.Kind = .Array) ∧ makeWriter env typ ts = makeSliceWriter env typ ts) ∨
    (typ.Kind = .Struct ∧ makeWriter env typ ts = makeStructWriter env typ) ∨
    (typ.Kind = .Ptr ∧ makeWriter env typ ts = makePtrWriter env typ) ∨
    (listedKind typ.Kind = false ∧ makeWriter env typ ts =
      some (.error ("rlp: type " ++ typ.String ++ " is not RLP-serializable"))) := by
  generalize hr : makeWriter env typ ts = r
  unfold makeWriter at hr
  by_cases h1 : typ.isRawValue = true
  · rw [if_pos h1] at hr; subst hr; exact Or.inl ⟨_, rfl⟩
  rw [if_neg h1] at hr
  by_cases h2 : typ.Implements = true
  · rw [if_pos h2] at hr; subst hr; exact Or.inl ⟨_, rfl⟩
  rw [if_neg h2] at hr
  by_cases h3 : typ.Kind ≠ .Ptr ∧ (Typ.ptr typ).Implements = true
  · rw [if_pos h3] at hr; subst hr; exact Or.inl ⟨_, rfl⟩
  rw [if_neg h3] at hr
  by_cases h4 : typ.Kind = .Interface
  · rw [if_pos h4] at hr; subst hr; exact Or.inl ⟨_, rfl⟩
  rw [if_neg h4] at hr
  by_cases h5 : typ.assignableToBigIntPtr = true
  · rw [if_pos h5] at hr; subst hr; exact Or.inl ⟨_, rfl⟩
  rw [if_neg h5] at hr
  by_cases h6 : typ.assignableToBigInt = true
  · rw [if_pos h6] at hr; subst hr; exact Or.inl ⟨_, rfl⟩
  rw [if_neg h6] at hr
  by_cases h7 : isUint typ.Kind = true
  · rw [if_pos h7] at hr; subst hr; exact Or.inl ⟨_, rfl⟩
  rw [if_neg h7] at hr
  by_cases h8 : typ.Kind = .Bool
  · rw [if_pos h8] at hr; subst hr; exact Or.inl ⟨_, rfl⟩
  rw [if_neg h8] at hr
  by_cases h9 : typ.Kind = .String
  · rw [if_pos h9] at hr; subst hr; exact Or.inl ⟨_, rfl⟩
  rw [if_neg h9] at hr
  by_cases h10 : typ.Kind = .Slice ∧ elemIsByte typ = true
  · rw [if_pos h10] at hr; subst hr; exact Or.inl ⟨_, rfl⟩
  rw [if_neg h10] at hr
  by_cases h11 : typ.Kind = .Array ∧ elemIsByte typ = true
  · rw [if_pos h11] at hr; subst hr; exact Or.inl ⟨_, rfl⟩
  rw [if_neg h11] at hr
  by_cases h12 : typ.Kind = .Slice ∨ typ.Kind = .Array
  · rw [if_pos h12] at hr; subst hr; exact Or.inr (Or.inl ⟨h12, rfl⟩)
  rw [if_neg h12] at hr
  by_cases h13 : typ.Kind = .Struct
  · rw [if_pos h13] at hr; subst hr; exact Or.inr (Or.inr (Or.inl ⟨h13, rfl⟩))
  rw [if_neg h13] at hr
  by_cases h14 : typ.Kind = .Ptr
  · rw [if_pos h14] at hr; subst hr; exact Or.inr (Or.inr (Or.inr (Or.inl ⟨h14, rfl⟩)))
  rw [if_neg h14] at hr
  subst hr
  refine Or.inr (Or.inr (Or.inr (Or.inr ⟨?_, rfl⟩)))
  simp only [not_or] at h12
  simp [listedKind, h4, h7, h8, h9, h12.1, h12.2, h13, h14]


theorem makeWriter_unsupported (env : Env) (typ : Typ) (ts : tags)
    (hk : unsupportedKind typ.Kind = true) (h2 : typ.Implements = false)
    (h3 : (Typ.ptr typ).Implements = false) :
    makeWriter env typ ts =
      some (.error ("rlp: type " ++ typ.String ++ " is not RLP-serializable")) := by
  cases typ with
  | plain name k r =>
    cases r with
    | absent =>
      cases k <;> first
        | rfl
        | (exfalso; simp [unsupportedKind, Typ.Kind, PlainKind.toKind] at hk)
    | value => simp [Typ.Implements, Typ.recv] at h2
    | pointer => simp [Typ.Implements, Typ.recv] at h3
  | rawValue => simp [unsupportedKind, Typ.Kind] at hk
  | array len e r => simp [unsupportedKind, Typ.Kind] at hk
  | slice e r => simp [unsupportedKind, Typ.Kind] at hk
  | ptr e => simp [unsupportedKind, Typ.Kind] at hk
  | bigInt => simp [unsupportedKind, Typ.Kind] at hk
  | iface name enc => simp [unsupportedKind, Typ.Kind] at hk
  | struct name r fields => simp [unsupportedKind, Typ.Kind] at hk



/-- The dispatch of `makeWriter`, with the types for which it makes no lookup
told apart: for those it returns a writer; every other type goes to one of the
three constructors or to the default case. -/
theorem makeWriter_direct (env : Env) (typ : Typ) (ts : tags) :
    (typ.direct = true ∧ ∃ wr, makeWriter env typ ts = some (.ok wr)) ∨
    (typ.direct = false ∧ (typ.Kind = .Slice ∨ typ.Kind = .Array) ∧
      makeWriter env typ ts = makeSliceWriter env typ ts) ∨
    (typ.direct = false ∧ typ.Kind = .Struct ∧
      makeWriter env typ ts = makeStructWriter env typ) ∨
    (typ.direct = false ∧ typ.Kind = .Ptr ∧ makeWriter env typ ts = makePtrWriter env typ) ∨
    (typ.direct = false ∧ listedKind typ.Kind = false ∧ makeWriter env typ ts =
      some (.error ("rlp: type " ++ typ.String ++ " is not RLP-serializable"))) := by
  generalize hr : makeWriter env typ ts = r
  unfold makeWriter at hr
  by_cases h1 : typ.isRawValue = true
  · rw [if_pos h1] at hr; subst hr; exact Or.inl ⟨by simp [Typ.direct, h1], _, rfl⟩
  rw [if_neg h1] at hr
  by_cases h2 : typ.Implements = true
  · rw [if_pos h2] at hr; subst hr; exact Or.inl ⟨by simp [Typ.direct, h2], _, rfl⟩
  rw [if_neg h2] at hr
  by_cases h3 : typ.Kind ≠ .Ptr ∧ (Typ.ptr typ).Implements = true
  · rw [if_pos h3] at hr; subst hr; exact Or.inl ⟨by simp [Typ.direct, h3.1, h3.2], _, rfl⟩
  rw [if_neg h3] at hr
  by_cases h4 : typ.Kind = .Interface
  · rw [if_pos h4] at hr; subst hr; exact Or.inl ⟨by simp [Typ.direct, h4], _, rfl⟩
  rw [if_neg h4] at hr
  by_cases h5 : typ.assignableToBigIntPtr = true
  · rw [if_pos h5] at hr; subst hr; exact Or.inl ⟨by simp [Typ.direct, h5], _, rfl⟩
  rw [if_neg h5] at hr
  by_cases h6 : typ.assignableToBigInt = true
  · rw [if_pos h6] at hr; subst hr; exact Or.inl ⟨by simp [Typ.direct, h6], _, rfl⟩
  rw [if_neg h6] at hr
  by_cases h7 : isUint typ.Kind = true
  · rw [if_pos h7] at hr; subst hr; exact Or.inl ⟨by simp [Typ.direct, h7], _, rfl⟩
  rw [if_neg h7] at hr
  by_cases h8 : typ.Kind = .Bool
  · rw [if_pos h8] at hr; subst hr; exact Or.inl ⟨by simp [Typ.direct, h8], _, rfl⟩
  rw [if_neg h8] at hr
  by_cases h9 : typ.Kind = .String
  · rw [if_pos h9] at hr; subst hr; exact Or.inl ⟨by simp [Typ.direct, h9], _, rfl⟩
  rw [if_neg h9] at hr
  by_cases h10 : typ.Kind = .Slice ∧ elemIsByte typ = true
  · rw [if_pos h10] at hr; subst hr; exact Or.inl ⟨by simp [Typ.direct, h10.1, h10.2], _, rfl⟩
  rw [if_neg h10] at hr
  by_cases h11 : typ.Kind = .Array ∧ elemIsByte typ = true
  · rw [if_pos h11] at hr; subst hr; exact Or.inl ⟨by simp [Typ.direct, h11.1, h11.2], _, rfl⟩
  rw [if_neg h11] at hr
  have hd : typ.direct = false := by
    simp only [not_and] at h3 h10 h11
    simp only [Bool.not_eq_true] at h1 h2 h5 h6 h7
    simp only [Typ.direct, h1, h2, h4, h5, h6, h7, h8, h9, Bool.false_or, decide_False,
      Bool.or_false, Bool.or_eq_false_iff, Bool.and_eq_false_imp, decide_eq_true_eq]
    refine ⟨⟨fun hk => ?_, fun hk => ?_⟩, fun hk => ?_⟩
    · have := h3 (by simpa using hk)
      simpa using this
    · have := h10 hk
      simpa using this
    · have := h11 hk
      simpa using this
  by_cases h12 : typ.Kind = .Slice ∨ typ.Kind = .Array
  · rw [if_pos h12] at hr; subst hr; exact Or.inr (Or.inl ⟨hd, h12, rfl⟩)
  rw [if_neg h12] at hr
  by_cases h13 : typ.Kind = .Struct
  · rw [if_pos h13] at hr; subst hr; exact Or.inr (Or.inr (Or.inl ⟨hd, h13, rfl⟩))
  rw [if_neg h13] at hr
  by_cases h14 : typ.Kind = .Ptr
  · rw [if_pos h14] at hr; subst hr; exact Or.inr (Or.inr (Or.inr (Or.inl ⟨hd, h14, rfl⟩)))
  rw [if_neg h14] at hr
  subst hr
  refine Or.inr (Or.inr (Or.inr (Or.inr ⟨hd, ?_, rfl⟩)))
  simp only [not_or] at h12
  simp [listedKind, h4, h7, h8, h9, h12.1, h12.2, h13, h14]

/-- Counterexample to C16 as stated: the type `[]int` has kind Slice, which the
dispatch order names, and `makeWriter` returns for it the error of the element
type, "rlp: type int is not RLP-serializable", and no writer.  So it is not
true that `makeWriter` returns a writer for every type of a listed kind. -/
theorem makeWriter_slice_of_int_fails :
    listedKind (Typ.slice (Typ.plain "int" .Int .absent) .absent).Kind = true ∧
    makeWriter (typeCache (fun _ => Value.list []) 1) (Typ.slice (Typ.plain "int" .Int .absent) .absent) {} =
      some (.error "rlp: type int is not RLP-serializable") ∧
    ¬ (∀ (env : Env) (typ : Typ) (ts : tags), listedKind typ.Kind = true →
        ∃ wr, makeWriter env typ ts = some (.ok wr)) := by
  have h : makeWriter (typeCache (fun _ => Value.list []) 1) (Typ.slice (Typ.plain "int" .Int
      .absent) .absent) {} =
      some (.error "rlp: type int is not RLP-serializable") := by
    unfold makeWriter
    rfl
  refine ⟨by decide, h, fun hall => ?_⟩
  obtain ⟨wr, hwr⟩ := hall (typeCache (fun _ => Value.list []) 1) (Typ.slice (Typ.plain "int" .Int
      .absent) .absent) {} (by decide)
  rw [h] at hwr
  simp at hwr


/-- C16 (amended): for every type whose kind is a signed integer, a
floating-point number, a map, a channel or a function, and which neither is the
raw-value type nor implements the custom Encoder (by value or by pointer),
`makeWriter` returns the error "rlp: type T is not RLP-serializable" and no
writer.  For every type of a kind the dispatch order names: when one of the
cases before the slice, struct and pointer constructors applies, `makeWriter`
makes no lookup and returns a writer, whatever the type cache holds; otherwise
the type is a struct, or a slice, array or pointer, and `makeWriter` returns a
writer when the lookup it makes (`structFields` for the struct,
`cachedTypeInfo1` for the element type) returns no error, and returns that
lookup's error and no writer when the lookup returns an error. -/
theorem makeWriter_dispatch (env : Env) (typ : Typ) (ts : tags) :
    (unsupportedKind typ.Kind = true → typ.isRawValue = false → typ.Implements = false →
      (Typ.ptr typ).Implements = false →
      makeWriter env typ ts =
        some (.error ("rlp: type " ++ typ.String ++ " is not RLP-serializable"))) ∧
    (listedKind typ.Kind = true → typ.direct = true →
      ∃ wr, makeWriter env typ ts = some (.ok wr)) ∧
    (listedKind typ.Kind = true → typ.direct = false →
      (typ.Kind = .Struct ∧
        (∀ fields, Env.structFields env typ = some (.ok fields) →
          ∃ wr, makeWriter env typ ts = some (.ok wr)) ∧
        (∀ msg, Env.structFields env typ = some (.error msg) →
          makeWriter env typ ts = some (.error msg))) ∨
      ((typ.Kind = .Slice ∨ typ.Kind = .Array ∨ typ.Kind = .Ptr) ∧
        ∃ e, typ.Elem = some e ∧
          (∀ ti, Env.cachedTypeInfo1 env e {} = some (.ok ti) →
            ∃ wr, makeWriter env typ ts = some (.ok wr)) ∧
          (∀ msg, Env.cachedTypeInfo1 env e {} = some (.error msg) →
            makeWriter env typ ts = some (.error msg)))) := by
  refine ⟨fun hk _ h2 h3 => makeWriter_unsupported env typ ts hk h2 h3, ?_, ?_⟩
  · intro _ hd
    rcases makeWriter_direct env typ ts with ⟨-, h⟩ | ⟨c, -⟩ | ⟨c, -⟩ | ⟨c, -⟩ | ⟨c, -⟩
    · exact h
    all_goals (rw [hd] at c; exact absurd c (by decide))
  · intro hl hd
    rcases makeWriter_direct env typ ts with ⟨c, -⟩ | ⟨-, hk, h⟩ | ⟨-, hk, h⟩ | ⟨-, hk, h⟩ |
      ⟨-, hk, -⟩
    · rw [hd] at c; exact absurd c (by decide)
    · right
      obtain ⟨e, he⟩ := Elem_of_kind typ (by tauto)
      refine ⟨by tauto, e, he, ?_, ?_⟩
      · intro ti hc
        rw [h]
        rcases makeSliceWriter_cases env typ e ts he with ⟨c, -⟩ | ⟨m, c, -⟩ | ⟨ti1, wr, -, c⟩
        · rw [hc] at c; simp at c
        · rw [hc] at c; simp at c
        · exact ⟨wr, c⟩
      · intro msg hc
        rw [h]
        rcases makeSliceWriter_cases env typ e ts he with ⟨c, -⟩ | ⟨m, c1, c⟩ | ⟨ti1, wr, c, -⟩
        · rw [hc] at c; simp at c
        · rw [hc] at c1
          simp only [Option.some.injEq, Except.error.injEq] at c1
          rw [c, c1]
        · rw [hc] at c; simp at c
    · left
      refine ⟨hk, ?_, ?_⟩
      · intro fields hc
        rw [h]
        rcases makeStructWriter_cases env typ with ⟨c, -⟩ | ⟨m, c, -⟩ | ⟨f1, wr, -, c⟩
        · rw [hc] at c; simp at c
        · rw [hc] at c; simp at c
        · exact ⟨wr, c⟩
      · intro msg hc
        rw [h]
        rcases makeStructWriter_cases env typ with ⟨c, -⟩ | ⟨m, c1, c⟩ | ⟨f1, wr, c, -⟩
        · rw [hc] at c; simp at c
        · rw [hc] at c1
          simp only [Option.some.injEq, Except.error.injEq] at c1
          rw [c, c1]
        · rw [hc] at c; simp at c
    · right
      obtain ⟨e, he⟩ := Elem_of_kind typ (by tauto)
      refine ⟨by tauto, e, he, ?_, ?_⟩
      · intro ti hc
        rw [h]
        rcases makePtrWriter_cases env typ e he with ⟨c, -⟩ | ⟨m, c, -⟩ | ⟨ti1, wr, -, c⟩
        · rw [hc] at c; simp at c
        · rw [hc] at c; simp at c
        · exact ⟨wr, c⟩
      · intro msg hc
        rw [h]
        rcases makePtrWriter_cases env typ e he with ⟨c, -⟩ | ⟨m, c1, c⟩ | ⟨ti1, wr, c, -⟩
        · rw [hc] at c; simp at c
        · rw [hc] at c1
          simp only [Option.some.injEq, Except.error.injEq] at c1
          rw [c, c1]
        · rw [hc] at c; simp at c
    · rw [hk] at hl; exact absurd hl (by decide)

theorem makeWriter_dispatch_witness :
    (unsupportedKind (Typ.plain "int" .Int .absent).Kind = true ∧
        (Typ.plain "int" .Int .absent).isRawValue = false ∧
      (Typ.plain "int" .Int .absent).Implements = false ∧
          (Typ.ptr (Typ.plain "int" .Int .absent)).Implements = false ∧
      makeWriter (typeCache (fun _ => Value.list []) 1) (Typ.plain "int" .Int .absent) {} =
        some (.error ("rlp: type " ++ (Typ.plain "int" .Int .absent).String ++
          " is not RLP-serializable"))) ∧
    (listedKind (Typ.slice (Typ.plain "uint8" .Uint8 .absent) .absent).Kind = true ∧
      (Typ.slice (Typ.plain "uint8" .Uint8 .absent) .absent).direct = true ∧
      ∃ wr, makeWriter
        (⟨fun _ _ => some (.error "no"), fun _ _ => some (.error "no"),
          fun _ => some (.error "no"), fun _ => Value.list []⟩ : Env)
        (Typ.slice (Typ.plain "uint8" .Uint8 .absent) .absent) {} = some (.ok wr)) ∧
    (listedKind (Typ.slice (Typ.plain "int" .Int .absent) .absent).Kind = true ∧
      (Typ.slice (Typ.plain "int" .Int .absent) .absent).direct = false ∧
      (((Typ.slice (Typ.plain "int" .Int .absent) .absent).Kind = .Struct ∧
        (∀ fields, Env.structFields (typeCache (fun _ => Value.list []) 1) (Typ.slice (Typ.plain
            "int" .Int .absent) .absent) = some (.ok fields) →
          ∃ wr, makeWriter (typeCache (fun _ => Value.list []) 1) (Typ.slice (Typ.plain "int" .Int
              .absent) .absent) {} = some (.ok wr)) ∧
        (∀ msg, Env.structFields (typeCache (fun _ => Value.list []) 1) (Typ.slice (Typ.plain "int"
            .Int .absent) .absent) = some (.error msg) →
          makeWriter (typeCache (fun _ => Value.list []) 1) (Typ.slice (Typ.plain "int" .Int
              .absent) .absent) {} = some (.error msg))) ∨
      (((Typ.slice (Typ.plain "int" .Int .absent) .absent).Kind = .Slice ∨
          (Typ.slice (Typ.plain "int" .Int .absent) .absent).Kind = .Array ∨
          (Typ.slice (Typ.plain "int" .Int .absent) .absent).Kind = .Ptr) ∧
        ∃ e, (Typ.slice (Typ.plain "int" .Int .absent) .absent).Elem = some e ∧
          (∀ ti, Env.cachedTypeInfo1 (typeCache (fun _ => Value.list []) 1) e {} = some (.ok ti) →
            ∃ wr, makeWriter (typeCache (fun _ => Value.list []) 1) (Typ.slice (Typ.plain "int"
                .Int .absent) .absent) {} = some (.ok wr)) ∧
          (∀ msg, Env.cachedTypeInfo1 (typeCache (fun _ => Value.list []) 1) e {} = some (.error msg) →
            makeWriter (typeCache (fun _ => Value.list []) 1) (Typ.slice (Typ.plain "int" .Int
                .absent) .absent) {} = some (.error msg))))) :=
  ⟨⟨by decide, by decide, by decide, by decide,
      (makeWriter_dispatch (typeCache (fun _ => Value.list []) 1) (Typ.plain "int" .Int .absent) {}).1
        (by decide) (by decide) (by decide) (by decide)⟩,
    ⟨by decide, by decide,
      (makeWriter_dispatch
        (⟨fun _ _ => some (.error "no"), fun _ _ => some (.error "no"),
          fun _ => some (.error "no"), fun _ => Value.list []⟩ : Env)
        (Typ.slice (Typ.plain "uint8" .Uint8 .absent) .absent) {}).2.1 (by decide) (by decide)⟩,
    ⟨by decide, by decide,
      (makeWriter_dispatch (typeCache (fun _ => Value.list []) 1) (Typ.slice (Typ.plain "int" .Int
          .absent) .absent) {}).2.2
        (by decide) (by decide)⟩⟩

/-- Counterexample to C17 as stated: for a value of boolean kind with no custom
Encoder the dispatch returns the writer `writeBool` and no error, for every
type cache and all tags, so not the "is not RLP-serializable" error; and
`EncodeToBytes(true)` returns the byte 0x01, `EncodeToBytes(false)` the byte
0x80, both without error. -/
theorem makeWriter_bool_returns_writer :
    (∀ (env : Env) (name : String) (ts : tags),
      makeWriter env (Typ.plain name .Bool .absent) ts = some (.ok writeBoolVal) ∧
      makeWriter env (Typ.plain name .Bool .absent) ts ≠
        some (.error ("rlp: type " ++ name ++ " is not RLP-serializable"))) ∧
    EncodeToBytes (typeCache (fun _ => Value.list []) 1) ⟨[], 0, 0⟩
        (some (Typ.plain "bool" .Bool .absent, Value.bool true)) =
      some (⟨[⟨[0x01], [], 0, List.replicate 9 0⟩], 1, 1⟩, some [0x01], none) ∧
    EncodeToBytes (typeCache (fun _ => Value.list []) 1) ⟨[], 0, 0⟩
        (some (Typ.plain "bool" .Bool .absent, Value.bool false)) =
      some (⟨[⟨[0x80], [], 0, List.replicate 9 0⟩], 1, 1⟩, some [0x80], none) := by
  refine ⟨fun env name ts => ?_, by rfl, by rfl⟩
  have h : makeWriter env (Typ.plain name .Bool .absent) ts = some (.ok writeBoolVal) := rfl
  rw [h]
  exact ⟨rfl, by simp⟩

theorem makeWriter_of_bool_kind (env : Env) (typ : Typ) (ts : tags) (hk : typ.Kind = .Bool)
    (h2 : typ.Implements = false) (h3 : (Typ.ptr typ).Implements = false) :
    makeWriter env typ ts = some (.ok writeBoolVal) := by
  cases typ with
  | plain name k r =>
    cases r with
    | absent => cases k <;> first | rfl | simp [Typ.Kind, PlainKind.toKind] at hk
    | value => simp [Typ.Implements, Typ.recv] at h2
    | pointer => simp [Typ.Implements, Typ.recv] at h3
  | rawValue => simp [Typ.Kind] at hk
  | array len e r => simp [Typ.Kind] at hk
  | slice e r => simp [Typ.Kind] at hk
  | ptr e => simp [Typ.Kind] at hk
  | bigInt => simp [Typ.Kind] at hk
  | iface name enc => simp [Typ.Kind] at hk
  | struct name r fields => simp [Typ.Kind] at hk


/-- C17 (amended): boolean values are supported by Encode.  For every type of
boolean kind with no custom Encoder (neither by value nor by pointer) the
dispatch returns the writer `writeBool` and no error, and this writer appends
0x01 for `true` and 0x80 for `false`; the "is not RLP-serializable" error is
what the dispatch returns for signed integers, floating point numbers, maps,
channels and functions. -/
theorem makeWriter_bool (env : Env) (typ : Typ) (ts : tags) (hk : typ.Kind = .Bool)
    (h2 : typ.Implements = false) (h3 : (Typ.ptr typ).Implements = false) :
    makeWriter env typ ts = some (.ok writeBoolVal) ∧
    (∀ w : encbuf,
      writeBoolVal (.bool true) w = some ({ w with str := w.str ++ [0x01] }, none) ∧
      writeBoolVal (.bool false) w = some ({ w with str := w.str ++ [0x80] }, none)) ∧
    (∀ typ1 : Typ, unsupportedKind typ1.Kind = true → typ1.Implements = false →
      (Typ.ptr typ1).Implements = false →
      makeWriter env typ1 ts =
        some (.error ("rlp: type " ++ typ1.String ++ " is not RLP-serializable"))) :=
  ⟨makeWriter_of_bool_kind env typ ts hk h2 h3,
    fun _ => ⟨rfl, rfl⟩,
    fun typ1 g1 g2 g3 => makeWriter_unsupported env typ1 ts g1 g2 g3⟩

theorem makeWriter_bool_witness :
    (Typ.plain "bool" .Bool .absent).Kind = .Bool ∧ (Typ.plain "bool" .Bool .absent).Implements = false ∧
    (Typ.ptr (Typ.plain "bool" .Bool .absent)).Implements = false ∧
    makeWriter (typeCache (fun _ => Value.list []) 1) (Typ.plain "bool" .Bool .absent) {} =
        some (.ok writeBoolVal) ∧
    (∀ w : encbuf,
      writeBoolVal (.bool true) w = some ({ w with str := w.str ++ [0x01] }, none) ∧
      writeBoolVal (.bool false) w = some ({ w with str := w.str ++ [0x80] }, none)) ∧
    (∀ typ1 : Typ, unsupportedKind typ1.Kind = true → typ1.Implements = false →
      (Typ.ptr typ1).Implements = false →
      makeWriter (typeCache (fun _ => Value.list []) 1) typ1 {} =
        some (.error ("rlp: type " ++ typ1.String ++ " is not RLP-serializable"))) :=
  ⟨by decide, by decide, by decide,
    makeWriter_bool (typeCache (fun _ => Value.list []) 1) (Typ.plain "bool" .Bool .absent) {}
      (by decide) (by decide) (by decide)⟩

/-! ## Release of the pooled buffer by the top-level operations -/

/-- C19: what the code does on the path where encoding the value fails, at the
value `big.NewInt(-1)` of type `*big.Int` and an empty pool.  `EncodeToReader`
takes a buffer from the pool (one `Get`), returns size 0, no reader and the
error "rlp: cannot encode negative *big.Int", and has put nothing back (no
`Put`).  `EncodeToBytes` and `Encode` to a sink other than an encode buffer, on
the same value, return the same error and have put the buffer back once. -/
theorem EncodeToReader_error_keeps_buffer :
    EncodeToReader (typeCache (fun _ => Value.list []) 1) ⟨[], 0, 0⟩
        (some (Typ.ptr .bigInt, Value.ptr (some (.bigInt (-1))))) =
      some (⟨[], 1, 0⟩, 0, none, some "rlp: cannot encode negative *big.Int") ∧
    EncodeToBytes (typeCache (fun _ => Value.list []) 1) ⟨[], 0, 0⟩
        (some (Typ.ptr .bigInt, Value.ptr (some (.bigInt (-1))))) =
      some (⟨[encbuf.new], 1, 1⟩, none, some "rlp: cannot encode negative *big.Int") ∧
    Encode (typeCache (fun _ => Value.list []) 1) ⟨[], 0, 0⟩
        (.inr ⟨[], fun _ p => ((p.length : Int), none)⟩)
        (some (Typ.ptr .bigInt, Value.ptr (some (.bigInt (-1))))) =
      some (⟨[encbuf.new], 1, 1⟩, .inr ⟨[], fun _ p => ((p.length : Int), none)⟩,
        some "rlp: cannot encode negative *big.Int") :=
  ⟨by rfl, by rfl, by rfl⟩

/-! ## Pointer writer -/

/-- The nil handler for a struct or array: `w.listEnd(w.list())` registers a
closed record of size 0 at the end of the payload. -/
theorem list_listEnd (w : encbuf) :
    (w.list).1.listEnd (w.list).2 =
      some { w with lheads := w.lheads ++ [{ offset := w.str.length, size := 0 }],
                    lhsize := w.lhsize + 1 } := by
  unfold encbuf.listEnd
  simp only [encbuf.list, encbuf.size]
  rw [List.getElem?_append_right (le_refl _)]
  simp

/-- Appending bytes to the payload appends them to the output. -/
theorem spliceFrom_payload (w : encbuf) (t : List Nat)
    (hok : OffsetsOk 0 w.str.length w.lheads) :
    spliceFrom (w.str ++ t) w.lheads 0 = spliceFrom w.str w.lheads 0 ++ t := by
  have h := spliceFrom_append w.str t w.str.length w.lheads [] 0 (by simpa using hok)
    (by simp [OffsetsOk])
  simp only [List.append_nil] at h
  rw [h]
  simp [spliceFrom]

/-- Registering a closed record of size 0 at the end of the payload appends
the empty list 0xC0 to the output. -/
theorem spliceFrom_empty_list (w : encbuf) (hok : OffsetsOk 0 w.str.length w.lheads) :
    spliceFrom w.str (w.lheads ++ [{ offset := w.str.length, size := 0 }]) 0 =
      spliceFrom w.str w.lheads 0 ++ [0xC0] := by
  have h := spliceFrom_append w.str [] w.str.length w.lheads
    [{ offset := w.str.length, size := 0 }] 0 (by simpa using hok)
    (by simp [OffsetsOk])
  simp only [List.append_nil] at h
  rw [h]
  simp [spliceFrom, list_header, uint64]


/-- The writer `makePtrWriter` builds when the element type resolves. -/
theorem makePtrWriter_some (env : Env) (elem : Typ) (ti : typeinfo)
    (hres : env.cachedTypeInfo1 elem {} = some (.ok ti)) :
    ∃ wr : writer, makePtrWriter env (Typ.ptr elem) = some (.ok wr) ∧
      (∀ w : encbuf, wr (.ptr none) w = nilfunc env elem ti w) ∧
      (∀ (v : Value) (w : encbuf), wr (.ptr (some v)) w = ti.writer v w) := by
  unfold makePtrWriter
  simp only [Typ.Elem, hres]
  exact ⟨_, rfl, fun _ => rfl, fun _ _ => rfl⟩

/-- C15: take a pointer type whose element type resolves to a `typeinfo`.
`makePtrWriter` then returns a writer, which is the writer `makeWriter` returns
for the pointer type when that type has no custom encoder (and is not
`*big.Int`, which has a writer of its own).  For a nil pointer this writer
appends the empty string 0x80 to the payload, and so to the output, when the
pointee is an array of bytes; it registers a closed list of size 0, which adds
the empty list 0xC0 to the output, when the pointee is a struct or any other
array; otherwise it does exactly what the writer of the pointee type does for
the zero value of the pointee type.  For a non-nil pointer it does exactly what
the writer of the pointee type does for the pointed-to value. -/
theorem makePtrWriter_correct (env : Env) (elem : Typ) (ti : typeinfo)
    (hres : env.cachedTypeInfo1 elem {} = some (.ok ti)) :
    ∃ wr : writer, makePtrWriter env (Typ.ptr elem) = some (.ok wr) ∧
      (∀ ts : tags, (Typ.ptr elem).Implements = false → elem.assignableToBigInt = false →
        makeWriter env (Typ.ptr elem) ts = some (.ok wr)) ∧
      (elem.Kind = .Array → elemIsByte elem = true → ∀ w : encbuf,
        wr (.ptr none) w = some ({ w with str := w.str ++ [0x80] }, none) ∧
        (OffsetsOk 0 w.str.length w.lheads →
          spliceFrom (w.str ++ [0x80]) w.lheads 0 = spliceFrom w.str w.lheads 0 ++ [0x80])) ∧
      (elem.Kind = .Struct ∨ (elem.Kind = .Array ∧ elemIsByte elem = false) → ∀ w : encbuf,
        wr (.ptr none) w =
          some ({ w with lheads := w.lheads ++ [{ offset := w.str.length, size := 0 }],
                         lhsize := w.lhsize + 1 }, none) ∧
        (OffsetsOk 0 w.str.length w.lheads →
          spliceFrom w.str (w.lheads ++ [{ offset := w.str.length, size := 0 }]) 0 =
            spliceFrom w.str w.lheads 0 ++ [0xC0])) ∧
      (elem.Kind ≠ .Struct → elem.Kind ≠ .Array → ∀ w : encbuf,
        wr (.ptr none) w = ti.writer (env.Zero elem) w) ∧
      (∀ (v : Value) (w : encbuf), wr (.ptr (some v)) w = ti.writer v w) := by
  obtain ⟨wr, hmake, hnil, hval⟩ := makePtrWriter_some env elem ti hres
  refine ⟨wr, hmake, ?_, ?_, ?_, ?_, hval⟩
  · intro ts h1 h2
    rw [← hmake]
    have h3 : (Typ.ptr elem).assignableToBigIntPtr = false := by
      cases elem <;> first | rfl | simp [Typ.assignableToBigInt] at h2
    unfold makeWriter
    rw [if_neg (by simp [Typ.isRawValue]), if_neg (by simp [h1]), if_neg (by simp [Typ.Kind]),
      if_neg (by simp [Typ.Kind]), if_neg (by simp [h3]),
      if_neg (by simp [Typ.assignableToBigInt]), if_neg (by simp [Typ.Kind, isUint]),
      if_neg (by simp [Typ.Kind]), if_neg (by simp [Typ.Kind]), if_neg (by simp [Typ.Kind]),
      if_neg (by simp [Typ.Kind]), if_neg (by simp [Typ.Kind]), if_neg (by simp [Typ.Kind]),
      if_pos (by simp [Typ.Kind])]
  · intro hk hb w
    refine ⟨?_, spliceFrom_payload w [0x80]⟩
    rw [hnil]
    simp only [nilfunc, hk, hb, and_self, if_true]
  · intro hk w
    refine ⟨?_, spliceFrom_empty_list w⟩
    have hc1 : ¬ (elem.Kind = .Array ∧ elemIsByte elem = true) := by
      rcases hk with hk | ⟨-, hk⟩
      · rw [hk]; simp
      · rw [hk]; simp
    have hc2 : elem.Kind = .Struct ∨ elem.Kind = .Array := by tauto
    rw [hnil]
    simp only [nilfunc, if_neg hc1, if_pos hc2, list_listEnd, Option.map_some']
  · intro h1 h2 w
    have hc1 : ¬ (elem.Kind = .Array ∧ elemIsByte elem = true) := fun hc => h2 hc.1
    have hc2 : ¬ (elem.Kind = .Struct ∨ elem.Kind = .Array) := by tauto
    rw [hnil]
    simp only [nilfunc, if_neg hc1, if_neg hc2]

theorem makePtrWriter_correct_witness :
    (typeCache (fun _ => Value.list []) 1).cachedTypeInfo1 (Typ.array 4 (Typ.plain "uint8" .Uint8
        .absent) .absent) {} = some (.ok (typeinfo.mk writeByteArray)) ∧
    ∃ wr : writer, makePtrWriter (typeCache (fun _ => Value.list []) 1) (Typ.ptr (Typ.array 4
        (Typ.plain "uint8" .Uint8 .absent) .absent)) = some (.ok wr) ∧
      (∀ ts : tags, (Typ.ptr (Typ.array 4 (Typ.plain "uint8" .Uint8 .absent) .absent)).Implements =
          false → (Typ.array 4 (Typ.plain "uint8" .Uint8 .absent) .absent).assignableToBigInt =
          false →
        makeWriter (typeCache (fun _ => Value.list []) 1) (Typ.ptr (Typ.array 4 (Typ.plain "uint8"
            .Uint8 .absent) .absent)) ts = some (.ok wr)) ∧
      ((Typ.array 4 (Typ.plain "uint8" .Uint8 .absent) .absent).Kind = .Array →
          elemIsByte (Typ.array 4 (Typ.plain "uint8" .Uint8 .absent) .absent) = true → ∀ w : encbuf,
        wr (.ptr none) w = some ({ w with str := w.str ++ [0x80] }, none) ∧
        (OffsetsOk 0 w.str.length w.lheads →
          spliceFrom (w.str ++ [0x80]) w.lheads 0 = spliceFrom w.str w.lheads 0 ++ [0x80])) ∧
      ((Typ.array 4 (Typ.plain "uint8" .Uint8 .absent) .absent).Kind = .Struct ∨
          ((Typ.array 4 (Typ.plain "uint8" .Uint8 .absent) .absent).Kind = .Array ∧
          elemIsByte (Typ.array 4 (Typ.plain "uint8" .Uint8 .absent) .absent) = false) →
          ∀ w : encbuf,
        wr (.ptr none) w =
          some ({ w with lheads := w.lheads ++ [{ offset := w.str.length, size := 0 }],
                         lhsize := w.lhsize + 1 }, none) ∧
        (OffsetsOk 0 w.str.length w.lheads →
          spliceFrom w.str (w.lheads ++ [{ offset := w.str.length, size := 0 }]) 0 =
            spliceFrom w.str w.lheads 0 ++ [0xC0])) ∧
      ((Typ.array 4 (Typ.plain "uint8" .Uint8 .absent) .absent).Kind ≠ .Struct →
          (Typ.array 4 (Typ.plain "uint8" .Uint8 .absent) .absent).Kind ≠ .Array → ∀ w : encbuf,
        wr (.ptr none) w =
            (typeinfo.mk writeByteArray).writer ((typeCache (fun _ => Value.list []) 1).Zero
            (Typ.array 4 (Typ.plain "uint8" .Uint8 .absent) .absent)) w) ∧
      (∀ (v : Value) (w : encbuf), wr (.ptr (some v)) w = (typeinfo.mk writeByteArray).writer v w) :=
  ⟨by rfl, makePtrWriter_correct (typeCache (fun _ => Value.list []) 1) (Typ.array 4 (Typ.plain
      "uint8" .Uint8 .absent) .absent) _ (by rfl)⟩

/-! ## Materialization: every access of `toBytes` is in range -/

theorem OffsetsOk_cons_bounds (lo hi : Int) (r : listhead) (rs : List listhead)
    (h : OffsetsOk lo hi (r :: rs)) : lo ≤ r.offset ∧ r.offset ≤ hi :=
  ⟨h.1, OffsetsOk_le _ _ _ h.2⟩

/-- What one iteration of the loop of `toBytes` accesses, in a state where the
output is written up to `pos` and has `z` bytes left: the two slice
expressions are in range, `copy` moves the whole payload segment, and the
remaining output handed to `listhead.encode` has `z` minus the segment bytes,
which is enough for the header. -/
theorem record_in_range (str written : List Nat) (z sp : Nat) (r : listhead)
    (h1 : (sp : Int) ≤ r.offset) (h3 : r.offset ≤ (str.length : Int))
    (hz : (r.offset.toNat - sp) + headsize (uint64 r.size) ≤ z) :
    ∃ (dst src buf buf1 enc : List Nat),
      slice (written ++ List.replicate z 0) (written.length : Int)
        ((written ++ List.replicate z 0).length : Int) = some dst ∧
      slice str (sp : Int) r.offset = some src ∧
      src.length = r.offset.toNat - sp ∧
      (copy dst src).2 = src.length ∧
      slice ((written ++ List.replicate z 0).take written.length ++ (copy dst src).1)
        ((written.length + (copy dst src).2 : Nat) : Int)
        (((written ++ List.replicate z 0).take written.length ++ (copy dst src).1).length : Int) =
          some buf ∧
      buf.length = z - src.length ∧
      headsize (uint64 r.size) ≤ buf.length ∧
      r.encode buf = some (buf1, enc) ∧
      enc.length = headsize (uint64 r.size) ∧
      buf1.length = buf.length := by
  have hseg : ((str.take r.offset.toNat).drop sp).length = r.offset.toNat - sp := by
    simp; omega
  have hpos : written.length ≤ (written ++ List.replicate z 0).length := by simp
  have hcopy := copy_zeros z ((str.take r.offset.toNat).drop sp) (by rw [hseg]; omega)
  have hl := list_header_length (uint64 r.size) (uint64_lt _)
  refine ⟨List.replicate z 0, (str.take r.offset.toNat).drop sp,
    List.replicate (z - (r.offset.toNat - sp)) 0,
    list_header (uint64 r.size) ++
      (List.replicate (z - (r.offset.toNat - sp)) 0).drop (headsize (uint64 r.size)),
    list_header (uint64 r.size), ?_, slice_int str sp r.offset h1 h3, hseg, ?_, ?_, ?_, ?_, ?_,
    hl, ?_⟩
  · rw [slice_from _ _ hpos, List.drop_left]
  · rw [hcopy]
  · rw [hcopy]
    simp only [List.take_left, hseg]
    have e1 : (written ++ ((str.take r.offset.toNat).drop sp ++
          List.replicate (z - (r.offset.toNat - sp)) 0)) =
        (written ++ (str.take r.offset.toNat).drop sp) ++
          List.replicate (z - (r.offset.toNat - sp)) 0 := by simp
    have e2 : written.length + (r.offset.toNat - sp) =
        (written ++ (str.take r.offset.toNat).drop sp).length := by
      rw [List.length_append, hseg]
    rw [e1, e2, slice_from _ _ (by simp), List.drop_left]
  · simp [hseg]
  · simp only [List.length_replicate]; omega
  · exact listhead_encode_spec r _ (by simp only [List.length_replicate]; omega)
  · simp only [List.length_append, hl, List.length_drop, List.length_replicate]
    omega

/-- One iteration of the loop of `toBytes` in such a state. -/
theorem toBytesLoop_cons (str written : List Nat) (z sp : Nat) (r : listhead)
    (rs : List listhead) (h1 : (sp : Int) ≤ r.offset) (h3 : r.offset ≤ (str.length : Int))
    (hz : (r.offset.toNat - sp) + headsize (uint64 r.size) ≤ z) :
    toBytesLoop str (r :: rs) (written ++ List.replicate z 0) sp written.length =
      toBytesLoop str rs
        ((written ++ (str.take r.offset.toNat).drop sp ++ list_header (uint64 r.size)) ++
          List.replicate (z - (r.offset.toNat - sp) - headsize (uint64 r.size)) 0)
        r.offset.toNat
        (written ++ (str.take r.offset.toNat).drop sp ++ list_header (uint64 r.size)).length := by
  have hseg : ((str.take r.offset.toNat).drop sp).length = r.offset.toNat - sp := by
    simp; omega
  have hpos : written.length ≤ (written ++ List.replicate z 0).length := by simp
  rw [toBytesLoop]
  rw [slice_from _ _ hpos, slice_int str sp r.offset h1 h3]
  simp only [Option.bind_eq_bind, Option.some_bind, List.drop_left, List.take_left]
  rw [copy_zeros z _ (by rw [hseg]; omega)]
  simp only [hseg]
  have e1 : (written ++ ((str.take r.offset.toNat).drop sp ++
        List.replicate (z - (r.offset.toNat - sp)) 0)) =
      (written ++ (str.take r.offset.toNat).drop sp) ++
        List.replicate (z - (r.offset.toNat - sp)) 0 := by simp
  have e2 : written.length + (r.offset.toNat - sp) =
      (written ++ (str.take r.offset.toNat).drop sp).length := by
    rw [List.length_append, hseg]
  rw [e1, e2, slice_from _ _ (by simp)]
  simp only [Option.some_bind, List.drop_left, List.take_left]
  rw [listhead_encode_spec r _ (by simp; omega)]
  simp only [Option.some_bind, List.drop_replicate]
  have e3 : (written ++ (str.take r.offset.toNat).drop sp) ++
        (list_header (uint64 r.size) ++
          List.replicate (z - (r.offset.toNat - sp) - headsize (uint64 r.size)) 0) =
      (written ++ (str.take r.offset.toNat).drop sp ++ list_header (uint64 r.size)) ++
          List.replicate (z - (r.offset.toNat - sp) - headsize (uint64 r.size)) 0 := by simp
  have e4 : (written ++ (str.take r.offset.toNat).drop sp).length +
        (list_header (uint64 r.size)).length =
      (written ++ (str.take r.offset.toNat).drop sp ++ list_header (uint64 r.size)).length := by
    simp only [List.length_append]
  have e5 : sp + (r.offset.toNat - sp) = r.offset.toNat := by omega
  rw [e3, e4, e5]


/-- The state of the loop of `toBytes` when it reaches a record: the output is
written up to `pos`, and what is left of it has room for the payload segment
before the record and for its header. -/
theorem toBytesLoop_prefix (str : List Nat) : ∀ (pre : List listhead) (r : listhead)
    (post : List listhead) (written : List Nat) (z sp : Nat),
    OffsetsOk sp str.length (pre ++ r :: post) →
    (str.length - sp) + headBytes (pre ++ r :: post) ≤ z →
    ∃ (W : List Nat) (z1 sp1 : Nat),
      toBytesLoop str pre (written ++ List.replicate z 0) sp written.length =
        some (W ++ List.replicate z1 0, sp1, W.length) ∧
      W.length + z1 = written.length + z ∧
      (sp1 : Int) ≤ r.offset ∧ r.offset ≤ (str.length : Int) ∧
      (r.offset.toNat - sp1) + headsize (uint64 r.size) ≤ z1 := by
  intro pre
  induction pre with
  | nil =>
    intro r post written z sp hok hz
    obtain ⟨h1, h3⟩ := OffsetsOk_cons_bounds _ _ r post hok
    have hhb : headBytes (r :: post) = headsize (uint64 r.size) + headBytes post := by
      simp [headBytes]
    simp only [List.nil_append, hhb] at hz
    exact ⟨written, z, sp, by simp [toBytesLoop], rfl, h1, h3, by omega⟩
  | cons q pre ih =>
    intro r post written z sp hok hz
    obtain ⟨h1, h2⟩ := hok
    have h3 := OffsetsOk_le _ _ _ h2
    have hhb : headBytes (q :: pre ++ r :: post) =
        headsize (uint64 q.size) + headBytes (pre ++ r :: post) := by
      simp [headBytes]
    rw [hhb] at hz
    obtain ⟨W, z1, sp1, hloop, hW, g1, g2, g3⟩ :=
      ih r post (written ++ (str.take q.offset.toNat).drop sp ++ list_header (uint64 q.size))
        (z - (q.offset.toNat - sp) - headsize (uint64 q.size)) q.offset.toNat
        (by rw [Int.toNat_of_nonneg (by omega)]; exact h2) (by omega)
    refine ⟨W, z1, sp1, ?_, ?_, g1, g2, g3⟩
    · rw [toBytesLoop_cons str written z sp q _ h1 h3 (by omega), hloop]
    · have hl := list_header_length (uint64 q.size) (uint64_lt _)
      have hseg : ((str.take q.offset.toNat).drop sp).length = q.offset.toNat - sp := by
        simp; omega
      simp only [List.length_append, hseg, hl] at hW
      omega


/-- C21: for every buffer reached from a reset buffer by a well-bracketed
sequence of calls with every list closed (and a size that fits a Go `int`),
`toBytes` returns, so none of its index and slice expressions is out of range.
In detail, when the loop reaches a list-head record, `pos` is within the
output, `strpos <= head.offset <= len(str)`, both slice expressions of the
`copy` are in range and the whole payload segment is copied, and the remaining
output `out[pos:]` handed to `listhead.encode` is at least as long as the
header written into it, which has 1 byte when `size < 56` and
`1 + intsize(size)` bytes otherwise.  That remaining output can be shorter
than 9 bytes: for a lone empty list it is the whole output, of 1 byte. -/
theorem toBytes_in_range (eb : encbuf) (ops : List Op) (s : Session)
    (h : (Session.start eb).runWB ops = some s) (hclosed : s.opened = [])
    (hsize : s.w.size < 2 ^ 63) :
    (∃ bytes : List Nat, s.w.toBytes = some bytes) ∧
    (∀ (pre : List listhead) (head : listhead) (post : List listhead),
      s.w.lheads = pre ++ head :: post →
      ∃ (out : List Nat) (strpos pos : Nat) (dst src buf buf1 enc : List Nat),
        toBytesLoop s.w.str pre (List.replicate s.w.size.toNat 0) 0 0 =
          some (out, strpos, pos) ∧
        (out.length : Int) = s.w.size ∧ pos ≤ out.length ∧
        (strpos : Int) ≤ head.offset ∧ head.offset ≤ (s.w.str.length : Int) ∧
        slice out (pos : Int) (out.length : Int) = some dst ∧
        slice s.w.str (strpos : Int) head.offset = some src ∧
        (copy dst src).2 = src.length ∧
        slice (out.take pos ++ (copy dst src).1) ((pos + (copy dst src).2 : Nat) : Int)
          ((out.take pos ++ (copy dst src).1).length : Int) = some buf ∧
        head.encode buf = some (buf1, enc) ∧
        enc.length ≤ buf.length ∧
        0 ≤ head.size ∧
        enc.length = (if head.size < 56 then 1 else 1 + intsize (uint64 head.size))) ∧
    (∃ s0 : Session, (Session.start eb).runWB [Op.list, Op.listEnd 0] = some s0 ∧
      s0.opened = [] ∧ s0.w.lheads = [{ offset := 0, size := 0 }] ∧ s0.w.size = 1 ∧
      toBytesLoop s0.w.str [] (List.replicate s0.w.size.toNat 0) 0 0 = some ([0], 0, 0) ∧
      slice ([0] : List Nat) 0 1 = some [0] ∧ ([0] : List Nat).length < 9 ∧
      listhead.encode { offset := 0, size := 0 } [0] = some ([0xC0], [0xC0]) ∧
      s0.w.toBytes = some [0xC0]) := by
  have hs := inv_run ops _ s (inv_start eb) (run_of_runWB _ _ _ h)
  have hb : ∀ r ∈ s.w.lheads, 0 ≤ r.size ∧ r.size < 2 ^ 64 := by
    intro r hr
    obtain ⟨k, hk⟩ := List.getElem?_of_mem hr
    have := hs.closed_le k r hk (by rw [hclosed]; simp)
    exact ⟨hs.size_nonneg r hr, by omega⟩
  have hlh : s.w.lhsize = (headBytes s.w.lheads : Int) := by
    rw [hs.lhsize_eq, hclosed, closedWidths_nil_eq_widths, widths_eq_headBytes _ hb]
  have hsz : s.w.size = ((s.w.str.length + headBytes s.w.lheads : Nat) : Int) := by
    unfold encbuf.size; rw [hlh]; push_cast; rfl
  obtain ⟨-, hbytes, -⟩ := closed_session_toBytes eb ops s h hclosed hsize
  refine ⟨⟨_, hbytes⟩, ?_, ?_⟩
  · intro pre head post hsplit
    have hok := hs.offsets
    rw [hsplit] at hok
    obtain ⟨W, z1, sp1, hloop, hW, g1, g2, g3⟩ :=
      toBytesLoop_prefix s.w.str pre head post [] (s.w.str.length + headBytes s.w.lheads) 0
        (by simpa using hok) (by rw [hsplit]; omega)
    simp only [List.nil_append, List.length_nil, Nat.zero_add] at hloop hW
    obtain ⟨dst, src, buf, buf1, enc, r1, r2, r3, r4, r5, r6, r7, r8, r9, -⟩ :=
      record_in_range s.w.str W z1 sp1 head g1 g2 g3
    obtain ⟨hh0, hh1⟩ := hb head (by rw [hsplit]; simp)
    have hlen : (W ++ List.replicate z1 0).length = s.w.str.length + headBytes s.w.lheads := by
      simp only [List.length_append, List.length_replicate]; omega
    refine ⟨W ++ List.replicate z1 0, sp1, W.length, dst, src, buf, buf1, enc, ?_, ?_, ?_,
      g1, g2, r1, r2, r4, r5, r8, by omega, hh0, ?_⟩
    · rw [hsz, Int.toNat_ofNat]; exact hloop
    · rw [hlen, hsz]
    · simp
    · rw [r9]
      unfold headsize
      have hu := uint64_of_bounds head.size hh0 hh1
      by_cases hc : head.size < 56
      · rw [if_pos hc, if_pos (by omega)]
      · rw [if_neg hc, if_neg (by omega)]
  · refine ⟨⟨{ eb.reset with lheads := [{ offset := 0, size := 0 }], lhsize := 1 }, []⟩,
      ?_, rfl, rfl, ?_, ?_, ?_, by decide, ?_, ?_⟩
    · simp [Session.runWB, Session.start, Session.innermost, Session.step, encbuf.list,
        encbuf.listEnd, encbuf.reset, encbuf.size]
    · simp [encbuf.size, encbuf.reset]
    · simp [encbuf.size, encbuf.reset, toBytesLoop]
    · decide
    · decide
    · simp [encbuf.toBytes, encbuf.toBytesAux, encbuf.size, encbuf.reset, toBytesLoop, slice,
        copy, listhead.encode, puthead, store, uint64, byte]


theorem toBytes_in_range_witness :
    (Session.start encbuf.new).runWB
        [Op.list, Op.encodeString [0x63, 0x61, 0x74], Op.list, Op.listEnd 1, Op.listEnd 0] =
      some (⟨⟨[0x83, 0x63, 0x61, 0x74], [⟨0, 5⟩, ⟨4, 0⟩], 2, List.replicate 9 0⟩, []⟩ : Session) ∧
    encbuf.size ⟨[0x83, 0x63, 0x61, 0x74], [⟨0, 5⟩, ⟨4, 0⟩], 2, List.replicate 9 0⟩ < 2 ^ 63 ∧
    (∃ bytes : List Nat,
      encbuf.toBytes ⟨[0x83, 0x63, 0x61, 0x74], [⟨0, 5⟩, ⟨4, 0⟩], 2, List.replicate 9 0⟩ = some bytes) ∧
    (∀ (pre : List listhead) (head : listhead) (post : List listhead),
      ([⟨0, 5⟩, ⟨4, 0⟩] : List listhead) = pre ++ head :: post →
      ∃ (out : List Nat) (strpos pos : Nat) (dst src buf buf1 enc : List Nat),
        toBytesLoop [0x83, 0x63, 0x61, 0x74] pre
            (List.replicate
              (encbuf.size ⟨[0x83, 0x63, 0x61, 0x74], [⟨0, 5⟩, ⟨4, 0⟩], 2, List.replicate 9 0⟩).toNat 0)
            0 0 =
          some (out, strpos, pos) ∧
        (out.length : Int) =
          encbuf.size ⟨[0x83, 0x63, 0x61, 0x74], [⟨0, 5⟩, ⟨4, 0⟩], 2, List.replicate 9 0⟩ ∧
        pos ≤ out.length ∧
        (strpos : Int) ≤ head.offset ∧
        head.offset ≤ ((([0x83, 0x63, 0x61, 0x74] : List Nat).length : Nat) : Int) ∧
        slice out (pos : Int) (out.length : Int) = some dst ∧
        slice [0x83, 0x63, 0x61, 0x74] (strpos : Int) head.offset = some src ∧
        (copy dst src).2 = src.length ∧
        slice (out.take pos ++ (copy dst src).1) ((pos + (copy dst src).2 : Nat) : Int)
          ((out.take pos ++ (copy dst src).1).length : Int) = some buf ∧
        head.encode buf = some (buf1, enc) ∧
        enc.length ≤ buf.length ∧
        0 ≤ head.size ∧
        enc.length = (if head.size < 56 then 1 else 1 + intsize (uint64 head.size))) ∧
    (∃ s0 : Session, (Session.start encbuf.new).runWB [Op.list, Op.listEnd 0] = some s0 ∧
      s0.opened = [] ∧ s0.w.lheads = [{ offset := 0, size := 0 }] ∧ s0.w.size = 1 ∧
      toBytesLoop s0.w.str [] (List.replicate s0.w.size.toNat 0) 0 0 = some ([0], 0, 0) ∧
      slice ([0] : List Nat) 0 1 = some [0] ∧ ([0] : List Nat).length < 9 ∧
      listhead.encode { offset := 0, size := 0 } [0] = some ([0xC0], [0xC0]) ∧
      s0.w.toBytes = some [0xC0]) :=
  ⟨by rfl, by decide,
    toBytes_in_range encbuf.new
      [Op.list, Op.encodeString [0x63, 0x61, 0x74], Op.list, Op.listEnd 1, Op.listEnd 0] _
      (by rfl) (by rfl) (by decide)⟩

end Rlp
